import Mathlib

/-!
# hmsketch: a labelled histogram registry

A shallow embedding of `hmsketch.go` and the properties of its registry layer.

Modelling conventions.

* A Go `map[K]V` is an association list `GoMap K V` read with `GoMap.get` and written with
  `GoMap.set`; the order of the list carries no meaning.  Wherever the source ranges over a
  map, the order of the visit is an explicit argument: a label map `map[string]string` is
  given as the list of its entries in the order of the visit, and the visit of `allkvps` in
  `Combine`/`Cancel` is a list `ord` of identifiers.
* `int64` identifiers and Go `int` slot positions are `Int`.  `Max` counts the registers held
  in memory, so `m.Max++` cannot wrap around.
* A slice read `xs[i]` outside `0 ≤ i < len(xs)` panics in Go; here it is `none`, and every
  operation that reads a register returns an `Option`.
* `float64` values and counts are rationals `ℚ`, as every finite `float64` is; the registry
  only hands them to the histogram and does no arithmetic on them.  What the histogram's
  `Total` does under `Insert`, `Combine` and `Cancel` is a hypothesis of the theorem that
  needs it, and a theorem about `Cancel` states which histogram the result holds rather than
  a law of subtraction, which rounding need not obey.
* The histogram package is external: its operations are the fields of `hist.Histogram`, and
  the parts of its contract a theorem relies on are hypotheses of that theorem.
* Every method has a value receiver and returns its result, and in Go the receiver and the
  result of `Insert` share the map `Index` and the storage of `Registers`, while `Max` and the
  slice header are copied.  The embedding has two layers.  The registry `HMSketch` and its
  methods give, for one call, the registry the result shows as a function of the registries the
  operands show at the call.  The section on shared storage embeds the source with a memory of
  maps and arrays (`Mem`, `Obj`), proves that its methods do to the views exactly what the
  first layer says (`Insert_view`, `Combine_view`, `Cancel_view`, `Sketch_view`), and
  describes programs (`Run`): in a program that never uses a value again after it has been the
  receiver of an `Insert`, every value shows a registry of `Reachable`
  (`Run.owned_reachable`); a program that does use such a value reaches states outside it.
  The mutex `hMux` only serialises calls and has no counterpart here.
-/

/-! ## The keyed hash -/

namespace siphash

/-- Rotation of a 64-bit word to the left by `b` bits. -/
def rotl (x b : Nat) : Nat := ((x <<< b) ||| (x >>> (64 - b))) % 2 ^ 64

/-- The four 64-bit words of the internal state. -/
structure State where
  v0 : Nat
  v1 : Nat
  v2 : Nat
  v3 : Nat
deriving DecidableEq

/-- One SipRound. -/
def round (s : State) : State :=
  let v0 := (s.v0 + s.v1) % 2 ^ 64
  let v1 := rotl s.v1 13
  let v1 := v1 ^^^ v0
  let v0 := rotl v0 32
  let v2 := (s.v2 + s.v3) % 2 ^ 64
  let v3 := rotl s.v3 16
  let v3 := v3 ^^^ v2
  let v0 := (v0 + v3) % 2 ^ 64
  let v3 := rotl v3 21
  let v3 := v3 ^^^ v0
  let v2 := (v2 + v1) % 2 ^ 64
  let v1 := rotl v1 17
  let v1 := v1 ^^^ v2
  let v2 := rotl v2 32
  { v0 := v0, v1 := v1, v2 := v2, v3 := v3 }

/-- Little-endian value of a list of bytes. -/
def le64 : List Nat → Nat
  | [] => 0
  | b :: bs => b % 256 + 256 * le64 bs

/-- Absorb one 64-bit message word with two rounds. -/
def compress (s : State) (m : Nat) : State :=
  let s := { s with v3 := s.v3 ^^^ m }
  let s := round (round s)
  { s with v0 := s.v0 ^^^ m }

/-- Absorb `n` whole 8-byte blocks; returns the state and the bytes left over. -/
def absorb : Nat → State → List Nat → State × List Nat
  | 0, s, bs => (s, bs)
  | n + 1, s, bs => absorb n (compress s (le64 (bs.take 8))) (bs.drop 8)

/-- Modelled from the spec: the keyed hash of §4.1 ("a keyed pseudorandom hash, e.g. a SipHash
variant"), which the source takes from the external package `github.com/dchest/siphash` as
`siphash.New(key)`, `Write(msg)`, `Sum64()`: SipHash-2-4 with a 16-byte key and a 64-bit
result. -/
def sum64 (key msg : List Nat) : Nat :=
  let k0 := le64 (key.take 8)
  let k1 := le64 ((key.drop 8).take 8)
  let s : State :=
    { v0 := k0 ^^^ 0x736f6d6570736575, v1 := k1 ^^^ 0x646f72616e646f6d,
      v2 := k0 ^^^ 0x6c7967656e657261, v3 := k1 ^^^ 0x7465646279746573 }
  let r := absorb (msg.length / 8) s msg
  let b := ((msg.length % 256) <<< 56) ||| le64 r.2
  let s := compress r.1 b
  let s := { s with v2 := s.v2 ^^^ 0xff }
  let s := round (round (round (round s)))
  s.v0 ^^^ s.v1 ^^^ s.v2 ^^^ s.v3

end siphash

/-! ## The histogram collaborator -/

namespace hist

/-- The operations of the external histogram type `hist.Histogram` that the registry calls:
`hist.New(resolution)` and the methods `Insert(value, count)`, `Combine(other)`,
`Cancel(other)`, `Min(other)` and `Total()`.  `Total` returns a `float64`; its finite values
are rationals, and no law of arithmetic on them is built in. -/
class Histogram (H : Type) where
  New : Int → H
  Insert : H → ℚ → ℚ → H
  Combine : H → H → H
  Cancel : H → H → H
  Min : H → H → H
  Total : H → ℚ

/-- Modelled from the spec: a histogram meeting the contract of §6 that keeps a single bucket,
so that its whole content is the mass in that bucket.  It is the instance at which the
general theorems are evaluated. -/
structure OneBucket where
  mass : ℚ
deriving DecidableEq

instance : Histogram OneBucket where
  New _ := ⟨0⟩
  Insert h _ count := ⟨h.mass + count⟩
  Combine a b := ⟨a.mass + b.mass⟩
  Cancel a b := ⟨a.mass - b.mass⟩
  Min a b := ⟨min a.mass b.mass⟩
  Total h := h.mass

/-- Modelled from the spec: a histogram meeting the contract of §6 with a single bucket that
also keeps the number of observations it has received, one for every `Insert` call whatever its
count. -/
structure Tally where
  mass : ℚ
  observations : Nat
deriving DecidableEq

instance : Histogram Tally where
  New _ := ⟨0, 0⟩
  Insert h _ count := ⟨h.mass + count, h.observations + 1⟩
  Combine a b := ⟨a.mass + b.mass, a.observations + b.observations⟩
  Cancel a b := ⟨a.mass - b.mass, a.observations - b.observations⟩
  Min a b := ⟨min a.mass b.mass, min a.observations b.observations⟩
  Total h := h.mass

end hist

namespace hmsketch

open hist

set_option linter.unusedSectionVars false

/-! ## Go maps and slices -/

/-- A Go map as an association list. -/
abbrev GoMap (κ ν : Type) := List (κ × ν)

/-- The two-valued map read `v, ok := m[k]`: `some v` when `k` is a key. -/
def GoMap.get {κ ν : Type} [DecidableEq κ] : GoMap κ ν → κ → Option ν
  | [], _ => none
  | (k', v) :: m, k => if k' = k then some v else GoMap.get m k

/-- The map write `m[k] = v`. -/
def GoMap.set {κ ν : Type} [DecidableEq κ] : GoMap κ ν → κ → ν → GoMap κ ν
  | [], k, v => [(k, v)]
  | (k', v') :: m, k, v => if k' = k then (k, v) :: m else (k', v') :: GoMap.set m k v

/-- The keys of a map. -/
def GoMap.keys {κ ν : Type} (m : GoMap κ ν) : List κ := m.map Prod.fst

/-- An order in which a `for x := range m` loop may visit the keys of `m`. -/
def IterOrder {κ ν : Type} (ord : List κ) (m : GoMap κ ν) : Prop := ord.Perm (GoMap.keys m)

/-- The slice read `rs[i]`; `none` is the index-out-of-range panic. -/
def regAt {H : Type} (rs : List H) (i : Int) : Option H :=
  if 0 ≤ i then rs[i.toNat]? else none

/-! ## hash -/

/-- The key material `sipConst`. -/
def sipConst : List Nat := [0, 1, 2, 3, 4, 5, 6, 7, 8, 9, 10, 11, 12, 13, 14, 15]

/-- UTF-8 bytes of one code point. -/
def utf8 (c : Nat) : List Nat :=
  if c < 0x80 then [c]
  else if c < 0x800 then [0xc0 + c / 0x40, 0x80 + c % 0x40]
  else if c < 0x10000 then [0xe0 + c / 0x1000, 0x80 + c / 0x40 % 0x40, 0x80 + c % 0x40]
  else [0xf0 + c / 0x40000, 0x80 + c / 0x1000 % 0x40, 0x80 + c / 0x40 % 0x40, 0x80 + c % 0x40]

/-- The conversion `[]byte(s)`. -/
def toBytes (s : String) : List Nat := s.data.flatMap fun c => utf8 c.toNat

/-- The conversion `int64(u)` of a 64-bit unsigned value. -/
def toInt64 (u : Nat) : Int :=
  if u < 2 ^ 63 then (u : Int) else (u : Int) - 18446744073709551616

/-- The string `key + ":::" + value` that `hash` writes to the keyed hash. -/
def enc (key value : String) : String := key ++ ":::" ++ value

/-- The function `hash`: an object into an int64 hash. -/
def hash (key value : String) : Int :=
  toInt64 (siphash.sum64 sipConst (toBytes (enc key value)))

/-- A label map `map[string]string`, as the list of its entries in the order of the visit. -/
abbrev Labels := List (String × String)

/-- A list of entries is a Go map when no key occurs twice. -/
def IsLabelMap (kvs : Labels) : Prop := (kvs.map Prod.fst).Nodup

/-- The literal `map[string]string{"__global__": "__global__"}`. -/
def globalLabels : Labels := [("__global__", "__global__")]

/-- The identifier `hash("__global__", "__global__")`. -/
def globalId : Int := hash "__global__" "__global__"

/-- The identifier of a label pair. -/
def pairId (kv : String × String) : Int := hash kv.1 kv.2

/-! ## The registry -/

/-- The struct `HMSketch`. -/
structure HMSketch (H : Type) where
  Resolution : Int
  Max : Int
  Index : GoMap Int Int
  Registers : List H

variable {H : Type} [Histogram H]

/-- The method `global`: the register at `m.Index[location]`, where a missing key reads as
position 0. -/
def HMSketch.global (m : HMSketch H) : Option H :=
  let location := hash "__global__" "__global__"
  regAt m.Registers ((GoMap.get m.Index location).getD 0)

/-- One pass through the body of the loop of `insert`, for the entry `kv`: the registry the
copy `m` shows after the pass, from the one it shows before.  What the pass does to the storage
shared with the caller is `Obj.insertStep`; `insertStep_view` relates the two. -/
def HMSketch.insertStep (value count : ℚ) (m : HMSketch H) (kv : String × String) :
    Option (HMSketch H) :=
  let location := hash kv.1 kv.2
  let m : HMSketch H :=
    if (GoMap.get m.Index location).isSome then m
    else
      { m with
        Index := GoMap.set m.Index location m.Max
        Max := m.Max + 1
        Registers := m.Registers ++ [Histogram.New m.Resolution] }
  let i := (GoMap.get m.Index location).getD 0
  match regAt m.Registers i with
  | none => none
  | some h =>
    some { m with Registers := m.Registers.set i.toNat (Histogram.Insert h value count) }

/-- The method `insert`: the raw register manipulation. -/
def HMSketch.insert (m : HMSketch H) (kvs : Labels) (value count : ℚ) : Option (HMSketch H) :=
  kvs.foldlM (HMSketch.insertStep value count) m

/-- The constructor `New`. -/
def New (resolution : Int) : Option (HMSketch H) :=
  let x : HMSketch H := { Resolution := resolution, Max := 0, Index := [], Registers := [] }
  x.insert globalLabels 0 0

/-- The method `Insert`. -/
def HMSketch.Insert (m : HMSketch H) (kvs : Labels) (value count : ℚ) : Option (HMSketch H) :=
  (m.insert globalLabels value count).bind fun m => m.insert kvs value count

/-- The map `allkvps` built by the first two loops of `Combine` and `Cancel`. -/
def allkvps (m o : HMSketch H) : GoMap Int Bool :=
  let s := (GoMap.keys m.Index).foldl (fun acc x => GoMap.set acc x true) []
  (GoMap.keys o.Index).foldl (fun acc x => GoMap.set acc x true) s

/-- One pass through the body of the third loop of `Combine`, for the identifier `x`. -/
def HMSketch.combineStep (m o out : HMSketch H) (x : Int) : Option (HMSketch H) :=
  let m1 := (GoMap.get m.Index x).getD 0
  let okm := (GoMap.get m.Index x).isSome
  let o1 := (GoMap.get o.Index x).getD 0
  let oko := (GoMap.get o.Index x).isSome
  let out : HMSketch H := { out with Index := GoMap.set out.Index x out.Max, Max := out.Max + 1 }
  if !okm then
    match regAt o.Registers o1 with
    | none => none
    | some b => some { out with Registers := out.Registers ++ [b] }
  else if !oko then
    match regAt m.Registers m1 with
    | none => none
    | some a => some { out with Registers := out.Registers ++ [a] }
  else
    match regAt m.Registers m1, regAt o.Registers o1 with
    | some a, some b => some { out with Registers := out.Registers ++ [Histogram.Combine a b] }
    | _, _ => none

/-- The method `Combine`; `ord` is the order in which the third loop visits `allkvps`. -/
def HMSketch.Combine (m o : HMSketch H) (ord : List Int) : Option (HMSketch H) :=
  (New m.Resolution).bind fun out => ord.foldlM (HMSketch.combineStep m o) out

/-- One pass through the body of the third loop of `Cancel`, for the identifier `x`. -/
def HMSketch.cancelStep (m o out : HMSketch H) (x : Int) : Option (HMSketch H) :=
  let m1 := (GoMap.get m.Index x).getD 0
  let okm := (GoMap.get m.Index x).isSome
  let o1 := (GoMap.get o.Index x).getD 0
  let oko := (GoMap.get o.Index x).isSome
  let out : HMSketch H := { out with Index := GoMap.set out.Index x out.Max, Max := out.Max + 1 }
  if !okm then
    match regAt o.Registers o1 with
    | none => none
    | some b =>
      some { out with
        Registers := out.Registers ++ [Histogram.Cancel (Histogram.New m.Resolution) b] }
  else if !oko then
    match regAt m.Registers m1 with
    | none => none
    | some a => some { out with Registers := out.Registers ++ [a] }
  else
    match regAt m.Registers m1, regAt o.Registers o1 with
    | some a, some b => some { out with Registers := out.Registers ++ [Histogram.Cancel a b] }
    | _, _ => none

/-- The method `Cancel`; `ord` is the order in which the third loop visits `allkvps`. -/
def HMSketch.Cancel (m o : HMSketch H) (ord : List Int) : Option (HMSketch H) :=
  (New m.Resolution).bind fun out => ord.foldlM (HMSketch.cancelStep m o) out

/-- The loop of `Sketch` over the entries still to visit, with the running `output`. -/
def HMSketch.sketchLoop (m : HMSketch H) : Labels → H → Option H
  | [], output => some output
  | kv :: rest, output =>
    let location := hash kv.1 kv.2
    if (GoMap.get m.Index location).isSome then
      match regAt m.Registers ((GoMap.get m.Index location).getD 0) with
      | none => none
      | some h => HMSketch.sketchLoop m rest (Histogram.Min output h)
    else some (Histogram.New m.Resolution)

/-- The method `Sketch`. -/
def HMSketch.Sketch (m : HMSketch H) (kvs : Labels) : Option H :=
  m.global.bind fun output => m.sketchLoop kvs output

/-- The method `Count`. -/
def HMSketch.Count (m : HMSketch H) (kvs : Labels) : Option ℚ :=
  (m.Sketch kvs).map Histogram.Total

/-- The method `TotalCount`. -/
def HMSketch.TotalCount (m : HMSketch H) : Option ℚ :=
  m.global.map Histogram.Total

/-! ## Specification vocabulary -/

/-- The histogram a registry holds for the identifier `x`: the register at the slot position
the index gives for `x`; `none` when `x` is not a key or the position is out of range. -/
def HMSketch.histAt (m : HMSketch H) (x : Int) : Option H :=
  (GoMap.get m.Index x).bind (regAt m.Registers)

/-- The slots of a registry are consistent: `Max` is the number of registers, every slot
position in the index is in range, and no two identifiers share a position. -/
structure SlotsOK (m : HMSketch H) : Prop where
  max_eq : m.Max = m.Registers.length
  in_range : ∀ k i, GoMap.get m.Index k = some i → 0 ≤ i ∧ i < m.Registers.length
  inj : ∀ k k' i, GoMap.get m.Index k = some i → GoMap.get m.Index k' = some i → k = k'

/-- Well-formed registry: consistent slots, and the global identifier is indexed. -/
def WF (m : HMSketch H) : Prop := SlotsOK m ∧ (GoMap.get m.Index globalId).isSome = true

/-- The registries obtained from `New` by `Insert`, `Combine` and `Cancel`, each call taken
as a function of the registries its operands show.  These are the registries shown by the
values of a program that never uses a value again after it has been the receiver of an
`Insert` (`Run.owned_reachable`); a receiver used again after an `Insert` that added an
identifier shows a registry outside this set. -/
inductive Reachable {H : Type} [Histogram H] : HMSketch H → Prop
  | new (r : Int) (R : HMSketch H) : New r = some R → Reachable R
  | insert (R R' : HMSketch H) (kvs : Labels) (v c : ℚ) :
      Reachable R → IsLabelMap kvs → R.Insert kvs v c = some R' → Reachable R'
  | combine (a b out : HMSketch H) (ord : List Int) :
      Reachable a → Reachable b → IterOrder ord (allkvps a b) →
      a.Combine b ord = some out → Reachable out
  | cancel (a b out : HMSketch H) (ord : List Int) :
      Reachable a → Reachable b → IterOrder ord (allkvps a b) →
      a.Cancel b ord = some out → Reachable out

/-- The number of entries of `kvs` whose identifier is `x`. -/
def hits (x : Int) (kvs : Labels) : Nat := kvs.countP fun kv => decide (pairId kv = x)

/-- The histogram `h` after `n` calls of `Insert(value, count)`. -/
def insertN (n : Nat) (value count : ℚ) (h : H) : H :=
  (fun h => Histogram.Insert h value count)^[n] h

/-- A sequence of `Insert` calls, each applied to the registry the previous one returned. -/
def runInserts (m : HMSketch H) : List (Labels × ℚ × ℚ) → Option (HMSketch H)
  | [] => some m
  | op :: rest => (m.Insert op.1 op.2.1 op.2.2).bind fun m => runInserts m rest

/-- The registry built from `New(resolution)` by a sequence of `Insert` calls. -/
def build (resolution : Int) (ops : List (Labels × ℚ × ℚ)) : Option (HMSketch H) :=
  (New resolution).bind fun m => runInserts m ops

/-- The registry `out` after one pass of the third loop of `Combine` or `Cancel` that appends
the histogram `h` for the identifier `x`. -/
def HMSketch.push (out : HMSketch H) (x : Int) (h : H) : HMSketch H :=
  { out with
    Index := GoMap.set out.Index x out.Max
    Max := out.Max + 1
    Registers := out.Registers ++ [h] }

/-- The histogram `Combine` stores for the identifier `x`, by the three cases of the source. -/
def combineReg (m o : HMSketch H) (x : Int) : Option H :=
  match m.histAt x, o.histAt x with
  | none, none => none
  | some a, none => some a
  | none, some b => some b
  | some a, some b => some (Histogram.Combine a b)

/-- The histogram `Cancel` stores for the identifier `x`, by the three cases of the source. -/
def cancelReg (m o : HMSketch H) (x : Int) : Option H :=
  match m.histAt x, o.histAt x with
  | none, none => none
  | some a, none => some a
  | none, some b => some (Histogram.Cancel (Histogram.New m.Resolution) b)
  | some a, some b => some (Histogram.Cancel a b)

/-- The end-to-end example of the test suite: `New(2)` followed by its four `Insert` calls. -/
def example4 : Option (HMSketch H) :=
  build 2
    [([("group", "a"), ("instance", "a"), ("job", "c"), ("service", "d")], 10.4, 1),
     ([("group", "a"), ("instance", "a"), ("job", "c"), ("service", "d")], 45.4, 1),
     ([("group", "a"), ("instance", "a"), ("job", "c"), ("service", "d")], 12.4, 2),
     ([("group", "a"), ("instance", "b"), ("job", "d"), ("service", "q")], 10.4, 1)]

/-- What one pass of the loop of `insert` for the identifier `loc` does to a registry `m`,
giving `m'`. -/
structure StepSpec (v c : ℚ) (m m' : HMSketch H) (loc : Int) : Prop where
  ok : SlotsOK m'
  res : m'.Resolution = m.Resolution
  keys : ∀ x, (GoMap.get m'.Index x).isSome = true ↔
    (x = loc ∨ (GoMap.get m.Index x).isSome = true)
  keep : ∀ x i, GoMap.get m.Index x = some i → GoMap.get m'.Index x = some i
  at_loc : m'.histAt loc =
    some (Histogram.Insert ((m.histAt loc).getD (Histogram.New m.Resolution)) v c)
  frame : ∀ x, x ≠ loc → m'.histAt x = m.histAt x

/-- What `insert` with the entries `kvs` does to a registry `m`, giving `m'`. -/
structure InsertSpec (v c : ℚ) (m m' : HMSketch H) (kvs : Labels) : Prop where
  ok : SlotsOK m'
  res : m'.Resolution = m.Resolution
  keys : ∀ x, (GoMap.get m'.Index x).isSome = true ↔
    ((GoMap.get m.Index x).isSome = true ∨ ∃ kv ∈ kvs, pairId kv = x)
  keep : ∀ x i, GoMap.get m.Index x = some i → GoMap.get m'.Index x = some i
  hist : ∀ x, m'.histAt x =
    if hits x kvs = 0 then m.histAt x
    else some (insertN (hits x kvs) v c ((m.histAt x).getD (Histogram.New m.Resolution)))

/-- What the third loop of `Combine` or `Cancel` does to the registry `out` when it visits the
identifiers `ord` and stores the histogram `f x` for `x`, giving `out'`. -/
structure MergeSpec (f : Int → Option H) (out out' : HMSketch H) (ord : List Int) : Prop where
  ok : SlotsOK out'
  res : out'.Resolution = out.Resolution
  max : out'.Max = out.Max + ord.length
  keys : ∀ x, (GoMap.get out'.Index x).isSome = true ↔
    ((GoMap.get out.Index x).isSome = true ∨ x ∈ ord)
  hist : ∀ x ∈ ord, out'.histAt x = f x
  frame : ∀ x, x ∉ ord → out'.histAt x = out.histAt x

/-- What `Combine` (with `f = combineReg m o`) or `Cancel` (with `f = cancelReg m o`) returns
for the operands `m` and `o`. -/
structure MergedSpec (f : Int → Option H) (m o out : HMSketch H) : Prop where
  wf : WF out
  res : out.Resolution = m.Resolution
  keys : ∀ x, (GoMap.get out.Index x).isSome = true ↔
    (x = globalId ∨ (GoMap.get m.Index x).isSome = true ∨ (GoMap.get o.Index x).isSome = true)
  hist : ∀ x, ((GoMap.get m.Index x).isSome = true ∨ (GoMap.get o.Index x).isSome = true) →
    out.histAt x = f x

/-- The registry `New(resolution)` returns: the global identifier at slot 0, holding a fresh
histogram after `Insert(0, 0)`. -/
def newReg (resolution : Int) : HMSketch H :=
  { Resolution := resolution, Max := 1, Index := [(globalId, 0)],
    Registers := [Histogram.Insert (Histogram.New resolution) 0 0] }

/-- The sum of the counts of a sequence of `Insert` calls. -/
def countSum : List (Labels × ℚ × ℚ) → ℚ
  | [] => 0
  | op :: rest => op.2.2 + countSum rest

/-- The registry built from `New(resolution)` by a sequence of `Insert` calls, as a value (the
calls always return, see `build_eq_built`). -/
def built (resolution : Int) (ops : List (Labels × ℚ × ℚ)) : HMSketch H :=
  (build resolution ops).getD (newReg resolution)

/-- The string contains the separator `:::`. -/
def containsSep (s : String) : Prop := [':', ':', ':'] <:+: s.data

/-- The string ends with the character `:`. -/
def endsWithColon (s : String) : Prop := [':'] <:+ s.data

instance (s : String) : Decidable (containsSep s) :=
  inferInstanceAs (Decidable ([':', ':', ':'] <:+: s.data))

instance (s : String) : Decidable (endsWithColon s) :=
  inferInstanceAs (Decidable ([':'] <:+ s.data))

instance (kvs : Labels) : Decidable (IsLabelMap kvs) :=
  inferInstanceAs (Decidable (kvs.map Prod.fst).Nodup)

/-- A sample registry over the single-bucket histogram: `New(2)` followed by
`Insert({"group": "a", "job": "c"}, 10.4, 1)`. -/
def regA : HMSketch OneBucket := built 2 [([("group", "a"), ("job", "c")], 10.4, 1)]

/-- A second sample registry: `New(3)` followed by
`Insert({"group": "b", "job": "c"}, 12.4, 2)`. -/
def regB : HMSketch OneBucket := built 3 [([("group", "b"), ("job", "c")], 12.4, 2)]

/-- The histograms a registry holds for the identifiers of the entries `kvs`, in the order of
the entries. -/
def marginals (m : HMSketch H) (kvs : Labels) : List H :=
  kvs.filterMap fun kv => m.histAt (pairId kv)

/-- The number of distinct identifiers in the index of a registry. -/
def idCount (m : HMSketch H) : Nat := (GoMap.keys m.Index).toFinset.card

/-- The observations `(value, count)` that the `Insert` calls `ops` apply, in order, to the
histogram of the identifier `x`: each call applies its observation once for the global pair and
once for every entry of its label map with the identifier `x`. -/
def events (x : Int) : List (Labels × ℚ × ℚ) → List (ℚ × ℚ)
  | [] => []
  | op :: rest =>
    List.replicate (hits x (("__global__", "__global__") :: op.1)) (op.2.1, op.2.2) ++
      events x rest

/-- The histogram `h` after `Insert` of each observation of `evs`, in order. -/
def applyEvents (evs : List (ℚ × ℚ)) (h : H) : H :=
  evs.foldl (fun h e => Histogram.Insert h e.1 e.2) h

/-- The histogram that the registry `New(r)` followed by the `Insert` calls `ops` holds for the
identifier `x`: the observations of `x` applied to the histogram `New` made for the global
identifier, or to a fresh histogram for another identifier; none when `x` was never hit. -/
def replay (r : Int) (x : Int) (ops : List (Labels × ℚ × ℚ)) : Option H :=
  if x = globalId then
    some (applyEvents (events x ops) (Histogram.Insert (Histogram.New r) 0 0))
  else if events x ops = [] then none
  else some (applyEvents (events x ops) (Histogram.New r))

/-- The number of distinct label pairs observed by the `Insert` calls `ops`, counting the
reserved global pair. -/
def observedPairs (ops : List (Labels × ℚ × ℚ)) : Nat :=
  ((("__global__", "__global__") : String × String) ::
    ops.flatMap fun op => op.1).toFinset.card

/-! ## Shared storage

In Go a value of type `HMSketch` holds a reference to its map and a slice header; copies of the
value, such as the receiver of a method and the value the method returns, share the map and the
array behind the slice.  The definitions of this section embed the source with that sharing:
a memory `Mem` holds the maps and the arrays, an `Obj` is a value of type `HMSketch`, and every
method takes the memory at the call and returns the memory it leaves.  The registry of the
sections above is the `view` of an `Obj` in a memory, and the methods above are what the methods
of this section do to the views (`insertStep_view` and its successors). -/

/-- The memory: the maps made by `make(map[int64]int)` and the arrays behind the slices of
histograms, by address, each array with its capacity.  `grow` gives the capacity of the array
that `append` allocates when the old one, of the given capacity, is full; it belongs to the Go
runtime and depends on the size of the external type `hist.Histogram`. -/
structure Mem (H : Type) where
  maps : Nat → GoMap Int Int
  nextMap : Nat
  arrs : Nat → List H
  caps : Nat → Nat
  nextArr : Nat
  grow : Nat → Nat

/-- A slice header: the address of the array and the length. -/
structure Slice where
  arr : Nat
  len : Nat
deriving DecidableEq

/-- A value of the struct type `HMSketch`: `Index` is the address of the map, `Registers` a
slice header. -/
structure Obj where
  Resolution : Int
  Max : Int
  Index : Nat
  Registers : Slice
deriving DecidableEq

/-- The memory before anything is allocated. -/
def Mem.init (H : Type) (grow : Nat → Nat) : Mem H :=
  { maps := fun _ => [], nextMap := 0, arrs := fun _ => [], caps := fun _ => 0, nextArr := 0,
    grow := grow }

/-- The slice read `s[i]`; `none` is the index-out-of-range panic. -/
def Mem.read (σ : Mem H) (s : Slice) (i : Int) : Option H :=
  if 0 ≤ i ∧ i.toNat < s.len then (σ.arrs s.arr)[i.toNat]? else none

/-- The slice write `s[i] = x`, for an index in range. -/
def Mem.write (σ : Mem H) (s : Slice) (i : Int) (x : H) : Mem H :=
  { σ with arrs := Function.update σ.arrs s.arr ((σ.arrs s.arr).set i.toNat x) }

/-- The call `append(s, x)`: in place when the array has room beyond the length of `s`, into a
new array otherwise. -/
def Mem.append (σ : Mem H) (s : Slice) (x : H) : Mem H × Slice :=
  if s.len < σ.caps s.arr then
    ({ σ with
        arrs := Function.update σ.arrs s.arr
          ((σ.arrs s.arr).take s.len ++ x :: (σ.arrs s.arr).drop (s.len + 1)) },
      { arr := s.arr, len := s.len + 1 })
  else
    ({ σ with
        arrs := Function.update σ.arrs σ.nextArr ((σ.arrs s.arr).take s.len ++ [x])
        caps := Function.update σ.caps σ.nextArr (σ.grow (σ.caps s.arr))
        nextArr := σ.nextArr + 1 },
      { arr := σ.nextArr, len := s.len + 1 })

/-- The map write `m[k] = v` on the map at the address `a`. -/
def Mem.setMap (σ : Mem H) (a : Nat) (k v : Int) : Mem H :=
  { σ with maps := Function.update σ.maps a (GoMap.set (σ.maps a) k v) }

/-- The registry a value of type `HMSketch` shows in a memory. -/
def view (σ : Mem H) (m : Obj) : HMSketch H :=
  { Resolution := m.Resolution, Max := m.Max, Index := σ.maps m.Index,
    Registers := (σ.arrs m.Registers.arr).take m.Registers.len }

/-- The method `global`, on shared storage. -/
def Obj.global (σ : Mem H) (m : Obj) : Option H :=
  let location := hash "__global__" "__global__"
  σ.read m.Registers ((GoMap.get (σ.maps m.Index) location).getD 0)

/-- One pass through the body of the loop of `insert`, on shared storage: the map write goes to
the map the receiver shares with its caller, `m.Max++` and the new slice header stay in the
copy `m`. -/
def Obj.insertStep (value count : ℚ) (st : Mem H × Obj) (kv : String × String) :
    Option (Mem H × Obj) :=
  let location := hash kv.1 kv.2
  let st1 : Mem H × Obj :=
    if (GoMap.get (st.1.maps st.2.Index) location).isSome then st
    else
      let σ1 := st.1.setMap st.2.Index location st.2.Max
      let r := σ1.append st.2.Registers (Histogram.New st.2.Resolution)
      (r.1, { st.2 with Max := st.2.Max + 1, Registers := r.2 })
  let i := (GoMap.get (st1.1.maps st1.2.Index) location).getD 0
  match st1.1.read st1.2.Registers i with
  | none => none
  | some h => some (st1.1.write st1.2.Registers i (Histogram.Insert h value count), st1.2)

/-- The method `insert`, on shared storage. -/
def Obj.insert (σ : Mem H) (m : Obj) (kvs : Labels) (value count : ℚ) : Option (Mem H × Obj) :=
  kvs.foldlM (Obj.insertStep value count) (σ, m)

/-- The constructor `New`, on shared storage: a new map, a new empty slice. -/
def Obj.New (σ : Mem H) (resolution : Int) : Option (Mem H × Obj) :=
  let x : Obj :=
    { Resolution := resolution, Max := 0, Index := σ.nextMap,
      Registers := { arr := σ.nextArr, len := 0 } }
  let σ1 : Mem H :=
    { σ with
      maps := Function.update σ.maps σ.nextMap []
      nextMap := σ.nextMap + 1
      arrs := Function.update σ.arrs σ.nextArr []
      caps := Function.update σ.caps σ.nextArr 0
      nextArr := σ.nextArr + 1 }
  Obj.insert σ1 x globalLabels 0 0

/-- The method `Insert`, on shared storage. -/
def Obj.Insert (σ : Mem H) (m : Obj) (kvs : Labels) (value count : ℚ) : Option (Mem H × Obj) :=
  (Obj.insert σ m globalLabels value count).bind fun st => Obj.insert st.1 st.2 kvs value count

/-- One pass through the body of the third loop of `Combine`, on shared storage. -/
def Obj.combineStep (m o : Obj) (st : Mem H × Obj) (x : Int) : Option (Mem H × Obj) :=
  let m1 := (GoMap.get (st.1.maps m.Index) x).getD 0
  let okm := (GoMap.get (st.1.maps m.Index) x).isSome
  let o1 := (GoMap.get (st.1.maps o.Index) x).getD 0
  let oko := (GoMap.get (st.1.maps o.Index) x).isSome
  let σ1 := st.1.setMap st.2.Index x st.2.Max
  let out : Obj := { st.2 with Max := st.2.Max + 1 }
  if !okm then
    match σ1.read o.Registers o1 with
    | none => none
    | some b =>
      let r := σ1.append out.Registers b
      some (r.1, { out with Registers := r.2 })
  else if !oko then
    match σ1.read m.Registers m1 with
    | none => none
    | some a =>
      let r := σ1.append out.Registers a
      some (r.1, { out with Registers := r.2 })
  else
    match σ1.read m.Registers m1, σ1.read o.Registers o1 with
    | some a, some b =>
      let r := σ1.append out.Registers (Histogram.Combine a b)
      some (r.1, { out with Registers := r.2 })
    | _, _ => none

/-- The method `Combine`, on shared storage; `ord` is the order in which the third loop visits
`allkvps`. -/
def Obj.Combine (σ : Mem H) (m o : Obj) (ord : List Int) : Option (Mem H × Obj) :=
  (Obj.New σ m.Resolution).bind fun st => ord.foldlM (Obj.combineStep m o) st

/-- One pass through the body of the third loop of `Cancel`, on shared storage. -/
def Obj.cancelStep (m o : Obj) (st : Mem H × Obj) (x : Int) : Option (Mem H × Obj) :=
  let m1 := (GoMap.get (st.1.maps m.Index) x).getD 0
  let okm := (GoMap.get (st.1.maps m.Index) x).isSome
  let o1 := (GoMap.get (st.1.maps o.Index) x).getD 0
  let oko := (GoMap.get (st.1.maps o.Index) x).isSome
  let σ1 := st.1.setMap st.2.Index x st.2.Max
  let out : Obj := { st.2 with Max := st.2.Max + 1 }
  if !okm then
    match σ1.read o.Registers o1 with
    | none => none
    | some b =>
      let r := σ1.append out.Registers
        (Histogram.Cancel (Histogram.New m.Resolution) b)
      some (r.1, { out with Registers := r.2 })
  else if !oko then
    match σ1.read m.Registers m1 with
    | none => none
    | some a =>
      let r := σ1.append out.Registers a
      some (r.1, { out with Registers := r.2 })
  else
    match σ1.read m.Registers m1, σ1.read o.Registers o1 with
    | some a, some b =>
      let r := σ1.append out.Registers (Histogram.Cancel a b)
      some (r.1, { out with Registers := r.2 })
    | _, _ => none

/-- The method `Cancel`, on shared storage. -/
def Obj.Cancel (σ : Mem H) (m o : Obj) (ord : List Int) : Option (Mem H × Obj) :=
  (Obj.New σ m.Resolution).bind fun st => ord.foldlM (Obj.cancelStep m o) st

/-- The loop of `Sketch`, on shared storage. -/
def Obj.sketchLoop (σ : Mem H) (m : Obj) : Labels → H → Option H
  | [], output => some output
  | kv :: rest, output =>
    let location := hash kv.1 kv.2
    if (GoMap.get (σ.maps m.Index) location).isSome then
      match σ.read m.Registers ((GoMap.get (σ.maps m.Index) location).getD 0) with
      | none => none
      | some h => Obj.sketchLoop σ m rest (Histogram.Min output h)
    else some (Histogram.New m.Resolution)

/-- The method `Sketch`, on shared storage. -/
def Obj.Sketch (σ : Mem H) (m : Obj) (kvs : Labels) : Option H :=
  (Obj.global σ m).bind fun output => Obj.sketchLoop σ m kvs output

/-- The method `Count`, on shared storage. -/
def Obj.Count (σ : Mem H) (m : Obj) (kvs : Labels) : Option ℚ :=
  (Obj.Sketch σ m kvs).map Histogram.Total

/-- The method `TotalCount`, on shared storage. -/
def Obj.TotalCount (σ : Mem H) (m : Obj) : Option ℚ :=
  (Obj.global σ m).map Histogram.Total

/-- A value is usable in a memory: its map and its array are allocated, and its slice lies
within what has been written to the array. -/
def Valid (σ : Mem H) (m : Obj) : Prop :=
  m.Registers.len ≤ (σ.arrs m.Registers.arr).length ∧ m.Index < σ.nextMap ∧
    m.Registers.arr < σ.nextArr

/-- The memory `σ'` extends `σ` and differs from it, on what `σ` had allocated, at most in the
map at the address `ix` and in the array at the address `ar`. -/
def Ext (σ σ' : Mem H) (ix ar : Nat) : Prop :=
  σ'.grow = σ.grow ∧ σ.nextMap ≤ σ'.nextMap ∧ σ.nextArr ≤ σ'.nextArr ∧
    (∀ a, a < σ.nextMap → a ≠ ix → σ'.maps a = σ.maps a) ∧
    (∀ a, a < σ.nextArr → a ≠ ar → σ'.arrs a = σ.arrs a)

/-- The result `r` of a method on shared storage, called in the memory `σ` on the value `m`,
shows the registry `p`: both panic, or `r` is a memory and a value whose view is `p`, the value
keeps the map of `m`, and its array is that of `m` or a new one. -/
def Sim (σ : Mem H) (m : Obj) (r : Option (Mem H × Obj)) (p : Option (HMSketch H)) : Prop :=
  match r with
  | none => p = none
  | some st =>
    p = some (view st.1 st.2) ∧ Valid st.1 st.2 ∧ Ext σ st.1 m.Index m.Registers.arr ∧
      st.2.Index = m.Index ∧
      (st.2.Registers.arr = m.Registers.arr ∨ σ.nextArr ≤ st.2.Registers.arr)

/-- The result `r` of a constructing method on shared storage (`New`, `Combine`, `Cancel`),
called in the memory `σ`, shows the registry `p`: both panic, or `r` is a memory that keeps
everything `σ` had allocated and a value, with a new map and a new array, whose view is `p`. -/
def SimNew (σ : Mem H) (r : Option (Mem H × Obj)) (p : Option (HMSketch H)) : Prop :=
  match r with
  | none => p = none
  | some st =>
    p = some (view st.1 st.2) ∧ Valid st.1 st.2 ∧ Ext σ st.1 σ.nextMap σ.nextArr ∧
      σ.nextMap ≤ st.2.Index ∧ σ.nextArr ≤ st.2.Registers.arr

/-- The histogram the third loop of `Combine` appends for an identifier, from the two map reads
`gm`, `go` and the register reads `rm`, `ro` of the operands. -/
def combinePick (gm go : Option Int) (rm ro : Int → Option H) : Option H :=
  if !gm.isSome then ro (go.getD 0)
  else if !go.isSome then rm (gm.getD 0)
  else
    match rm (gm.getD 0), ro (go.getD 0) with
    | some a, some b => some (Histogram.Combine a b)
    | _, _ => none

/-- The histogram the third loop of `Cancel` appends for an identifier, from the two map reads
and the register reads of the operands; `fresh` is `hist.New(m.Resolution)`. -/
def cancelPick (fresh : H) (gm go : Option Int) (rm ro : Int → Option H) : Option H :=
  if !gm.isSome then (ro (go.getD 0)).map fun b => Histogram.Cancel fresh b
  else if !go.isSome then rm (gm.getD 0)
  else
    match rm (gm.getD 0), ro (go.getD 0) with
    | some a, some b => some (Histogram.Cancel a b)
    | _, _ => none

/-- The memory and the value `out` after one pass of the third loop of `Combine` or `Cancel`
that appends the histogram `h` for the identifier `x`, on shared storage. -/
def Obj.push (st : Mem H × Obj) (x : Int) (h : H) : Mem H × Obj :=
  let σ1 := st.1.setMap st.2.Index x st.2.Max
  let out : Obj := { st.2 with Max := st.2.Max + 1 }
  let r := σ1.append out.Registers h
  (r.1, { out with Registers := r.2 })

/-- The runs of a program that calls `New`, `Insert`, `Combine` and `Cancel`: `Run linear σ hs`
says that the program can reach the memory `σ` holding the values `hs` of type `HMSketch`.
With `linear = true` the program never uses a value again once it has been the receiver of an
`Insert`, whose result takes its place; with `linear = false` it keeps and may use every value
it ever obtained. -/
inductive Run {H : Type} [Histogram H] (linear : Bool) : Mem H → List Obj → Prop
  | init (grow : Nat → Nat) : Run linear (Mem.init H grow) []
  | new (σ : Mem H) (hs : List Obj) (r : Int) (st : Mem H × Obj) :
      Run linear σ hs → Obj.New σ r = some st → Run linear st.1 (st.2 :: hs)
  | insert (σ : Mem H) (hs : List Obj) (m : Obj) (kvs : Labels) (v c : ℚ) (st : Mem H × Obj) :
      Run linear σ hs → m ∈ hs → IsLabelMap kvs → Obj.Insert σ m kvs v c = some st →
      Run linear st.1 (st.2 :: (if linear then hs.erase m else hs))
  | combine (σ : Mem H) (hs : List Obj) (a b : Obj) (ord : List Int) (st : Mem H × Obj) :
      Run linear σ hs → a ∈ hs → b ∈ hs → IterOrder ord (allkvps (view σ a) (view σ b)) →
      Obj.Combine σ a b ord = some st → Run linear st.1 (st.2 :: hs)
  | cancel (σ : Mem H) (hs : List Obj) (a b : Obj) (ord : List Int) (st : Mem H × Obj) :
      Run linear σ hs → a ∈ hs → b ∈ hs → IterOrder ord (allkvps (view σ a) (view σ b)) →
      Obj.Cancel σ a b ord = some st → Run linear st.1 (st.2 :: hs)

/-- Two values share neither their map nor their array. -/
def Apart (a b : Obj) : Prop := a.Index ≠ b.Index ∧ a.Registers.arr ≠ b.Registers.arr

/-- The values `hs` are usable in the memory `σ` and no two of them share a map or an array. -/
def Owned (σ : Mem H) (hs : List Obj) : Prop :=
  (∀ h ∈ hs, Valid σ h) ∧ hs.Pairwise Apart

/-! ## Sample programs on shared storage -/

/-- The capacity the Go runtime gives the new array of a growing slice of few elements: 1 for
an empty slice, then the double. -/
def goGrow (c : Nat) : Nat := if c = 0 then 1 else 2 * c

/-- The program `a := New(2)`, from the empty memory: the memory it leaves, and `a`. -/
def kept1 : Mem OneBucket × Obj :=
  (Obj.New (Mem.init OneBucket goGrow) 2).get (by decide!)

/-- The program `a := New(2); b := a.Insert({"x": "y"}, 1, 1)`: the memory it leaves, and `b`.
The program keeps `a`, the value `kept1.2`. -/
def kept2 : Mem OneBucket × Obj :=
  (Obj.Insert kept1.1 kept1.2 [("x", "y")] 1 1).get (by decide!)

/-- The program `n := New(2)`, from the empty memory: the memory it leaves, and `n`. -/
def twice0 : Mem OneBucket × Obj :=
  (Obj.New (Mem.init OneBucket goGrow) 2).get (by decide!)

/-- After `twice0`, the call `a := n.Insert({"p": "q"}, 1, 1)`: the memory it leaves, and `a`. -/
def twice1 : Mem OneBucket × Obj :=
  (Obj.Insert twice0.1 twice0.2 [("p", "q")] 1 1).get (by decide!)

/-- After `twice1`, the call `a.Insert({"x": "y"}, 1, 10)`, whose result the program drops: the
memory it leaves, and the dropped result. -/
def twice2 : Mem OneBucket × Obj :=
  (Obj.Insert twice1.1 twice1.2 [("x", "y")] 1 10).get (by decide!)

/-- After `twice2`, the call `c := a.Insert({"u": "w"}, 1, 100)` on the same `a`: the memory it
leaves, and `c`. -/
def twice3 : Mem OneBucket × Obj :=
  (Obj.Insert twice2.1 twice1.2 [("u", "w")] 1 100).get (by decide!)

/-- The program `n := New(2)`, from the empty memory: the memory it leaves, and `n`. -/
def lin1 : Mem OneBucket × Obj :=
  (Obj.New (Mem.init OneBucket goGrow) 2).get (by decide!)

/-- After `lin1`, the call `a := n.Insert({"group": "a", "job": "c"}, 10.4, 1)`, after which
the program uses `a` in the place of `n`: the memory it leaves, and `a`. -/
def lin2 : Mem OneBucket × Obj :=
  (Obj.Insert lin1.1 lin1.2 [("group", "a"), ("job", "c")] 10.4 1).get (by decide!)

/-- After `lin2`, the call `m := New(3)`: the memory it leaves, and `m`. -/
def lin3 : Mem OneBucket × Obj := (Obj.New lin2.1 3).get (by decide!)

/-- After `lin3`, the call `b := m.Insert({"group": "b", "job": "c"}, 12.4, 2)`, after which
the program uses `b` in the place of `m`: the memory it leaves, and `b`.  The program now holds
`a`, which is `lin2.2`, and `b`. -/
def lin4 : Mem OneBucket × Obj :=
  (Obj.Insert lin3.1 lin3.2 [("group", "b"), ("job", "c")] 12.4 2).get (by decide!)

/-- After `lin4`, the call `a.Combine(b)`, the identifiers visited in the stored order: the
memory it leaves, and the result. -/
def lin5 : Mem OneBucket × Obj :=
  (Obj.Combine lin4.1 lin2.2 lin4.2
    (GoMap.keys (allkvps (view lin4.1 lin2.2) (view lin4.1 lin4.2)))).get (by decide!)

/-- A sequence of `Insert` calls, each applied to the value the previous one returned, on
shared storage. -/
def Obj.runInserts (st : Mem H × Obj) : List (Labels × ℚ × ℚ) → Option (Mem H × Obj)
  | [] => some st
  | op :: rest =>
    (Obj.Insert st.1 st.2 op.1 op.2.1 op.2.2).bind fun st => Obj.runInserts st rest

/-- The value built from `New(resolution)` by a sequence of `Insert` calls, each applied to the
value the previous one returned, on shared storage. -/
def Obj.build (σ : Mem H) (resolution : Int) (ops : List (Labels × ℚ × ℚ)) :
    Option (Mem H × Obj) :=
  (Obj.New σ resolution).bind fun st => Obj.runInserts st ops

/-- The label pairs observed by the `Insert` calls `ops`, with the reserved global pair. -/
def observed (ops : List (Labels × ℚ × ℚ)) : List (String × String) :=
  (("__global__", "__global__") : String × String) :: ops.flatMap fun op => op.1

/-! ## The keyed hash on known values -/

/-- The keyed hash reproduces the reference value of SipHash-2-4 for the key `00 .. 0f` and the
15-byte message `00 .. 0e`. -/
theorem sum64_reference_vector :
    siphash.sum64 sipConst (List.range 15) = 0xa129ca6149be45e5 := by
  decide

/-- The value of `hash("", "")` that `TestHash` compares with. -/
theorem hash_empty : hash "" "" = 1827630361452336488 := by
  decide

/-! ## Maps and slices -/

theorem GoMap.get_set_self {κ ν : Type} [DecidableEq κ] (m : GoMap κ ν) (k : κ) (v : ν) :
    GoMap.get (GoMap.set m k v) k = some v := by
  induction m with
  | nil => simp [GoMap.set, GoMap.get]
  | cons p m ih =>
    by_cases h : p.1 = k
    · simp [GoMap.set, GoMap.get, h]
    · simp [GoMap.set, GoMap.get, h, ih]

theorem GoMap.get_set_ne {κ ν : Type} [DecidableEq κ] (m : GoMap κ ν) (k k' : κ) (v : ν)
    (h : k' ≠ k) : GoMap.get (GoMap.set m k v) k' = GoMap.get m k' := by
  induction m with
  | nil => simp [GoMap.set, GoMap.get, Ne.symm h]
  | cons p m ih =>
    by_cases hp : p.1 = k
    · have hk : ¬ p.1 = k' := fun e => h (e.symm.trans hp)
      simp [GoMap.set, GoMap.get, hp, hk, Ne.symm h]
    · by_cases hk : p.1 = k'
      · simp [GoMap.set, GoMap.get, hp, hk]
        rw [if_neg h]
        simp [GoMap.get]
      · simp [GoMap.set, GoMap.get, hp, hk, ih]

theorem GoMap.mem_keys_iff {κ ν : Type} [DecidableEq κ] (m : GoMap κ ν) (k : κ) :
    k ∈ GoMap.keys m ↔ (GoMap.get m k).isSome = true := by
  induction m with
  | nil => simp [GoMap.keys, GoMap.get]
  | cons p m ih =>
    by_cases hp : p.1 = k
    · simp [GoMap.keys, GoMap.get, hp]
    · have ih' : k ∈ List.map Prod.fst m ↔ (GoMap.get m k).isSome = true := ih
      simp [GoMap.keys, GoMap.get, hp, ih', Ne.symm hp]

theorem GoMap.isSome_get_set {κ ν : Type} [DecidableEq κ] (m : GoMap κ ν) (k k' : κ) (v : ν) :
    (GoMap.get (GoMap.set m k v) k').isSome = true ↔
      (k' = k ∨ (GoMap.get m k').isSome = true) := by
  by_cases h : k' = k
  · subst h; simp [GoMap.get_set_self]
  · simp [GoMap.get_set_ne m k k' v h, h]

theorem regAt_of_lt {H : Type} (rs : List H) (i : Int) (h0 : 0 ≤ i) (h1 : i < rs.length) :
    ∃ h, regAt rs i = some h := by
  have hlt : i.toNat < rs.length := by omega
  exact ⟨rs[i.toNat], by simp [regAt, h0, List.getElem?_eq_getElem hlt]⟩

theorem regAt_append_of_lt {H : Type} (rs : List H) (h : H) (i : Int) (h1 : i < rs.length) :
    regAt (rs ++ [h]) i = regAt rs i := by
  unfold regAt
  split
  · have hlt : i.toNat < rs.length := by omega
    rw [List.getElem?_append_left hlt]
  · rfl

theorem regAt_append_length {H : Type} (rs : List H) (h : H) :
    regAt (rs ++ [h]) (rs.length : Int) = some h := by
  simp [regAt]

theorem regAt_set_self {H : Type} (rs : List H) (h : H) (i : Int) (h0 : 0 ≤ i)
    (h1 : i < rs.length) : regAt (rs.set i.toNat h) i = some h := by
  have hlt : i.toNat < rs.length := by omega
  simp [regAt, h0, hlt]

theorem regAt_set_ne {H : Type} (rs : List H) (h : H) (i j : Int) (h0 : 0 ≤ i) (hij : i ≠ j) :
    regAt (rs.set i.toNat h) j = regAt rs j := by
  unfold regAt
  split
  · have hne : i.toNat ≠ j.toNat := by omega
    rw [List.getElem?_set_ne hne]
  · rfl

/-! ## insert -/

theorem insertStep_spec (v c : ℚ) (m : HMSketch H) (kv : String × String) (hm : SlotsOK m) :
    ∃ m', HMSketch.insertStep v c m kv = some m' ∧ StepSpec v c m m' (pairId kv) := by
  cases hg : GoMap.get m.Index (pairId kv) with
  | some i =>
    obtain ⟨h0, h1⟩ := hm.in_range _ _ hg
    obtain ⟨h, hh⟩ := regAt_of_lt m.Registers i h0 h1
    have hg' : GoMap.get m.Index (hash kv.1 kv.2) = some i := hg
    refine ⟨{ m with Registers := m.Registers.set i.toNat (Histogram.Insert h v c) }, ?_, ?_⟩
    · simp [HMSketch.insertStep, hg', hh]
    · refine ⟨⟨?_, ?_, ?_⟩, rfl, ?_, ?_, ?_, ?_⟩
      · simpa using hm.max_eq
      · intro k j hk
        simpa using hm.in_range k j hk
      · exact hm.inj
      · intro x
        by_cases hx : x = pairId kv
        · subst hx; simp [hg]
        · simp [hx]
      · intro x j hx; exact hx
      · simp [HMSketch.histAt, hg, hh, regAt_set_self _ _ _ h0 h1]
      · intro x hx
        cases hgx : GoMap.get m.Index x with
        | none => simp [HMSketch.histAt, hgx]
        | some j =>
          have hij : i ≠ j := fun e => hx (hm.inj _ _ _ hgx (e ▸ hg))
          simp [HMSketch.histAt, hgx, regAt_set_ne _ _ _ _ h0 hij]
  | none =>
    have hg' : GoMap.get m.Index (hash kv.1 kv.2) = none := hg
    have hlen : m.Max = (m.Registers.length : Int) := hm.max_eq
    refine ⟨{ m with
        Index := GoMap.set m.Index (pairId kv) m.Max
        Max := m.Max + 1
        Registers := m.Registers ++ [Histogram.Insert (Histogram.New m.Resolution) v c] }, ?_, ?_⟩
    · simp [HMSketch.insertStep, hg', GoMap.get_set_self, hlen, regAt_append_length, pairId]
    · have inr : ∀ k j, GoMap.get (GoMap.set m.Index (pairId kv) m.Max) k = some j →
          (k = pairId kv ∧ j = m.Max) ∨ (k ≠ pairId kv ∧ GoMap.get m.Index k = some j) := by
        intro k j hk
        by_cases e : k = pairId kv
        · subst e
          rw [GoMap.get_set_self] at hk
          exact Or.inl ⟨rfl, (Option.some.inj hk).symm⟩
        · rw [GoMap.get_set_ne _ _ _ _ e] at hk
          exact Or.inr ⟨e, hk⟩
      refine ⟨⟨?_, ?_, ?_⟩, rfl, ?_, ?_, ?_, ?_⟩
      · simp [hlen]
      · intro k j hk
        rcases inr k j hk with ⟨_, e⟩ | ⟨_, e⟩
        · subst e; simp [hlen]
        · have := hm.in_range k j e
          simp only [List.length_append, List.length_singleton]
          omega
      · intro k k' j hk hk'
        rcases inr k j hk with ⟨e1, e⟩ | ⟨_, e⟩ <;> rcases inr k' j hk' with ⟨e2, e'⟩ | ⟨_, e'⟩
        · rw [e1, e2]
        · have := hm.in_range k' j e'
          omega
        · have := hm.in_range k j e
          omega
        · exact hm.inj _ _ _ e e'
      · intro x
        exact GoMap.isSome_get_set _ _ _ _
      · intro x j hx
        have e : x ≠ pairId kv := fun e => by rw [e, hg] at hx; cases hx
        simpa [GoMap.get_set_ne _ _ _ _ e] using hx
      · simp [HMSketch.histAt, hg, GoMap.get_set_self, hlen, regAt_append_length]
      · intro x hx
        cases hgx : GoMap.get m.Index x with
        | none => simp [HMSketch.histAt, hgx, GoMap.get_set_ne _ _ _ _ hx]
        | some j =>
          have := hm.in_range x j hgx
          simp [HMSketch.histAt, hgx, GoMap.get_set_ne _ _ _ _ hx,
            regAt_append_of_lt _ _ _ this.2]

theorem hits_nil (x : Int) : hits x [] = 0 := rfl

theorem hits_cons_self (kv : String × String) (rest : Labels) :
    hits (pairId kv) (kv :: rest) = hits (pairId kv) rest + 1 := by
  simp [hits, List.countP_cons]

theorem hits_cons_ne (x : Int) (kv : String × String) (rest : Labels) (h : x ≠ pairId kv) :
    hits x (kv :: rest) = hits x rest := by
  simp [hits, List.countP_cons, Ne.symm h]

theorem hits_eq_zero_iff (x : Int) (kvs : Labels) :
    hits x kvs = 0 ↔ ∀ kv ∈ kvs, pairId kv ≠ x := by
  simp [hits, List.countP_eq_zero]

theorem hits_eq_one (kvs : Labels) (kv : String × String) (hL : kvs.Nodup)
    (hkv : kv ∈ kvs) (hne : ∀ q ∈ kvs, q ≠ kv → pairId q ≠ pairId kv) :
    hits (pairId kv) kvs = 1 := by
  induction kvs with
  | nil => simp at hkv
  | cons q rest ih =>
    obtain ⟨hq, hrest⟩ := List.nodup_cons.1 hL
    by_cases e : q = kv
    · subst e
      rw [hits_cons_self, (hits_eq_zero_iff _ _).2]
      intro p hp
      exact hne p (List.mem_cons_of_mem _ hp) (fun e => hq (e ▸ hp))
    · have hk : kv ∈ rest := by
        rcases List.mem_cons.1 hkv with h | h
        · exact absurd h.symm e
        · exact h
      rw [hits_cons_ne _ _ _ (Ne.symm (hne q (List.mem_cons_self _ _) e))]
      exact ih hrest hk (fun p hp => hne p (List.mem_cons_of_mem _ hp))

theorem insertN_succ (n : Nat) (v c : ℚ) (h : H) :
    insertN (n + 1) v c h = insertN n v c (Histogram.Insert h v c) := by
  simp [insertN, Function.iterate_succ_apply]

theorem insertN_one (v c : ℚ) (h : H) : insertN 1 v c h = Histogram.Insert h v c := rfl

theorem insert_nil (m : HMSketch H) (v c : ℚ) : m.insert [] v c = some m := rfl

theorem insert_cons (m : HMSketch H) (kv : String × String) (rest : Labels) (v c : ℚ) :
    m.insert (kv :: rest) v c =
      (HMSketch.insertStep v c m kv).bind fun m1 => m1.insert rest v c := by
  simp [HMSketch.insert, List.foldlM_cons]

theorem insert_spec (v c : ℚ) (kvs : Labels) :
    ∀ m : HMSketch H, SlotsOK m → ∃ m', m.insert kvs v c = some m' ∧ InsertSpec v c m m' kvs := by
  induction kvs with
  | nil =>
    intro m hm
    exact ⟨m, rfl, ⟨hm, rfl, by simp, fun _ _ h => h, by simp [hits_nil]⟩⟩
  | cons kv rest ih =>
    intro m hm
    obtain ⟨m1, h1, s1⟩ := insertStep_spec v c m kv hm
    obtain ⟨m', h2, s2⟩ := ih m1 s1.ok
    refine ⟨m', by rw [insert_cons, h1]; exact h2, ⟨s2.ok, s2.res.trans s1.res, ?_, ?_, ?_⟩⟩
    · intro x
      rw [s2.keys, s1.keys]
      constructor
      · rintro ((h | h) | ⟨q, hq, e⟩)
        · exact Or.inr ⟨kv, List.mem_cons_self _ _, h.symm⟩
        · exact Or.inl h
        · exact Or.inr ⟨q, List.mem_cons_of_mem _ hq, e⟩
      · rintro (h | ⟨q, hq, e⟩)
        · exact Or.inl (Or.inr h)
        · rcases List.mem_cons.1 hq with rfl | hq
          · exact Or.inl (Or.inl e.symm)
          · exact Or.inr ⟨q, hq, e⟩
    · intro x i hx
      exact s2.keep x i (s1.keep x i hx)
    · intro x
      rw [s2.hist x, s1.res]
      by_cases hx : x = pairId kv
      · subst hx
        rw [hits_cons_self, s1.at_loc]
        by_cases h0 : hits (pairId kv) rest = 0
        · simp [h0, insertN_one]
        · simp [h0, insertN_succ]
      · rw [hits_cons_ne x kv rest hx, s1.frame x hx]

theorem Insert_eq_insert (m : HMSketch H) (kvs : Labels) (v c : ℚ) :
    m.Insert kvs v c = m.insert (("__global__", "__global__") :: kvs) v c := by
  rw [insert_cons]
  simp [HMSketch.Insert, HMSketch.insert, globalLabels]

theorem pairId_global : pairId ("__global__", "__global__") = globalId := rfl

theorem slotsOK_empty (r : Int) :
    SlotsOK ({ Resolution := r, Max := 0, Index := [], Registers := [] } : HMSketch H) :=
  ⟨rfl, fun k i h => by simp [GoMap.get] at h, fun k k' i h => by simp [GoMap.get] at h⟩

theorem global_eq_histAt (m : HMSketch H) (h : (GoMap.get m.Index globalId).isSome = true) :
    m.global = m.histAt globalId := by
  obtain ⟨i, hi⟩ := Option.isSome_iff_exists.1 h
  have hi' : GoMap.get m.Index (hash "__global__" "__global__") = some i := hi
  simp [HMSketch.global, HMSketch.histAt, hi, hi']

theorem histAt_isSome (m : HMSketch H) (hm : SlotsOK m) (x : Int)
    (h : (GoMap.get m.Index x).isSome = true) : ∃ a, m.histAt x = some a := by
  obtain ⟨i, hi⟩ := Option.isSome_iff_exists.1 h
  obtain ⟨h0, h1⟩ := hm.in_range x i hi
  obtain ⟨a, ha⟩ := regAt_of_lt m.Registers i h0 h1
  exact ⟨a, by simp [HMSketch.histAt, hi, ha]⟩

theorem histAt_none (m : HMSketch H) (x : Int) (h : GoMap.get m.Index x = none) :
    m.histAt x = none := by
  simp [HMSketch.histAt, h]

theorem New_spec (r : Int) :
    ∃ R : HMSketch H, New r = some R ∧
      InsertSpec 0 0 { Resolution := r, Max := 0, Index := [], Registers := [] } R globalLabels :=
  insert_spec 0 0 globalLabels _ (slotsOK_empty r)

theorem New_wf (r : Int) (R : HMSketch H) (h : New r = some R) :
    WF R ∧ R.Resolution = r ∧
      (∀ x, (GoMap.get R.Index x).isSome = true ↔ x = globalId) ∧
      R.histAt globalId = some (Histogram.Insert (Histogram.New r) 0 0) := by
  obtain ⟨R', h', s⟩ := New_spec (H := H) r
  rw [h] at h'
  cases h'
  have hk : ∀ x, (GoMap.get R.Index x).isSome = true ↔ x = globalId := by
    intro x
    rw [s.keys]
    simp [globalLabels, GoMap.get, pairId_global, eq_comm]
  refine ⟨⟨s.ok, (hk _).2 rfl⟩, s.res, hk, ?_⟩
  have e := s.hist globalId
  have h1 : hits globalId globalLabels = 1 := by
    have := hits_cons_self ("__global__", "__global__") []
    rwa [pairId_global, hits_nil] at this
  rw [h1] at e
  simpa [HMSketch.histAt, GoMap.get, insertN_one] using e

/-! ## Combine and Cancel -/

theorem push_slotsOK (out : HMSketch H) (x : Int) (h : H) (ho : SlotsOK out) :
    SlotsOK (out.push x h) := by
  have hlen : out.Max = (out.Registers.length : Int) := ho.max_eq
  have inr : ∀ k j, GoMap.get (GoMap.set out.Index x out.Max) k = some j →
      (k = x ∧ j = out.Max) ∨ (k ≠ x ∧ GoMap.get out.Index k = some j) := by
    intro k j hk
    by_cases e : k = x
    · subst e
      rw [GoMap.get_set_self] at hk
      exact Or.inl ⟨rfl, (Option.some.inj hk).symm⟩
    · rw [GoMap.get_set_ne _ _ _ _ e] at hk
      exact Or.inr ⟨e, hk⟩
  refine ⟨?_, ?_, ?_⟩
  · simp [HMSketch.push, hlen]
  · intro k j hk
    rcases inr k j hk with ⟨_, e⟩ | ⟨_, e⟩
    · subst e; simp [HMSketch.push, hlen]
    · have := ho.in_range k j e
      simp only [HMSketch.push, List.length_append, List.length_singleton]
      omega
  · intro k k' j hk hk'
    rcases inr k j hk with ⟨e1, e⟩ | ⟨_, e⟩ <;> rcases inr k' j hk' with ⟨e2, e'⟩ | ⟨_, e'⟩
    · rw [e1, e2]
    · have := ho.in_range k' j e'
      omega
    · have := ho.in_range k j e
      omega
    · exact ho.inj _ _ _ e e'

theorem push_histAt_self (out : HMSketch H) (x : Int) (h : H) (ho : SlotsOK out) :
    (out.push x h).histAt x = some h := by
  have hlen : out.Max = (out.Registers.length : Int) := ho.max_eq
  simp [HMSketch.push, HMSketch.histAt, GoMap.get_set_self, hlen, regAt_append_length]

theorem push_histAt_ne (out : HMSketch H) (x y : Int) (h : H) (ho : SlotsOK out) (hy : y ≠ x) :
    (out.push x h).histAt y = out.histAt y := by
  cases hg : GoMap.get out.Index y with
  | none => simp [HMSketch.push, HMSketch.histAt, hg, GoMap.get_set_ne _ _ _ _ hy]
  | some j =>
    have := ho.in_range y j hg
    simp [HMSketch.push, HMSketch.histAt, hg, GoMap.get_set_ne _ _ _ _ hy,
      regAt_append_of_lt _ _ _ this.2]

theorem mergeFold_spec (f : Int → Option H) (step : HMSketch H → Int → Option (HMSketch H))
    (ord : List Int) :
    ∀ out : HMSketch H, SlotsOK out →
      (∀ o, ∀ x ∈ ord, step o x = (f x).map (o.push x)) →
      (∀ x ∈ ord, (f x).isSome = true) →
      ∃ out', ord.foldlM step out = some out' ∧ MergeSpec f out out' ord := by
  induction ord with
  | nil =>
    intro out ho _ _
    exact ⟨out, rfl, ⟨ho, rfl, by simp, by simp, by simp, fun _ _ => rfl⟩⟩
  | cons x rest ih =>
    intro out ho hstep hf
    obtain ⟨h, hh⟩ := Option.isSome_iff_exists.1 (hf x (List.mem_cons_self _ _))
    have h1 : step out x = some (out.push x h) := by
      rw [hstep out x (List.mem_cons_self _ _), hh]; rfl
    obtain ⟨out', h2, s⟩ := ih (out.push x h) (push_slotsOK out x h ho)
      (fun o y hy => hstep o y (List.mem_cons_of_mem _ hy))
      (fun y hy => hf y (List.mem_cons_of_mem _ hy))
    refine ⟨out', by rw [List.foldlM_cons, h1]; exact h2, ⟨s.ok, s.res, ?_, ?_, ?_, ?_⟩⟩
    · rw [s.max]
      simp only [HMSketch.push, List.length_cons, Nat.cast_add, Nat.cast_one]
      omega
    · intro y
      rw [s.keys]
      simp only [HMSketch.push, GoMap.isSome_get_set, List.mem_cons]
      tauto
    · intro y hy
      by_cases hr : y ∈ rest
      · exact s.hist y hr
      · have e : y = x := by
          rcases List.mem_cons.1 hy with e | e
          · exact e
          · exact absurd e hr
        subst e
        rw [s.frame y hr, push_histAt_self out y h ho, hh]
    · intro y hy
      have hr : y ∉ rest := fun e => hy (List.mem_cons_of_mem _ e)
      have hne : y ≠ x := fun e => hy (e ▸ List.mem_cons_self _ _)
      rw [s.frame y hr, push_histAt_ne out x y h ho hne]

theorem foldl_set_isSome (l : List Int) :
    ∀ (acc : GoMap Int Bool) (k : Int),
      (GoMap.get (l.foldl (fun acc x => GoMap.set acc x true) acc) k).isSome = true ↔
        ((GoMap.get acc k).isSome = true ∨ k ∈ l) := by
  induction l with
  | nil => intro acc k; simp
  | cons x rest ih =>
    intro acc k
    rw [List.foldl_cons, ih, GoMap.isSome_get_set, List.mem_cons]
    tauto

theorem mem_allkvps (m o : HMSketch H) (x : Int) :
    x ∈ GoMap.keys (allkvps m o) ↔
      ((GoMap.get m.Index x).isSome = true ∨ (GoMap.get o.Index x).isSome = true) := by
  rw [GoMap.mem_keys_iff]
  unfold allkvps
  rw [foldl_set_isSome, foldl_set_isSome]
  simp [GoMap.get, GoMap.mem_keys_iff]

theorem mem_iterOrder (m o : HMSketch H) (ord : List Int) (h : IterOrder ord (allkvps m o))
    (x : Int) :
    x ∈ ord ↔ ((GoMap.get m.Index x).isSome = true ∨ (GoMap.get o.Index x).isSome = true) := by
  rw [← mem_allkvps]
  exact List.Perm.mem_iff h

theorem combineStep_eq (m o out : HMSketch H) (x : Int) (hm : SlotsOK m) (ho : SlotsOK o)
    (hx : (GoMap.get m.Index x).isSome = true ∨ (GoMap.get o.Index x).isSome = true) :
    HMSketch.combineStep m o out x = (combineReg m o x).map (out.push x) := by
  cases hgm : GoMap.get m.Index x with
  | none =>
    cases hgo : GoMap.get o.Index x with
    | none => simp [hgm, hgo] at hx
    | some j =>
      obtain ⟨b, hb⟩ := regAt_of_lt o.Registers j (ho.in_range x j hgo).1 (ho.in_range x j hgo).2
      simp [HMSketch.combineStep, combineReg, HMSketch.histAt, HMSketch.push, hgm, hgo, hb]
  | some i =>
    obtain ⟨a, ha⟩ := regAt_of_lt m.Registers i (hm.in_range x i hgm).1 (hm.in_range x i hgm).2
    cases hgo : GoMap.get o.Index x with
    | none =>
      simp [HMSketch.combineStep, combineReg, HMSketch.histAt, HMSketch.push, hgm, hgo, ha]
    | some j =>
      obtain ⟨b, hb⟩ := regAt_of_lt o.Registers j (ho.in_range x j hgo).1 (ho.in_range x j hgo).2
      simp [HMSketch.combineStep, combineReg, HMSketch.histAt, HMSketch.push, hgm, hgo, ha, hb]

theorem cancelStep_eq (m o out : HMSketch H) (x : Int) (hm : SlotsOK m) (ho : SlotsOK o)
    (hx : (GoMap.get m.Index x).isSome = true ∨ (GoMap.get o.Index x).isSome = true) :
    HMSketch.cancelStep m o out x = (cancelReg m o x).map (out.push x) := by
  cases hgm : GoMap.get m.Index x with
  | none =>
    cases hgo : GoMap.get o.Index x with
    | none => simp [hgm, hgo] at hx
    | some j =>
      obtain ⟨b, hb⟩ := regAt_of_lt o.Registers j (ho.in_range x j hgo).1 (ho.in_range x j hgo).2
      simp [HMSketch.cancelStep, cancelReg, HMSketch.histAt, HMSketch.push, hgm, hgo, hb]
  | some i =>
    obtain ⟨a, ha⟩ := regAt_of_lt m.Registers i (hm.in_range x i hgm).1 (hm.in_range x i hgm).2
    cases hgo : GoMap.get o.Index x with
    | none =>
      simp [HMSketch.cancelStep, cancelReg, HMSketch.histAt, HMSketch.push, hgm, hgo, ha]
    | some j =>
      obtain ⟨b, hb⟩ := regAt_of_lt o.Registers j (ho.in_range x j hgo).1 (ho.in_range x j hgo).2
      simp [HMSketch.cancelStep, cancelReg, HMSketch.histAt, HMSketch.push, hgm, hgo, ha, hb]

theorem combineReg_isSome (m o : HMSketch H) (x : Int) (hm : SlotsOK m) (ho : SlotsOK o)
    (hx : (GoMap.get m.Index x).isSome = true ∨ (GoMap.get o.Index x).isSome = true) :
    (combineReg m o x).isSome = true := by
  rcases hx with hx | hx
  · obtain ⟨a, ha⟩ := histAt_isSome m hm x hx
    cases hb : o.histAt x <;> simp [combineReg, ha, hb]
  · obtain ⟨b, hb⟩ := histAt_isSome o ho x hx
    cases ha : m.histAt x <;> simp [combineReg, ha, hb]

theorem cancelReg_isSome (m o : HMSketch H) (x : Int) (hm : SlotsOK m) (ho : SlotsOK o)
    (hx : (GoMap.get m.Index x).isSome = true ∨ (GoMap.get o.Index x).isSome = true) :
    (cancelReg m o x).isSome = true := by
  rcases hx with hx | hx
  · obtain ⟨a, ha⟩ := histAt_isSome m hm x hx
    cases hb : o.histAt x <;> simp [cancelReg, ha, hb]
  · obtain ⟨b, hb⟩ := histAt_isSome o ho x hx
    cases ha : m.histAt x <;> simp [cancelReg, ha, hb]

theorem New_eq (r : Int) : (New r : Option (HMSketch H)) = some (newReg r) := by
  simp [New, newReg, globalLabels, HMSketch.insert, HMSketch.insertStep, GoMap.get, GoMap.set, regAt,
    globalId]

theorem merged_spec (f : Int → Option H) (step : HMSketch H → Int → Option (HMSketch H))
    (m o : HMSketch H) (ord : List Int)
    (hord : ∀ x, x ∈ ord ↔
      ((GoMap.get m.Index x).isSome = true ∨ (GoMap.get o.Index x).isSome = true))
    (hstep : ∀ out, ∀ x ∈ ord, step out x = (f x).map (out.push x))
    (hf : ∀ x ∈ ord, (f x).isSome = true) :
    ∃ out, ((New m.Resolution).bind fun out => ord.foldlM step out) = some out ∧
      MergedSpec f m o out := by
  obtain ⟨R, hR, -⟩ := New_spec (H := H) m.Resolution
  obtain ⟨wR, rR, kR, -⟩ := New_wf m.Resolution R hR
  obtain ⟨out, h, s⟩ := mergeFold_spec f step ord R wR.1 hstep hf
  refine ⟨out, by rw [hR]; exact h, ⟨⟨s.ok, ?_⟩, s.res.trans rR, ?_, ?_⟩⟩
  · rw [s.keys]; exact Or.inl wR.2
  · intro x
    rw [s.keys, kR, hord]
  · intro x hx
    exact s.hist x ((hord x).2 hx)

theorem Combine_spec (m o : HMSketch H) (ord : List Int) (hm : SlotsOK m) (ho : SlotsOK o)
    (hord : IterOrder ord (allkvps m o)) :
    ∃ out, m.Combine o ord = some out ∧ MergedSpec (combineReg m o) m o out :=
  merged_spec (combineReg m o) (HMSketch.combineStep m o) m o ord (mem_iterOrder m o ord hord)
    (fun out x hx => combineStep_eq m o out x hm ho ((mem_iterOrder m o ord hord x).1 hx))
    (fun x hx => combineReg_isSome m o x hm ho ((mem_iterOrder m o ord hord x).1 hx))

theorem Cancel_spec (m o : HMSketch H) (ord : List Int) (hm : SlotsOK m) (ho : SlotsOK o)
    (hord : IterOrder ord (allkvps m o)) :
    ∃ out, m.Cancel o ord = some out ∧ MergedSpec (cancelReg m o) m o out :=
  merged_spec (cancelReg m o) (HMSketch.cancelStep m o) m o ord (mem_iterOrder m o ord hord)
    (fun out x hx => cancelStep_eq m o out x hm ho ((mem_iterOrder m o ord hord x).1 hx))
    (fun x hx => cancelReg_isSome m o x hm ho ((mem_iterOrder m o ord hord x).1 hx))

theorem Insert_spec (m : HMSketch H) (kvs : Labels) (v c : ℚ) (hm : SlotsOK m) :
    ∃ m', m.Insert kvs v c = some m' ∧
      InsertSpec v c m m' (("__global__", "__global__") :: kvs) := by
  rw [Insert_eq_insert]
  exact insert_spec v c _ m hm

theorem Insert_wf (m m' : HMSketch H) (kvs : Labels) (v c : ℚ) (hm : WF m)
    (h : m.Insert kvs v c = some m') : WF m' := by
  obtain ⟨m'', h', s⟩ := Insert_spec m kvs v c hm.1
  rw [h] at h'
  cases h'
  exact ⟨s.ok, (s.keys _).2 (Or.inl hm.2)⟩

/-! ## Reachable registries are well formed -/

theorem Reachable.wf {R : HMSketch H} (h : Reachable R) : WF R := by
  induction h with
  | new r R h => exact (New_wf r R h).1
  | insert R R' kvs v c _ _ h ih => exact Insert_wf R R' kvs v c ih h
  | combine a b out ord _ _ hord h iha ihb =>
    obtain ⟨out', h', s⟩ := Combine_spec a b ord iha.1 ihb.1 hord
    rw [h] at h'
    cases h'
    exact s.wf
  | cancel a b out ord _ _ hord h iha ihb =>
    obtain ⟨out', h', s⟩ := Cancel_spec a b ord iha.1 ihb.1 hord
    rw [h] at h'
    cases h'
    exact s.wf

theorem totalCount_eq (m : HMSketch H) (hm : WF m) :
    m.TotalCount = (m.histAt globalId).map Histogram.Total := by
  rw [HMSketch.TotalCount, global_eq_histAt m hm.2]

theorem Reachable.newReg (r : Int) : Reachable (newReg r : HMSketch H) :=
  Reachable.new r _ (New_eq r)

/-! ## Sequences of Insert calls -/

theorem Insert_global_of_avoid (m m' : HMSketch H) (kvs : Labels) (v c : ℚ) (hm : WF m)
    (hg : ∀ kv ∈ kvs, pairId kv ≠ globalId) (h : m.Insert kvs v c = some m') :
    ∃ g, m.histAt globalId = some g ∧ m'.histAt globalId = some (Histogram.Insert g v c) := by
  obtain ⟨m'', h', s⟩ := Insert_spec m kvs v c hm.1
  rw [h] at h'
  cases h'
  obtain ⟨g, hg0⟩ := histAt_isSome m hm.1 globalId hm.2
  refine ⟨g, hg0, ?_⟩
  have e := s.hist globalId
  have h1 : hits globalId (("__global__", "__global__") :: kvs) = 1 := by
    have := hits_cons_self ("__global__", "__global__") kvs
    rw [pairId_global, (hits_eq_zero_iff globalId kvs).2 hg] at this
    exact this
  rw [h1, hg0] at e
  simpa [insertN_one] using e

theorem runInserts_spec (ops : List (Labels × ℚ × ℚ)) :
    ∀ m : HMSketch H, WF m → ∃ R, runInserts m ops = some R ∧ WF R ∧
      R.Resolution = m.Resolution ∧
      ∀ x, (GoMap.get R.Index x).isSome = true ↔
        ((GoMap.get m.Index x).isSome = true ∨ ∃ op ∈ ops, ∃ q ∈ op.1, pairId q = x) := by
  induction ops with
  | nil => intro m hm; exact ⟨m, rfl, hm, rfl, by simp⟩
  | cons op rest ih =>
    intro m hm
    obtain ⟨m1, h1, s1⟩ := Insert_spec m op.1 op.2.1 op.2.2 hm.1
    have w1 : WF m1 := Insert_wf m m1 _ _ _ hm h1
    obtain ⟨R, h2, wR, rR, kR⟩ := ih m1 w1
    refine ⟨R, by simp [runInserts, h1, h2], wR, rR.trans s1.res, ?_⟩
    intro x
    rw [kR, s1.keys]
    constructor
    · rintro ((h | ⟨q, hq, e⟩) | ⟨op', ho, q, hq, e⟩)
      · exact Or.inl h
      · rcases List.mem_cons.1 hq with rfl | hq
        · rw [pairId_global] at e
          exact Or.inl (e ▸ hm.2)
        · exact Or.inr ⟨op, List.mem_cons_self _ _, q, hq, e⟩
      · exact Or.inr ⟨op', List.mem_cons_of_mem _ ho, q, hq, e⟩
    · rintro (h | ⟨op', ho, q, hq, e⟩)
      · exact Or.inl (Or.inl h)
      · rcases List.mem_cons.1 ho with rfl | ho
        · exact Or.inl (Or.inr ⟨q, List.mem_cons_of_mem _ hq, e⟩)
        · exact Or.inr ⟨op', ho, q, hq, e⟩

theorem build_spec (r : Int) (ops : List (Labels × ℚ × ℚ)) :
    ∃ R : HMSketch H, build r ops = some R ∧ WF R ∧ R.Resolution = r ∧
      ∀ x, (GoMap.get R.Index x).isSome = true ↔
        (x = globalId ∨ ∃ op ∈ ops, ∃ q ∈ op.1, pairId q = x) := by
  obtain ⟨w0, r0, k0, -⟩ := New_wf r (newReg r : HMSketch H) (New_eq r)
  obtain ⟨R, h, wR, rR, kR⟩ := runInserts_spec ops (newReg r : HMSketch H) w0
  refine ⟨R, by simp [build, New_eq, h], wR, rR.trans r0, ?_⟩
  intro x
  rw [kR, k0]

theorem runInserts_totalCount (hIns : ∀ (h : H) (v c : ℚ),
      Histogram.Total (Histogram.Insert h v c) = Histogram.Total h + c)
    (ops : List (Labels × ℚ × ℚ)) :
    ∀ (m : HMSketch H) (t : ℚ), WF m → m.TotalCount = some t →
      (∀ op ∈ ops, ∀ q ∈ op.1, pairId q ≠ globalId) →
      ∃ R, runInserts m ops = some R ∧ R.TotalCount = some (t + countSum ops) := by
  induction ops with
  | nil => intro m t _ ht _; exact ⟨m, rfl, by simpa [countSum] using ht⟩
  | cons op rest ih =>
    intro m t hm ht hav
    obtain ⟨m1, h1, -⟩ := Insert_spec m op.1 op.2.1 op.2.2 hm.1
    have w1 : WF m1 := Insert_wf m m1 _ _ _ hm h1
    obtain ⟨g, hg0, hg1⟩ := Insert_global_of_avoid m m1 op.1 op.2.1 op.2.2 hm
      (hav op (List.mem_cons_self _ _)) h1
    have ht0 : Histogram.Total g = t := by
      rw [totalCount_eq m hm, hg0] at ht
      simpa using ht
    have ht1 : m1.TotalCount = some (t + op.2.2) := by
      rw [totalCount_eq m1 w1, hg1]
      simp [hIns, ht0]
    obtain ⟨R, h2, hR⟩ := ih m1 _ w1 ht1 (fun o ho => hav o (List.mem_cons_of_mem _ ho))
    refine ⟨R, by simp [runInserts, h1, h2], ?_⟩
    rw [hR, countSum, add_assoc]

/-! ## Sketch -/

theorem sketchLoop_unknown (m : HMSketch H) (hm : SlotsOK m) (kvs : Labels) :
    ∀ output : H, (∃ kv ∈ kvs, GoMap.get m.Index (pairId kv) = none) →
      m.sketchLoop kvs output = some (Histogram.New m.Resolution) := by
  induction kvs with
  | nil => intro _ h; simp at h
  | cons kv rest ih =>
    intro output h
    cases hg : GoMap.get m.Index (pairId kv) with
    | none =>
      have hg' : GoMap.get m.Index (hash kv.1 kv.2) = none := hg
      simp [HMSketch.sketchLoop, hg']
    | some i =>
      have hg' : GoMap.get m.Index (hash kv.1 kv.2) = some i := hg
      obtain ⟨a, ha⟩ := regAt_of_lt m.Registers i (hm.in_range _ i hg).1 (hm.in_range _ i hg).2
      have hrest : ∃ q ∈ rest, GoMap.get m.Index (pairId q) = none := by
        obtain ⟨q, hq, e⟩ := h
        rcases List.mem_cons.1 hq with rfl | hq
        · rw [hg] at e; cases e
        · exact ⟨q, hq, e⟩
      simp [HMSketch.sketchLoop, hg', ha, ih _ hrest]

theorem Sketch_unknown (m : HMSketch H) (hm : WF m) (kvs : Labels)
    (h : ∃ kv ∈ kvs, GoMap.get m.Index (pairId kv) = none) :
    m.Sketch kvs = some (Histogram.New m.Resolution) := by
  obtain ⟨g, hg⟩ := histAt_isSome m hm.1 globalId hm.2
  rw [HMSketch.Sketch, global_eq_histAt m hm.2, hg]
  exact sketchLoop_unknown m hm.1 kvs g h

/-! ## Registries built by Insert calls are reachable -/

theorem runInserts_reachable (ops : List (Labels × ℚ × ℚ)) :
    ∀ m R : HMSketch H, Reachable m → (∀ op ∈ ops, IsLabelMap op.1) →
      runInserts m ops = some R → Reachable R := by
  induction ops with
  | nil =>
    intro m R hm _ h
    simp only [runInserts, Option.some.injEq] at h
    exact h ▸ hm
  | cons op rest ih =>
    intro m R hm hL h
    obtain ⟨m1, h1, -⟩ := Insert_spec m op.1 op.2.1 op.2.2 hm.wf.1
    have r1 : Reachable m1 :=
      Reachable.insert m m1 op.1 op.2.1 op.2.2 hm (hL op (List.mem_cons_self _ _)) h1
    simp only [runInserts, h1, Option.some_bind] at h
    exact ih m1 R r1 (fun o ho => hL o (List.mem_cons_of_mem _ ho)) h

theorem build_eq_built (r : Int) (ops : List (Labels × ℚ × ℚ)) :
    (build r ops : Option (HMSketch H)) = some (built r ops) := by
  obtain ⟨R, h, -⟩ := build_spec (H := H) r ops
  simp [built, h]

theorem built_reachable (r : Int) (ops : List (Labels × ℚ × ℚ))
    (hL : ∀ op ∈ ops, IsLabelMap op.1) : Reachable (built r ops : HMSketch H) := by
  have h := build_eq_built (H := H) r ops
  simp only [build, New_eq, Option.some_bind] at h
  exact runInserts_reachable ops _ _ (Reachable.newReg r) hL h

/-! ## Claims: totals -/

/-- C1, as stated, fails: on the registry `New(2)`, whose `TotalCount()` is 0, `Insert` with
the label map `{"__global__": "__global__"}`, value 1 and count 1 returns a registry whose
`TotalCount()` is 2, not 0 + 1: the pair addresses the global slot, which is updated a second
time. -/
theorem Insert_reserved_pair_counts_twice :
    ((New 2 : Option (HMSketch OneBucket)).bind HMSketch.TotalCount) = some 0 ∧
      ((New 2 : Option (HMSketch OneBucket)).bind fun R =>
        (R.Insert [("__global__", "__global__")] 1 1).bind HMSketch.TotalCount) = some 2 := by
  decide!

/-- C1, amended: for every registry `R` obtained from `New` by `Insert`/`Combine`/`Cancel`,
every label map none of whose pairs has the global identifier, every value `v` and count `c`,
`Insert` returns a registry whose `TotalCount()` is `R.TotalCount() + c`, given that the
histogram's `Insert(value, count)` raises `Total` by exactly `count`. -/
theorem Insert_TotalCount_additive (R : HMSketch H) (kvs : Labels) (v c : ℚ)
    (hIns : ∀ (h : H) (v c : ℚ),
      Histogram.Total (Histogram.Insert h v c) = Histogram.Total h + c)
    (hR : Reachable R) (hg : ∀ kv ∈ kvs, pairId kv ≠ globalId) :
    ∃ R' t, R.Insert kvs v c = some R' ∧ R.TotalCount = some t ∧
      R'.TotalCount = some (t + c) := by
  obtain ⟨R', h, -⟩ := Insert_spec R kvs v c hR.wf.1
  obtain ⟨g, hg0, hg1⟩ := Insert_global_of_avoid R R' kvs v c hR.wf hg h
  refine ⟨R', Histogram.Total g, h, ?_, ?_⟩
  · rw [totalCount_eq R hR.wf, hg0]; rfl
  · rw [totalCount_eq R' (Insert_wf R R' kvs v c hR.wf h), hg1]
    simp [hIns]

/-- Witness of C1: the call of the test "basic adding", `Insert({"group": "a"}, 1, 1)`, on the
sample registry `regA`. -/
theorem Insert_TotalCount_additive_witness :
    (∀ kv ∈ ([("group", "a")] : Labels), pairId kv ≠ globalId) ∧
      ∃ R' t, regA.Insert [("group", "a")] 1 1 = some R' ∧ regA.TotalCount = some t ∧
        R'.TotalCount = some (t + 1) :=
  ⟨by decide, Insert_TotalCount_additive regA [("group", "a")] 1 1 (fun _ _ _ => rfl)
    (built_reachable 2 _ (by decide)) (by decide)⟩

/-- C2, as stated, fails: after `New(2)` and the single call `Insert({"a": "b:::c"}, 1, 1)`, the
label map `{"a:::b": "c"}` holds a pair that was never a label pair of an `Insert`, yet it is
written to the keyed hash as the same string `a:::b:::c`, so `Sketch` finds the slot of the
inserted pair and `Count` is 1, not 0. -/
theorem Sketch_of_pair_never_inserted_nonzero :
    ("a:::b", "c") ∉ [(("a", "b:::c") : String × String)] ∧
      enc "a:::b" "c" = enc "a" "b:::c" ∧
      ((build 2 [([("a", "b:::c")], 1, 1)] : Option (HMSketch OneBucket)).bind fun R =>
        R.Count [("a:::b", "c")]) = some 1 := by
  decide!

/-- C2, amended: for every registry `R` built from `New` by `Insert` calls (which all return)
and every label map `L` holding at least one pair whose identifier is neither the global
identifier nor the identifier of a label pair of one of those calls, `Sketch(R, L)` returns a
fresh histogram, whose `Total()` is 0, and `Count(R, L) == 0`, given that a fresh histogram has
total 0. -/
theorem Sketch_unindexed_pair_empty (r : Int) (ops : List (Labels × ℚ × ℚ)) (L : Labels)
    (hNew : ∀ r : Int, Histogram.Total (Histogram.New r : H) = 0)
    (hL : ∃ kv ∈ L, pairId kv ≠ globalId ∧ ∀ op ∈ ops, ∀ q ∈ op.1, pairId q ≠ pairId kv) :
    ∃ (R : HMSketch H) (h : H), build r ops = some R ∧ R.Sketch L = some h ∧
      h = Histogram.New r ∧ Histogram.Total h = 0 ∧ R.Count L = some 0 := by
  obtain ⟨R, hb, wR, rR, kR⟩ := build_spec (H := H) r ops
  have hun : ∃ kv ∈ L, GoMap.get R.Index (pairId kv) = none := by
    obtain ⟨kv, hkv, hg, hops⟩ := hL
    refine ⟨kv, hkv, ?_⟩
    cases hget : GoMap.get R.Index (pairId kv) with
    | none => rfl
    | some i =>
      have hs : (GoMap.get R.Index (pairId kv)).isSome = true := by simp [hget]
      rcases (kR _).1 hs with e | ⟨op, ho, q, hq, e⟩
      · exact absurd e hg
      · exact absurd e (hops op ho q hq)
  have hS := Sketch_unknown R wR L hun
  rw [rR] at hS
  exact ⟨R, Histogram.New r, hb, hS, rfl, hNew _, by simp [HMSketch.Count, hS, hNew]⟩

/-- Witness of C2: the test "Null sketch": after the four `Insert` calls of the example on
`New(2)`, the label map `{group:a, instance:a, job:c, service:e}`, whose pair `service=e` is
not indexed. -/
theorem Sketch_unindexed_pair_empty_witness :
    ∃ (R : HMSketch OneBucket) (h : OneBucket),
      build 2
        [([("group", "a"), ("instance", "a"), ("job", "c"), ("service", "d")], 10.4, 1),
         ([("group", "a"), ("instance", "a"), ("job", "c"), ("service", "d")], 45.4, 1),
         ([("group", "a"), ("instance", "a"), ("job", "c"), ("service", "d")], 12.4, 2),
         ([("group", "a"), ("instance", "b"), ("job", "d"), ("service", "q")], 10.4, 1)]
        = some R ∧
      R.Sketch [("group", "a"), ("instance", "a"), ("job", "c"), ("service", "e")] = some h ∧
      h = Histogram.New 2 ∧ Histogram.Total h = 0 ∧
      R.Count [("group", "a"), ("instance", "a"), ("job", "c"), ("service", "e")] = some 0 :=
  Sketch_unindexed_pair_empty 2 _ _ (fun _ => rfl)
    ⟨("service", "e"), by simp, by decide, by decide⟩

/-- On registries as values: for all registries `a` and `b` obtained from `New` by `Insert`/`Combine`/`Cancel` and
every order of visit of the identifiers, `a.Combine(b)` returns a registry whose `TotalCount()`
is `a.TotalCount() + b.TotalCount()`, and `a.Combine(a)` one whose `TotalCount()` is
`2 * a.TotalCount()`, given that the histogram's `Total` is additive under `Combine`. -/
theorem Reachable.Combine_TotalCount (a b : HMSketch H) (ord ord' : List Int)
    (hComb : ∀ x y : H,
      Histogram.Total (Histogram.Combine x y) = Histogram.Total x + Histogram.Total y)
    (ha : Reachable a) (hb : Reachable b)
    (hord : IterOrder ord (allkvps a b)) (hord' : IterOrder ord' (allkvps a a)) :
    ∃ (out out' : HMSketch H) (ta tb : ℚ),
      a.TotalCount = some ta ∧ b.TotalCount = some tb ∧
      a.Combine b ord = some out ∧ out.TotalCount = some (ta + tb) ∧
      a.Combine a ord' = some out' ∧ out'.TotalCount = some (2 * ta) := by
  obtain ⟨ga, hga⟩ := histAt_isSome a ha.wf.1 globalId ha.wf.2
  obtain ⟨gb, hgb⟩ := histAt_isSome b hb.wf.1 globalId hb.wf.2
  obtain ⟨out, h, s⟩ := Combine_spec a b ord ha.wf.1 hb.wf.1 hord
  obtain ⟨out', h', s'⟩ := Combine_spec a a ord' ha.wf.1 ha.wf.1 hord'
  refine ⟨out, out', Histogram.Total ga, Histogram.Total gb, ?_, ?_, h, ?_, h', ?_⟩
  · rw [totalCount_eq a ha.wf, hga]; rfl
  · rw [totalCount_eq b hb.wf, hgb]; rfl
  · rw [totalCount_eq out s.wf, s.hist globalId (Or.inl ha.wf.2)]
    simp [combineReg, hga, hgb, hComb]
  · rw [totalCount_eq out' s'.wf, s'.hist globalId (Or.inl ha.wf.2)]
    simp [combineReg, hga, hComb, two_mul]

/-- On registries as values: for every registry `R` obtained from `New` by
`Insert`/`Combine`/`Cancel` and every order of visit of the identifiers, `R.Cancel(R)` returns a
registry whose global histogram is the global histogram of `R` cancelled against itself. -/
theorem Reachable.Cancel_self_global (R : HMSketch H) (ord : List Int)
    (hR : Reachable R) (hord : IterOrder ord (allkvps R R)) :
    ∃ (out : HMSketch H) (g : H), R.global = some g ∧ R.Cancel R ord = some out ∧
      out.global = some (Histogram.Cancel g g) := by
  obtain ⟨g, hg⟩ := histAt_isSome R hR.wf.1 globalId hR.wf.2
  obtain ⟨out, h, s⟩ := Cancel_spec R R ord hR.wf.1 hR.wf.1 hord
  refine ⟨out, g, ?_, h, ?_⟩
  · rw [global_eq_histAt R hR.wf.2, hg]
  · rw [global_eq_histAt out s.wf.2, s.hist globalId (Or.inl hR.wf.2)]
    simp [cancelReg, hg]

/-- C5, as stated, fails: after `New(2)` and the four `Insert` calls of the example, with counts
1, 1, 2 and 1, `TotalCount()` is 5, not 6. -/
theorem example4_TotalCount_not_six :
    ((example4 : Option (HMSketch OneBucket)).bind HMSketch.TotalCount) = some 5 ∧
      ((example4 : Option (HMSketch OneBucket)).bind HMSketch.TotalCount) ≠ some 6 := by
  decide!

/-- C5, amended: starting from `New(2)`, the four `Insert` calls of the example, each applied to
the registry the previous one returned, all return, and the resulting registry has
`TotalCount() == 5`, given that a fresh histogram has total 0 and that the histogram's
`Insert(value, count)` raises `Total` by exactly `count`. -/
theorem example4_TotalCount_five
    (hNew : ∀ r : Int, Histogram.Total (Histogram.New r : H) = 0)
    (hIns : ∀ (h : H) (v c : ℚ),
      Histogram.Total (Histogram.Insert h v c) = Histogram.Total h + c) :
    ∃ R : HMSketch H, example4 = some R ∧ R.TotalCount = some 5 := by
  obtain ⟨w0, -, -, g0⟩ := New_wf 2 (newReg 2 : HMSketch H) (New_eq 2)
  have t0 : (newReg 2 : HMSketch H).TotalCount = some 0 := by
    rw [totalCount_eq _ w0, g0]
    simp [hIns, hNew]
  have hav : ∀ q ∈ ([("group", "a"), ("instance", "a"), ("job", "c"), ("service", "d"),
      ("instance", "b"), ("job", "d"), ("service", "q")] : Labels), pairId q ≠ globalId := by
    decide
  obtain ⟨R, h, hR⟩ := runInserts_totalCount hIns
    [([("group", "a"), ("instance", "a"), ("job", "c"), ("service", "d")], 10.4, 1),
     ([("group", "a"), ("instance", "a"), ("job", "c"), ("service", "d")], 45.4, 1),
     ([("group", "a"), ("instance", "a"), ("job", "c"), ("service", "d")], 12.4, 2),
     ([("group", "a"), ("instance", "b"), ("job", "d"), ("service", "q")], 10.4, 1)]
    (newReg 2 : HMSketch H) 0 w0 t0 (by
      intro op ho q hq
      apply hav
      simp only [List.mem_cons, List.mem_singleton, List.not_mem_nil, or_false] at ho
      rcases ho with rfl | rfl | rfl | rfl <;>
        simp only [List.mem_cons, List.mem_singleton, List.not_mem_nil, or_false] at hq ⊢ <;>
        tauto)
  refine ⟨R, by simp [example4, build, New_eq, h], ?_⟩
  rw [hR]
  norm_num [countSum]

/-- Witness of C5: the example evaluated with the single-bucket histogram. -/
theorem example4_TotalCount_five_witness :
    ∃ R : HMSketch OneBucket, example4 = some R ∧ R.TotalCount = some 5 :=
  example4_TotalCount_five (fun _ => rfl) (fun _ _ _ => rfl)

/-! ## Claims: per-identifier content -/

/-- On registries as values: for all registries `m` and `o` obtained from `New` by `Insert`/`Combine`/`Cancel` and
every order of visit, `m.Combine(o)` returns a registry whose index holds exactly the
identifiers of `m.Index` and of `o.Index`, and the histogram it holds for an identifier `x` is
`m`'s when `x` is only in `m`, `o`'s when `x` is only in `o`, and `m`'s combined with `o`'s
when `x` is in both. -/
theorem Reachable.Combine_per_identifier (m o : HMSketch H) (ord : List Int)
    (hm : Reachable m) (ho : Reachable o) (hord : IterOrder ord (allkvps m o)) :
    ∃ out : HMSketch H, m.Combine o ord = some out ∧
      (∀ x, x ∈ GoMap.keys out.Index ↔ (x ∈ GoMap.keys m.Index ∨ x ∈ GoMap.keys o.Index)) ∧
      (∀ x, x ∈ GoMap.keys m.Index → x ∉ GoMap.keys o.Index →
        ∃ a, m.histAt x = some a ∧ out.histAt x = some a) ∧
      (∀ x, x ∉ GoMap.keys m.Index → x ∈ GoMap.keys o.Index →
        ∃ b, o.histAt x = some b ∧ out.histAt x = some b) ∧
      (∀ x, x ∈ GoMap.keys m.Index → x ∈ GoMap.keys o.Index →
        ∃ a b, m.histAt x = some a ∧ o.histAt x = some b ∧
          out.histAt x = some (Histogram.Combine a b)) := by
  obtain ⟨out, h, s⟩ := Combine_spec m o ord hm.wf.1 ho.wf.1 hord
  simp only [GoMap.mem_keys_iff]
  refine ⟨out, h, ?_, ?_, ?_, ?_⟩
  · intro x
    rw [s.keys]
    constructor
    · rintro (e | e)
      · exact Or.inl (e ▸ hm.wf.2)
      · exact e
    · exact Or.inr
  · intro x hx hnx
    obtain ⟨a, ha⟩ := histAt_isSome m hm.wf.1 x hx
    have hb : o.histAt x = none := histAt_none o x (by simpa using hnx)
    exact ⟨a, ha, by rw [s.hist x (Or.inl hx)]; simp [combineReg, ha, hb]⟩
  · intro x hnx hx
    obtain ⟨b, hb⟩ := histAt_isSome o ho.wf.1 x hx
    have ha : m.histAt x = none := histAt_none m x (by simpa using hnx)
    exact ⟨b, hb, by rw [s.hist x (Or.inr hx)]; simp [combineReg, ha, hb]⟩
  · intro x hx hx'
    obtain ⟨a, ha⟩ := histAt_isSome m hm.wf.1 x hx
    obtain ⟨b, hb⟩ := histAt_isSome o ho.wf.1 x hx'
    exact ⟨a, b, ha, hb, by rw [s.hist x (Or.inl hx)]; simp [combineReg, ha, hb]⟩

/-- On registries as values: for all registries `m` and `o` obtained from `New` by `Insert`/`Combine`/`Cancel` and
every order of visit, `m.Cancel(o)` returns a registry whose index holds exactly the
identifiers of `m.Index` and of `o.Index`, and the histogram it holds for an identifier `x` is
`m`'s, unchanged, when `x` is only in `m`, a fresh histogram of `m`'s resolution cancelled
against `o`'s when `x` is only in `o`, and `m`'s cancelled against `o`'s when `x` is in both. -/
theorem Reachable.Cancel_per_identifier (m o : HMSketch H) (ord : List Int)
    (hm : Reachable m) (ho : Reachable o) (hord : IterOrder ord (allkvps m o)) :
    ∃ out : HMSketch H, m.Cancel o ord = some out ∧
      (∀ x, x ∈ GoMap.keys out.Index ↔ (x ∈ GoMap.keys m.Index ∨ x ∈ GoMap.keys o.Index)) ∧
      (∀ x, x ∈ GoMap.keys m.Index → x ∉ GoMap.keys o.Index →
        ∃ a, m.histAt x = some a ∧ out.histAt x = some a) ∧
      (∀ x, x ∉ GoMap.keys m.Index → x ∈ GoMap.keys o.Index →
        ∃ b, o.histAt x = some b ∧
          out.histAt x = some (Histogram.Cancel (Histogram.New m.Resolution) b)) ∧
      (∀ x, x ∈ GoMap.keys m.Index → x ∈ GoMap.keys o.Index →
        ∃ a b, m.histAt x = some a ∧ o.histAt x = some b ∧
          out.histAt x = some (Histogram.Cancel a b)) := by
  obtain ⟨out, h, s⟩ := Cancel_spec m o ord hm.wf.1 ho.wf.1 hord
  simp only [GoMap.mem_keys_iff]
  refine ⟨out, h, ?_, ?_, ?_, ?_⟩
  · intro x
    rw [s.keys]
    constructor
    · rintro (e | e)
      · exact Or.inl (e ▸ hm.wf.2)
      · exact e
    · exact Or.inr
  · intro x hx hnx
    obtain ⟨a, ha⟩ := histAt_isSome m hm.wf.1 x hx
    have hb : o.histAt x = none := histAt_none o x (by simpa using hnx)
    exact ⟨a, ha, by rw [s.hist x (Or.inl hx)]; simp [cancelReg, ha, hb]⟩
  · intro x hnx hx
    obtain ⟨b, hb⟩ := histAt_isSome o ho.wf.1 x hx
    have ha : m.histAt x = none := histAt_none m x (by simpa using hnx)
    exact ⟨b, hb, by rw [s.hist x (Or.inr hx)]; simp [cancelReg, ha, hb]⟩
  · intro x hx hx'
    obtain ⟨a, ha⟩ := histAt_isSome m hm.wf.1 x hx
    obtain ⟨b, hb⟩ := histAt_isSome o ho.wf.1 x hx'
    exact ⟨a, b, ha, hb, by rw [s.hist x (Or.inl hx)]; simp [cancelReg, ha, hb]⟩

/-- C9: for every registry `R` obtained from `New` by `Insert`/`Combine`/`Cancel`, every label
map `L`, value `v` and count `c`, `Insert(R, L, v, c)` returns a registry that holds, for
every pair of `L` whose identifier differs from the global identifier and from the identifier
of every other pair of `L`, `R`'s histogram for that identifier (a fresh histogram of `R`'s
resolution if `R` had none) with `Insert(v, c)` applied once; and, when no pair of `L` has the
global identifier, `R`'s global histogram with `Insert(v, c)` applied once for the global
identifier. -/
theorem Insert_fan_out (R : HMSketch H) (L : Labels) (v c : ℚ)
    (hR : Reachable R) (hL : IsLabelMap L) :
    ∃ R' : HMSketch H, R.Insert L v c = some R' ∧
      (∀ kv ∈ L, pairId kv ≠ globalId → (∀ q ∈ L, q ≠ kv → pairId q ≠ pairId kv) →
        R'.histAt (pairId kv) = some (Histogram.Insert
          ((R.histAt (pairId kv)).getD (Histogram.New R.Resolution)) v c)) ∧
      ((∀ q ∈ L, pairId q ≠ globalId) →
        ∃ g, R.global = some g ∧ R'.global = some (Histogram.Insert g v c)) := by
  obtain ⟨R', h, s⟩ := Insert_spec R L v c hR.wf.1
  refine ⟨R', h, ?_, ?_⟩
  · intro kv hkv hg hne
    have h1 : hits (pairId kv) (("__global__", "__global__") :: L) = 1 := by
      rw [hits_cons_ne _ _ _ (by rw [pairId_global]; exact hg)]
      exact hits_eq_one L kv (List.Nodup.of_map _ hL) hkv hne
    have e := s.hist (pairId kv)
    rw [h1] at e
    simpa [insertN_one] using e
  · intro hg
    obtain ⟨g, hg0, hg1⟩ := Insert_global_of_avoid R R' L v c hR.wf hg h
    refine ⟨g, ?_, ?_⟩
    · rw [global_eq_histAt R hR.wf.2, hg0]
    · rw [global_eq_histAt R' (Insert_wf R R' L v c hR.wf h).2, hg1]

/-- Witness of C9: `Insert({"group": "a", "instance": "b"}, 45.4, 1)` on the sample registry
`regA`, which already holds `group=a` and does not hold `instance=b`. -/
theorem Insert_fan_out_witness :
    ∃ R' : HMSketch OneBucket,
      regA.Insert [("group", "a"), ("instance", "b")] 45.4 1 = some R' ∧
      (∀ kv ∈ ([("group", "a"), ("instance", "b")] : Labels), pairId kv ≠ globalId →
        (∀ q ∈ ([("group", "a"), ("instance", "b")] : Labels), q ≠ kv →
          pairId q ≠ pairId kv) →
        R'.histAt (pairId kv) = some (Histogram.Insert
          ((regA.histAt (pairId kv)).getD (Histogram.New regA.Resolution)) 45.4 1)) ∧
      ((∀ q ∈ ([("group", "a"), ("instance", "b")] : Labels), pairId q ≠ globalId) →
        ∃ g, regA.global = some g ∧ R'.global = some (Histogram.Insert g 45.4 1)) :=
  Insert_fan_out regA [("group", "a"), ("instance", "b")] 45.4 1
    (built_reachable 2 _ (by decide)) (by decide)

/-! ## Claims: the separator -/

theorem sep_overlap (K V V' a : List Char)
    (hsep : ¬ [':', ':', ':'] <:+: K ++ a) (hend : ¬ [':'] <:+ K ++ a)
    (h : ':' :: ':' :: ':' :: V = a ++ ':' :: ':' :: ':' :: V') : a = [] ∧ V = V' := by
  match a, h with
  | [], h => exact ⟨rfl, by simpa using h⟩
  | [x], h =>
    have e : x = ':' := by
      have := (List.cons.inj h).1
      exact this.symm
    exact absurd ⟨K, by rw [e]⟩ hend
  | [x, y], h =>
    have e : y = ':' := by
      have := (List.cons.inj (List.cons.inj h).2).1
      exact this.symm
    exact absurd ⟨K ++ [x], by rw [e]; simp⟩ hend
  | x :: y :: z :: rest, h =>
    have e1 : x = ':' := ((List.cons.inj h).1).symm
    have e2 : y = ':' := ((List.cons.inj (List.cons.inj h).2).1).symm
    have e3 : z = ':' := ((List.cons.inj (List.cons.inj (List.cons.inj h).2).2).1).symm
    exact absurd ⟨K, rest, by rw [e1, e2, e3]; simp⟩ hsep

/-- C10, as stated, fails: the pairs `("a:::b", "c")` and `("a", "b:::c")` differ, and both are
written to the keyed hash as the string `a:::b:::c`, so they have the same identifier. -/
theorem enc_collision :
    enc "a:::b" "c" = enc "a" "b:::c" ∧ ("a:::b" : String) ≠ "a" ∧
      hash "a:::b" "c" = hash "a" "b:::c" := by
  decide

/-- C10, amended: for all strings `k`, `v`, `k'`, `v'` such that neither key `k` nor key `k'`
contains the separator `:::` or ends with the character `:`, `enc(k, v) == enc(k', v')`
implies `k == k'` and `v == v'`. -/
theorem enc_injective (k v k' v' : String)
    (hk : ¬ containsSep k ∧ ¬ endsWithColon k) (hk' : ¬ containsSep k' ∧ ¬ endsWithColon k')
    (h : enc k v = enc k' v') : k = k' ∧ v = v' := by
  have hd : k.data ++ (':' :: ':' :: ':' :: v.data) = k'.data ++ (':' :: ':' :: ':' :: v'.data) := by
    have := congrArg String.data h
    simpa [enc, String.data_append] using this
  rcases List.append_eq_append_iff.1 hd with ⟨a, e1, e2⟩ | ⟨a, e1, e2⟩
  · obtain ⟨ha, hv⟩ := sep_overlap k.data v.data v'.data a
      (by rw [← e1]; exact hk'.1) (by rw [← e1]; exact hk'.2) e2
    subst ha
    exact ⟨String.ext (by simpa using e1.symm), String.ext hv⟩
  · obtain ⟨ha, hv⟩ := sep_overlap k'.data v'.data v.data a
      (by rw [← e1]; exact hk.1) (by rw [← e1]; exact hk.2) e2
    subst ha
    exact ⟨String.ext (by simpa using e1), String.ext hv.symm⟩

/-- Witness of C10: the key `group:name`, which contains a single colon, with the value
`a:::b`. -/
theorem enc_injective_witness :
    (¬ containsSep "group:name" ∧ ¬ endsWithColon "group:name") ∧
      enc "group:name" "a:::b" = enc "group:name" "a:::b" ∧
      (("group:name" : String) = "group:name" ∧ ("a:::b" : String) = "a:::b") :=
  ⟨by decide, rfl,
    enc_injective "group:name" "a:::b" "group:name" "a:::b" (by decide) (by decide) rfl⟩

/-! ## Sketch on indexed pairs -/

theorem sketchLoop_indexed (m : HMSketch H) (hm : SlotsOK m) (kvs : Labels) :
    ∀ output : H, (∀ kv ∈ kvs, (GoMap.get m.Index (pairId kv)).isSome = true) →
      m.sketchLoop kvs output = some ((marginals m kvs).foldl Histogram.Min output) := by
  induction kvs with
  | nil => intro output _; rfl
  | cons kv rest ih =>
    intro output h
    have hk := h kv (List.mem_cons_self _ _)
    obtain ⟨a, ha⟩ := histAt_isSome m hm (pairId kv) hk
    obtain ⟨i, hi⟩ := Option.isSome_iff_exists.1 hk
    have hi' : GoMap.get m.Index (hash kv.1 kv.2) = some i := hi
    have hr : regAt m.Registers i = some a := by
      simpa [HMSketch.histAt, hi] using ha
    have e := ih (Histogram.Min output a) (fun q hq => h q (List.mem_cons_of_mem _ hq))
    simp [HMSketch.sketchLoop, hi', hr, e, marginals, ha]

theorem Sketch_indexed (m : HMSketch H) (hm : WF m) (kvs : Labels)
    (h : ∀ kv ∈ kvs, (GoMap.get m.Index (pairId kv)).isSome = true) :
    ∃ g, m.histAt globalId = some g ∧
      m.Sketch kvs = some ((marginals m kvs).foldl Histogram.Min g) := by
  obtain ⟨g, hg⟩ := histAt_isSome m hm.1 globalId hm.2
  refine ⟨g, hg, ?_⟩
  rw [HMSketch.Sketch, global_eq_histAt m hm.2, hg]
  exact sketchLoop_indexed m hm.1 kvs g h

theorem Sketch_returns (m : HMSketch H) (hm : WF m) (kvs : Labels) :
    ∃ h, m.Sketch kvs = some h := by
  by_cases hall : ∀ kv ∈ kvs, (GoMap.get m.Index (pairId kv)).isSome = true
  · obtain ⟨g, -, e⟩ := Sketch_indexed m hm kvs hall
    exact ⟨_, e⟩
  · push_neg at hall
    obtain ⟨kv, hkv, hn⟩ := hall
    exact ⟨_, Sketch_unknown m hm kvs ⟨kv, hkv, by simpa using hn⟩⟩

/-! ## Cancel after Combine, and the order of a Sketch -/

/-- On registries as values: for all registries `a` and `b` obtained from `New` by
`Insert`/`Combine`/`Cancel` and every order of visit in the two calls, `a.Combine(b)` and then
`.Cancel(b)` return, and the global histogram of the result is the global histogram of `a`,
combined with that of `b` and then cancelled against that of `b`. -/
theorem Reachable.Combine_Cancel_global (a b : HMSketch H) (ord ord' : List Int)
    (ha : Reachable a) (hb : Reachable b) (hord : IterOrder ord (allkvps a b))
    (hord' : ∀ ab, a.Combine b ord = some ab → IterOrder ord' (allkvps ab b)) :
    ∃ (ab out : HMSketch H) (ga gb : H), a.global = some ga ∧ b.global = some gb ∧
      a.Combine b ord = some ab ∧ ab.Cancel b ord' = some out ∧
      out.global = some (Histogram.Cancel (Histogram.Combine ga gb) gb) := by
  obtain ⟨ga, hga⟩ := histAt_isSome a ha.wf.1 globalId ha.wf.2
  obtain ⟨gb, hgb⟩ := histAt_isSome b hb.wf.1 globalId hb.wf.2
  obtain ⟨ab, h, s⟩ := Combine_spec a b ord ha.wf.1 hb.wf.1 hord
  obtain ⟨out, h', s'⟩ := Cancel_spec ab b ord' s.wf.1 hb.wf.1 (hord' ab h)
  have hab : ab.histAt globalId = some (Histogram.Combine ga gb) := by
    rw [s.hist globalId (Or.inl ha.wf.2)]
    simp [combineReg, hga, hgb]
  refine ⟨ab, out, ga, gb, ?_, ?_, h, h', ?_⟩
  · rw [global_eq_histAt a ha.wf.2, hga]
  · rw [global_eq_histAt b hb.wf.2, hgb]
  · rw [global_eq_histAt out s'.wf.2, s'.hist globalId (Or.inl s.wf.2)]
    simp [cancelReg, hab, hgb]

/-- C14: for every registry `R` obtained from `New` by `Insert`/`Combine`/`Cancel` and every
label map, visiting its pairs in two orders `L1` and `L2` makes `Sketch` return the same
histogram: the running `Min` of the global histogram with the marginals when every pair is
indexed, a fresh histogram when some pair is not, given that the histogram's `Min` is
commutative and associative. -/
theorem Sketch_order_independent (R : HMSketch H) (L1 L2 : Labels)
    (hcomm : ∀ x y : H, Histogram.Min x y = Histogram.Min y x)
    (hassoc : ∀ x y z : H,
      Histogram.Min (Histogram.Min x y) z = Histogram.Min x (Histogram.Min y z))
    (hR : Reachable R) (hp : L1.Perm L2) :
    ∃ h : H, R.Sketch L1 = some h ∧ R.Sketch L2 = some h ∧
      ((∀ kv ∈ L1, (GoMap.get R.Index (pairId kv)).isSome = true) →
        ∃ g, R.global = some g ∧ h = (marginals R L1).foldl Histogram.Min g) ∧
      ((∃ kv ∈ L1, GoMap.get R.Index (pairId kv) = none) →
        h = Histogram.New R.Resolution) := by
  by_cases hall : ∀ kv ∈ L1, (GoMap.get R.Index (pairId kv)).isSome = true
  · have hall2 : ∀ kv ∈ L2, (GoMap.get R.Index (pairId kv)).isSome = true :=
      fun kv hkv => hall kv (hp.mem_iff.2 hkv)
    obtain ⟨g, hg, e1⟩ := Sketch_indexed R hR.wf L1 hall
    obtain ⟨g', hg', e2⟩ := Sketch_indexed R hR.wf L2 hall2
    have hgg : g' = g := by
      rw [hg] at hg'
      exact (Option.some.inj hg').symm
    subst hgg
    have hperm : (marginals R L1).Perm (marginals R L2) := List.Perm.filterMap _ hp
    have hfold : (marginals R L1).foldl Histogram.Min g' =
        (marginals R L2).foldl Histogram.Min g' :=
      List.Perm.foldl_eq' hperm
        (fun x _ y _ z => by rw [hassoc, hcomm x y, ← hassoc]) g'
    refine ⟨_, e1, by rw [e2, hfold], ?_, ?_⟩
    · intro _
      exact ⟨g', by rw [global_eq_histAt R hR.wf.2, hg], rfl⟩
    · rintro ⟨kv, hkv, hn⟩
      have := hall kv hkv
      rw [hn] at this
      cases this
  · push_neg at hall
    obtain ⟨kv, hkv, hn⟩ := hall
    have hn' : GoMap.get R.Index (pairId kv) = none := by simpa using hn
    refine ⟨_, Sketch_unknown R hR.wf L1 ⟨kv, hkv, hn'⟩,
      Sketch_unknown R hR.wf L2 ⟨kv, hp.mem_iff.1 hkv, hn'⟩, ?_, fun _ => rfl⟩
    intro h
    have := h kv hkv
    rw [hn'] at this
    cases this

/-- Witness of C14: the sample registry `regA` and the label map `{"group": "a", "job": "c"}`
visited in its two orders. -/
theorem Sketch_order_independent_witness :
    ∃ h : OneBucket, regA.Sketch [("group", "a"), ("job", "c")] = some h ∧
      regA.Sketch [("job", "c"), ("group", "a")] = some h ∧
      ((∀ kv ∈ ([("group", "a"), ("job", "c")] : Labels),
          (GoMap.get regA.Index (pairId kv)).isSome = true) →
        ∃ g, regA.global = some g ∧
          h = (marginals regA [("group", "a"), ("job", "c")]).foldl Histogram.Min g) ∧
      ((∃ kv ∈ ([("group", "a"), ("job", "c")] : Labels),
          GoMap.get regA.Index (pairId kv) = none) →
        h = Histogram.New regA.Resolution) :=
  Sketch_order_independent regA [("group", "a"), ("job", "c")] [("job", "c"), ("group", "a")]
    (fun x y => by
      show OneBucket.mk (min x.mass y.mass) = OneBucket.mk (min y.mass x.mass)
      rw [min_comm])
    (fun x y z => by
      show OneBucket.mk (min (min x.mass y.mass) z.mass) =
        OneBucket.mk (min x.mass (min y.mass z.mass))
      rw [min_assoc])
    (built_reachable 2 _ (by decide)) (List.Perm.swap _ _ _)

/-! ## Claims: invariants of reachable registries -/

/-- C15: for every registry obtained from `New` by a finite sequence of `Insert`, `Combine` and
`Cancel`, `Max` equals `len(Registers)`. -/
theorem Max_eq_len_Registers (R : HMSketch H) (hR : Reachable R) :
    R.Max = (R.Registers.length : Int) :=
  hR.wf.1.max_eq

/-- Witness of C15: the result of combining the sample registries `regA` and `regB`. -/
theorem Max_eq_len_Registers_witness :
    ((regA.Combine regB (GoMap.keys (allkvps regA regB))).getD regA).Max =
      (((regA.Combine regB (GoMap.keys (allkvps regA regB))).getD regA).Registers.length : Int) :=
  Max_eq_len_Registers _ (by
    obtain ⟨out, h, -⟩ := Combine_spec regA regB (GoMap.keys (allkvps regA regB))
      (built_reachable 2 _ (by decide)).wf.1 (built_reachable 3 _ (by decide)).wf.1
      (List.Perm.refl _)
    rw [h]
    exact Reachable.combine regA regB out _ (built_reachable 2 _ (by decide))
      (built_reachable 3 _ (by decide)) (List.Perm.refl _) h)

/-- On registries as values: for every registry `R` obtained from `New` by a finite sequence of `Insert`, `Combine`
and `Cancel`, the global identifier is a key of `Index` and every slot position `i` the index
gives satisfies `0 <= i < len(Registers)`; hence `global` and `TotalCount` return, `Sketch`
returns for every label map, and `Combine` and `Cancel` with every such registry return, none
of them reading a register out of range. -/
theorem Reachable.Index_in_range (R : HMSketch H) (hR : Reachable R) :
    (GoMap.get R.Index globalId).isSome = true ∧
      (∀ k i, GoMap.get R.Index k = some i → 0 ≤ i ∧ i < (R.Registers.length : Int)) ∧
      (∃ g, R.global = some g) ∧ (∃ t, R.TotalCount = some t) ∧
      (∀ L : Labels, ∃ h, R.Sketch L = some h) ∧
      (∀ (o : HMSketch H) (ord : List Int), Reachable o → IterOrder ord (allkvps R o) →
        (∃ out, R.Combine o ord = some out) ∧ ∃ out, R.Cancel o ord = some out) := by
  obtain ⟨g, hg⟩ := histAt_isSome R hR.wf.1 globalId hR.wf.2
  refine ⟨hR.wf.2, hR.wf.1.in_range, ⟨g, ?_⟩, ⟨Histogram.Total g, ?_⟩, ?_, ?_⟩
  · rw [global_eq_histAt R hR.wf.2, hg]
  · rw [totalCount_eq R hR.wf, hg]; rfl
  · intro L
    exact Sketch_returns R hR.wf L
  · intro o ord ho hord
    obtain ⟨out, h, -⟩ := Combine_spec R o ord hR.wf.1 ho.wf.1 hord
    obtain ⟨out', h', -⟩ := Cancel_spec R o ord hR.wf.1 ho.wf.1 hord
    exact ⟨⟨out, h⟩, ⟨out', h'⟩⟩

/-- C18: for every registry `R` obtained from `New` by `Insert`/`Combine`/`Cancel`, every label
map `L`, value `v` and count `c`, `Insert(R, L, v, c)` returns a registry with the same
`Resolution`, in which every entry of `R.Index` is kept at the same slot position, and which
holds, for every identifier that is neither the global identifier nor the identifier of a pair
of `L`, exactly the histogram `R` held for it. -/
theorem Insert_frame (R : HMSketch H) (L : Labels) (v c : ℚ) (hR : Reachable R) :
    ∃ R' : HMSketch H, R.Insert L v c = some R' ∧ R'.Resolution = R.Resolution ∧
      (∀ x i, GoMap.get R.Index x = some i → GoMap.get R'.Index x = some i) ∧
      (∀ x, x ≠ globalId → (∀ kv ∈ L, pairId kv ≠ x) → R'.histAt x = R.histAt x) := by
  obtain ⟨R', h, s⟩ := Insert_spec R L v c hR.wf.1
  refine ⟨R', h, s.res, s.keep, ?_⟩
  intro x hx hL
  have h0 : hits x (("__global__", "__global__") :: L) = 0 := by
    rw [hits_eq_zero_iff]
    intro kv hkv
    rcases List.mem_cons.1 hkv with rfl | hkv
    · rw [pairId_global]; exact Ne.symm hx
    · exact hL kv hkv
  have e := s.hist x
  rw [h0] at e
  simpa using e

/-- Witness of C18: `Insert({"group": "a", "instance": "b"}, 45.4, 1)` on the sample registry
`regA`, which also holds `job=c`. -/
theorem Insert_frame_witness :
    ∃ R' : HMSketch OneBucket,
      regA.Insert [("group", "a"), ("instance", "b")] 45.4 1 = some R' ∧
      R'.Resolution = regA.Resolution ∧
      (∀ x i, GoMap.get regA.Index x = some i → GoMap.get R'.Index x = some i) ∧
      (∀ x, x ≠ globalId →
        (∀ kv ∈ ([("group", "a"), ("instance", "b")] : Labels), pairId kv ≠ x) →
        R'.histAt x = regA.histAt x) :=
  Insert_frame regA [("group", "a"), ("instance", "b")] 45.4 1
    (built_reachable 2 _ (by decide))

/-- On registries as values: for every registry `R` obtained from `New` by a finite sequence of `Insert`, `Combine`
and `Cancel`, no two distinct identifiers of `Index` have the same slot position, so writing a
histogram to the slot of one identifier leaves the histogram read for every other identifier
unchanged. -/
theorem Reachable.Index_injective (R : HMSketch H) (hR : Reachable R) :
    (∀ k k' i, GoMap.get R.Index k = some i → GoMap.get R.Index k' = some i → k = k') ∧
      (∀ (k k' : Int) (i : Int) (h : H), GoMap.get R.Index k = some i → k' ≠ k →
        ({ R with Registers := R.Registers.set i.toNat h } : HMSketch H).histAt k' =
          R.histAt k') := by
  refine ⟨hR.wf.1.inj, ?_⟩
  intro k k' i h hk hne
  cases hk' : GoMap.get R.Index k' with
  | none => simp [HMSketch.histAt, hk']
  | some j =>
    have hij : i ≠ j := fun e => hne (hR.wf.1.inj _ _ _ hk' (e ▸ hk))
    simp [HMSketch.histAt, hk', regAt_set_ne _ _ _ _ (hR.wf.1.in_range k i hk).1 hij]

/-! ## Slot count and the number of identifiers -/

theorem insertStep_cases (v c : ℚ) (m m' : HMSketch H) (kv : String × String)
    (h : HMSketch.insertStep v c m kv = some m') :
    ((GoMap.get m.Index (pairId kv)).isSome = true ∧ m'.Index = m.Index ∧ m'.Max = m.Max) ∨
      (GoMap.get m.Index (pairId kv) = none ∧
        m'.Index = GoMap.set m.Index (pairId kv) m.Max ∧ m'.Max = m.Max + 1) := by
  unfold HMSketch.insertStep at h
  cases hg : GoMap.get m.Index (hash kv.1 kv.2) with
  | some i =>
    left
    simp only [hg, Option.isSome_some, if_true] at h
    split at h
    · cases h
    · cases h
      exact ⟨by simp [pairId, hg], rfl, rfl⟩
  | none =>
    right
    simp only [hg, Option.isSome_none, Bool.false_eq_true, if_false] at h
    split at h
    · cases h
    · cases h
      exact ⟨hg, rfl, rfl⟩

theorem idCount_set (idx : GoMap Int Int) (k : Int) (v : Int) (hk : GoMap.get idx k = none) :
    (GoMap.keys (GoMap.set idx k v)).toFinset.card = (GoMap.keys idx).toFinset.card + 1 := by
  have hnot : k ∉ (GoMap.keys idx).toFinset := by
    rw [List.mem_toFinset, GoMap.mem_keys_iff, hk]
    simp
  have hset : (GoMap.keys (GoMap.set idx k v)).toFinset = insert k (GoMap.keys idx).toFinset := by
    ext x
    rw [List.mem_toFinset, GoMap.mem_keys_iff, GoMap.isSome_get_set, Finset.mem_insert,
      List.mem_toFinset, GoMap.mem_keys_iff]
  rw [hset, Finset.card_insert_of_not_mem hnot]

theorem insertStep_slack (v c : ℚ) (m m' : HMSketch H) (kv : String × String)
    (h : HMSketch.insertStep v c m kv = some m') :
    m'.Max - (idCount m' : Int) = m.Max - (idCount m : Int) := by
  rcases insertStep_cases v c m m' kv h with ⟨-, hi, hmax⟩ | ⟨hn, hi, hmax⟩
  · rw [idCount, hi, hmax, idCount]
  · rw [idCount, hi, hmax, idCount_set _ _ _ hn, idCount]
    push_cast
    ring

theorem insert_slack (v c : ℚ) (kvs : Labels) :
    ∀ m m' : HMSketch H, m.insert kvs v c = some m' →
      m'.Max - (idCount m' : Int) = m.Max - (idCount m : Int) := by
  induction kvs with
  | nil =>
    intro m m' h
    cases h
    rfl
  | cons kv rest ih =>
    intro m m' h
    rw [insert_cons] at h
    cases h1 : HMSketch.insertStep v c m kv with
    | none => simp [h1] at h
    | some m1 =>
      rw [h1] at h
      rw [ih m1 m' h, insertStep_slack v c m m1 kv h1]

theorem idCount_congr (m m' : HMSketch H)
    (h : ∀ x, (GoMap.get m.Index x).isSome = true ↔ (GoMap.get m'.Index x).isSome = true) :
    idCount m = idCount m' := by
  unfold idCount
  congr 1
  ext x
  rw [List.mem_toFinset, List.mem_toFinset, GoMap.mem_keys_iff, GoMap.mem_keys_iff, h]

theorem runInserts_slack (ops : List (Labels × ℚ × ℚ)) :
    ∀ m R : HMSketch H, runInserts m ops = some R →
      R.Max - (idCount R : Int) = m.Max - (idCount m : Int) := by
  induction ops with
  | nil =>
    intro m R h
    cases h
    rfl
  | cons op rest ih =>
    intro m R h
    cases h1 : m.Insert op.1 op.2.1 op.2.2 with
    | none => simp [runInserts, h1] at h
    | some m1 =>
      simp only [runInserts, h1, Option.some_bind] at h
      rw [ih m1 R h]
      rw [Insert_eq_insert] at h1
      exact insert_slack _ _ _ m m1 h1

/-- On the path of `New` and `Insert` the slot count is the number of distinct identifiers:
`insert` allocates a slot only for an identifier that is not yet indexed. -/
theorem build_Max_eq_idCount (r : Int) (ops : List (Labels × ℚ × ℚ)) :
    (built r ops : HMSketch H).Max = (idCount (built r ops : HMSketch H) : Int) := by
  have h := build_eq_built (H := H) r ops
  simp only [build, New_eq, Option.some_bind] at h
  have e := runInserts_slack ops _ _ h
  have e0 : (newReg r : HMSketch H).Max - (idCount (newReg r : HMSketch H) : Int) = 0 := by
    simp [newReg, idCount, GoMap.keys]
  omega

/-! ## Claims: the order of an Insert -/

/-- C19: for every registry `R` obtained from `New` by `Insert`/`Combine`/`Cancel`, every value
`v` and count `c`, and every label map visited in two orders `L1` and `L2`, both visits of
`Insert` return, and the two results have the same identifiers in `Index`, the same `Max` and
the same histogram for every identifier. -/
theorem Insert_order_independent (R : HMSketch H) (L1 L2 : Labels) (v c : ℚ)
    (hR : Reachable R) (hp : L1.Perm L2) :
    ∃ R1 R2 : HMSketch H, R.Insert L1 v c = some R1 ∧ R.Insert L2 v c = some R2 ∧
      (∀ x, x ∈ GoMap.keys R1.Index ↔ x ∈ GoMap.keys R2.Index) ∧ R1.Max = R2.Max ∧
      ∀ x, R1.histAt x = R2.histAt x := by
  obtain ⟨R1, h1, s1⟩ := Insert_spec R L1 v c hR.wf.1
  obtain ⟨R2, h2, s2⟩ := Insert_spec R L2 v c hR.wf.1
  have hq : (("__global__", "__global__") :: L1).Perm (("__global__", "__global__") :: L2) :=
    List.Perm.cons _ hp
  have hkeys : ∀ x, (GoMap.get R1.Index x).isSome = true ↔
      (GoMap.get R2.Index x).isSome = true := by
    intro x
    rw [s1.keys, s2.keys]
    constructor
    · rintro (h | ⟨kv, hkv, e⟩)
      · exact Or.inl h
      · exact Or.inr ⟨kv, hq.mem_iff.1 hkv, e⟩
    · rintro (h | ⟨kv, hkv, e⟩)
      · exact Or.inl h
      · exact Or.inr ⟨kv, hq.mem_iff.2 hkv, e⟩
  refine ⟨R1, R2, h1, h2, ?_, ?_, ?_⟩
  · intro x
    rw [GoMap.mem_keys_iff, GoMap.mem_keys_iff]
    exact hkeys x
  · have e1 := insert_slack v c _ R R1 (by rw [← Insert_eq_insert]; exact h1)
    have e2 := insert_slack v c _ R R2 (by rw [← Insert_eq_insert]; exact h2)
    have e3 := idCount_congr R1 R2 hkeys
    omega
  · intro x
    have hh : hits x (("__global__", "__global__") :: L1) =
        hits x (("__global__", "__global__") :: L2) := List.Perm.countP_eq _ hq
    rw [s1.hist x, s2.hist x, hh]

/-- Witness of C19: `Insert` on the sample registry `regA` with the label map
`{"instance": "b", "service": "q"}`, both pairs new, visited in its two orders. -/
theorem Insert_order_independent_witness :
    ∃ R1 R2 : HMSketch OneBucket,
      regA.Insert [("instance", "b"), ("service", "q")] 45.4 1 = some R1 ∧
      regA.Insert [("service", "q"), ("instance", "b")] 45.4 1 = some R2 ∧
      (∀ x, x ∈ GoMap.keys R1.Index ↔ x ∈ GoMap.keys R2.Index) ∧ R1.Max = R2.Max ∧
      ∀ x, R1.histAt x = R2.histAt x :=
  Insert_order_independent regA [("instance", "b"), ("service", "q")]
    [("service", "q"), ("instance", "b")] 45.4 1 (built_reachable 2 _ (by decide))
    (List.Perm.swap _ _ _)

/-- The slot positions do depend on the order of the visit: in the two results above the pair
`instance=b` is at slot 3 and at slot 4. -/
theorem Insert_slot_positions_differ :
    ((regA.Insert [("instance", "b"), ("service", "q")] 45.4 1).bind fun R =>
        GoMap.get R.Index (pairId ("instance", "b"))) = some 3 ∧
      ((regA.Insert [("service", "q"), ("instance", "b")] 45.4 1).bind fun R =>
        GoMap.get R.Index (pairId ("instance", "b"))) = some 4 := by
  decide!

/-! ## Replaying the Insert calls -/

theorem applyEvents_append (e1 e2 : List (ℚ × ℚ)) (h : H) :
    applyEvents (e1 ++ e2) h = applyEvents e2 (applyEvents e1 h) := by
  simp [applyEvents, List.foldl_append]

theorem insertN_eq_applyEvents (n : Nat) (v c : ℚ) :
    ∀ h : H, insertN n v c h = applyEvents (List.replicate n (v, c)) h := by
  induction n with
  | zero => intro h; rfl
  | succ n ih =>
    intro h
    rw [insertN_succ, ih, List.replicate_succ]
    rfl

theorem events_append (x : Int) (A B : List (Labels × ℚ × ℚ)) :
    events x (A ++ B) = events x A ++ events x B := by
  induction A with
  | nil => rfl
  | cons op rest ih => simp [events, ih]

theorem events_empty_call (x : Int) :
    events x [(([] : Labels), (0 : ℚ), (0 : ℚ))] = if x = globalId then [(0, 0)] else [] := by
  by_cases hx : x = globalId
  · subst hx
    have h1 := hits_cons_self ("__global__", "__global__") []
    rw [pairId_global, hits_nil] at h1
    simp [events, h1]
  · have h0 : hits x [("__global__", "__global__")] = 0 := by
      rw [hits_cons_ne x _ _ (by rw [pairId_global]; exact hx), hits_nil]
    simp [events, h0, hx]

theorem isSome_histAt_iff (m : HMSketch H) (hm : SlotsOK m) (x : Int) :
    (m.histAt x).isSome = true ↔ (GoMap.get m.Index x).isSome = true := by
  constructor
  · intro h
    cases hg : GoMap.get m.Index x with
    | none => rw [histAt_none m x hg] at h; cases h
    | some i => rfl
  · intro h
    obtain ⟨a, ha⟩ := histAt_isSome m hm x h
    simp [ha]

theorem runInserts_hist (ops : List (Labels × ℚ × ℚ)) :
    ∀ m R : HMSketch H, WF m → runInserts m ops = some R →
      ∀ x, R.histAt x =
        if events x ops = [] then m.histAt x
        else some (applyEvents (events x ops)
          ((m.histAt x).getD (Histogram.New m.Resolution))) := by
  induction ops with
  | nil =>
    intro m R _ h x
    cases h
    simp [events]
  | cons op rest ih =>
    intro m R hm h x
    obtain ⟨m1, h1, s1⟩ := Insert_spec m op.1 op.2.1 op.2.2 hm.1
    have w1 : WF m1 := Insert_wf m m1 _ _ _ hm h1
    simp only [runInserts, h1, Option.some_bind] at h
    rw [ih m1 R w1 h x, s1.hist x, s1.res]
    by_cases h0 : hits x (("__global__", "__global__") :: op.1) = 0
    · simp [events, h0]
    · by_cases hr : events x rest = []
      · simp [events, h0, hr, insertN_eq_applyEvents]
      · simp [events, h0, hr, insertN_eq_applyEvents, applyEvents_append]

theorem built_histAt (r : Int) (ops : List (Labels × ℚ × ℚ)) (x : Int) :
    (built r ops : HMSketch H).histAt x = replay r x ops := by
  have h := build_eq_built (H := H) r ops
  simp only [build, New_eq, Option.some_bind] at h
  obtain ⟨w0, r0, k0, g0⟩ := New_wf r (newReg r : HMSketch H) (New_eq r)
  rw [runInserts_hist ops _ _ w0 h x, r0]
  by_cases hx : x = globalId
  · subst hx
    rw [g0]
    by_cases he : events globalId ops = []
    · simp [replay, he, applyEvents]
    · simp [replay, he]
  · have hn : (newReg r : HMSketch H).histAt x = none := by
      apply histAt_none
      cases hg : GoMap.get (newReg r : HMSketch H).Index x with
      | none => rfl
      | some i =>
        have : (GoMap.get (newReg r : HMSketch H).Index x).isSome = true := by simp [hg]
        exact absurd ((k0 x).1 this) hx
    simp [replay, hx, hn]

theorem built_wf (r : Int) (ops : List (Labels × ℚ × ℚ)) : WF (built r ops : HMSketch H) := by
  obtain ⟨R, h, w, -⟩ := build_spec (H := H) r ops
  rw [build_eq_built] at h
  cases h
  exact w

theorem combine_applyEvents
    (hIC : ∀ (a b : H) (v c : ℚ),
      Histogram.Insert (Histogram.Combine a b) v c =
        Histogram.Combine a (Histogram.Insert b v c))
    (evs : List (ℚ × ℚ)) :
    ∀ a b : H, Histogram.Combine a (applyEvents evs b) =
      applyEvents evs (Histogram.Combine a b) := by
  induction evs with
  | nil => intro a b; rfl
  | cons e rest ih =>
    intro a b
    show Histogram.Combine a (applyEvents rest (Histogram.Insert b e.1 e.2)) =
      applyEvents rest (Histogram.Insert (Histogram.Combine a b) e.1 e.2)
    rw [ih, hIC]

theorem combineReg_replay (r : Int) (A B : List (Labels × ℚ × ℚ)) (x : Int)
    (hid : ∀ (a : H) (r : Int), Histogram.Combine a (Histogram.New r) = a)
    (hIC : ∀ (a b : H) (v c : ℚ),
      Histogram.Insert (Histogram.Combine a b) v c =
        Histogram.Combine a (Histogram.Insert b v c)) :
    combineReg (built r A : HMSketch H) (built r B) x = replay r x (A ++ ([], 0, 0) :: B) := by
  have hev : events x (A ++ ([], 0, 0) :: B) =
      events x A ++ ((if x = globalId then [(0, 0)] else []) ++ events x B) := by
    rw [events_append, ← events_empty_call x]
    exact congrArg _ (events_append x [([], 0, 0)] B)
  rw [combineReg, built_histAt, built_histAt, replay, replay, replay, hev]
  by_cases hx : x = globalId
  · simp only [hx, if_true]
    rw [combine_applyEvents hIC, applyEvents_append]
    congr 1
    show _ = applyEvents (events globalId B) (Histogram.Insert _ 0 0)
    rw [← hIC, hid]
  · simp only [hx, if_false, List.nil_append]
    by_cases hA : events x A = [] <;> by_cases hB : events x B = []
    · simp [hA, hB]
    · simp [hA, hB]
    · simp [hA, hB]
    · simp only [hA, hB, if_false, List.append_eq_nil, false_and]
      rw [combine_applyEvents hIC, hid, applyEvents_append]

theorem built_keys (r : Int) (ops : List (Labels × ℚ × ℚ)) (x : Int) :
    (GoMap.get (built r ops : HMSketch H).Index x).isSome = true ↔
      (x = globalId ∨ ∃ op ∈ ops, ∃ q ∈ op.1, pairId q = x) := by
  obtain ⟨R, h, -, -, k⟩ := build_spec (H := H) r ops
  rw [build_eq_built] at h
  cases h
  exact k x

theorem Combine_histAt (m o out : HMSketch H) (ord : List Int) (hm : WF m) (ho : WF o)
    (hord : IterOrder ord (allkvps m o)) (h : m.Combine o ord = some out) :
    ∀ x, out.histAt x = combineReg m o x := by
  obtain ⟨out', h', s⟩ := Combine_spec m o ord hm.1 ho.1 hord
  rw [h] at h'
  cases h'
  intro x
  by_cases hx : (GoMap.get m.Index x).isSome = true ∨ (GoMap.get o.Index x).isSome = true
  · exact s.hist x hx
  · push_neg at hx
    have hm0 : m.histAt x = none := histAt_none m x (by simpa using hx.1)
    have ho0 : o.histAt x = none := histAt_none o x (by simpa using hx.2)
    have hg : x ≠ globalId := fun e => hx.1 (e ▸ hm.2)
    have hout : GoMap.get out.Index x = none := by
      cases hgo : GoMap.get out.Index x with
      | none => rfl
      | some i =>
        have : (GoMap.get out.Index x).isSome = true := by simp [hgo]
        rcases (s.keys x).1 this with e | e | e
        · exact absurd e hg
        · exact absurd e hx.1
        · exact absurd e hx.2
    rw [histAt_none out x hout]
    simp [combineReg, hm0, ho0]

theorem combineReg_comm (m o : HMSketch H) (x : Int)
    (hcomm : ∀ a b : H, Histogram.Combine a b = Histogram.Combine b a) :
    combineReg m o x = combineReg o m x := by
  unfold combineReg
  cases m.histAt x <;> cases o.histAt x <;> simp [hcomm]

theorem replay_eq_of_ne (r : Int) (A B : List (Labels × ℚ × ℚ)) (x : Int) (hx : x ≠ globalId) :
    (replay r x (A ++ ([], 0, 0) :: B) : Option H) = replay r x (A ++ B) := by
  have hev : events x (A ++ ([], 0, 0) :: B) = events x (A ++ B) := by
    rw [events_append, events_append]
    have := events_append x [([], 0, 0)] B
    rw [events_empty_call, if_neg hx] at this
    exact congrArg _ this
  unfold replay
  rw [hev]

theorem replay_eq_of_zero (r : Int) (A B : List (Labels × ℚ × ℚ)) (x : Int)
    (hz : ∀ h : H, Histogram.Insert h 0 0 = h) :
    (replay r x (A ++ ([], 0, 0) :: B) : Option H) = replay r x (A ++ B) := by
  by_cases hx : x = globalId
  · have hev : events x (A ++ ([], 0, 0) :: B) = events x A ++ ((0, 0) :: events x B) := by
      rw [events_append]
      have := events_append x [([], 0, 0)] B
      rw [events_empty_call, if_pos hx] at this
      exact congrArg _ this
    rw [replay, replay, hev, events_append, if_pos hx, if_pos hx, applyEvents_append,
      applyEvents_append]
    congr 1
    show applyEvents (events x B) (Histogram.Insert _ 0 0) = _
    rw [hz]
  · exact replay_eq_of_ne r A B x hx

/-! ## Claims: Combine and the replay of the Insert calls -/

/-- C12, as stated, fails: with the histogram `Tally`, whose `Combine` is associative and
commutative with a fresh histogram as identity and commutes with `Insert`, and with `A` and `B`
empty, `New(2).Combine(New(2))` holds for the global identifier a histogram with two
observations, while `New(2)` followed by no `Insert` holds one with a single observation: every
`New` applies `Insert(0, 0)` to the global histogram, and `Combine` merges the two. -/
theorem Combine_global_differs_from_replay :
    (∀ a b c : Tally, Histogram.Combine (Histogram.Combine a b) c =
        Histogram.Combine a (Histogram.Combine b c)) ∧
      (∀ a b : Tally, Histogram.Combine a b = Histogram.Combine b a) ∧
      (∀ (a : Tally) (r : Int), Histogram.Combine a (Histogram.New r) = a) ∧
      (∀ (a b : Tally) (v c : ℚ), Histogram.Insert (Histogram.Combine a b) v c =
        Histogram.Combine a (Histogram.Insert b v c)) ∧
      ((build 2 [] : Option (HMSketch Tally)).bind fun a =>
        (build 2 [] : Option (HMSketch Tally)).bind fun b =>
          (a.Combine b [globalId]).bind fun out => out.histAt globalId) = some ⟨0, 2⟩ ∧
      ((build 2 ([] ++ []) : Option (HMSketch Tally)).bind fun ab => ab.histAt globalId) =
        some ⟨0, 1⟩ := by
  refine ⟨?_, ?_, ?_, ?_, ?_, ?_⟩
  · rintro ⟨m1, n1⟩ ⟨m2, n2⟩ ⟨m3, n3⟩
    show Tally.mk (m1 + m2 + m3) (n1 + n2 + n3) = Tally.mk (m1 + (m2 + m3)) (n1 + (n2 + n3))
    rw [add_assoc, Nat.add_assoc]
  · rintro ⟨m1, n1⟩ ⟨m2, n2⟩
    show Tally.mk (m1 + m2) (n1 + n2) = Tally.mk (m2 + m1) (n2 + n1)
    rw [add_comm, Nat.add_comm]
  · rintro ⟨m1, n1⟩ r
    show Tally.mk (m1 + 0) (n1 + 0) = Tally.mk m1 n1
    rw [add_zero, Nat.add_zero]
  · rintro ⟨m1, n1⟩ ⟨m2, n2⟩ v c
    show Tally.mk (m1 + m2 + c) (n1 + n2 + 1) = Tally.mk (m1 + (m2 + c)) (n1 + (n2 + 1))
    rw [add_assoc, Nat.add_assoc]
  · decide!
  · decide!

/-- C12, amended: for every resolution `r` and all sequences `A` and `B` of `Insert` calls,
with `a` and `b` the registries `New(r)` followed by `A` and by `B`, `a.Combine(b)` returns for
every order of visit, and it holds the same identifiers as `New(r)` followed by `A` and then
`B`, the same histogram for every identifier other than the global one, and for every
identifier, the global one included, the same histogram as `New(r)` followed by `A`, one
`Insert({}, 0, 0)` and `B`, and as `New(r)` followed by `B`, one `Insert({}, 0, 0)` and `A`;
so it agrees with the replay of `A` and `B` on every identifier when `Insert(0, 0)` leaves a
histogram unchanged.  The histogram's `Combine` is assumed commutative, with a fresh histogram
as identity, and to commute with `Insert`. -/
theorem Combine_eq_replay (r : Int) (A B : List (Labels × ℚ × ℚ)) (ord : List Int)
    (hcomm : ∀ a b : H, Histogram.Combine a b = Histogram.Combine b a)
    (hid : ∀ (a : H) (r : Int), Histogram.Combine a (Histogram.New r) = a)
    (hIC : ∀ (a b : H) (v c : ℚ),
      Histogram.Insert (Histogram.Combine a b) v c =
        Histogram.Combine a (Histogram.Insert b v c))
    (hord : IterOrder ord (allkvps (built r A : HMSketch H) (built r B))) :
    ∃ a b ab abz bza out : HMSketch H,
      build r A = some a ∧ build r B = some b ∧ build r (A ++ B) = some ab ∧
      build r (A ++ ([], 0, 0) :: B) = some abz ∧ build r (B ++ ([], 0, 0) :: A) = some bza ∧
      a.Combine b ord = some out ∧
      (∀ x, x ∈ GoMap.keys out.Index ↔ x ∈ GoMap.keys ab.Index) ∧
      (∀ x, x ≠ globalId → out.histAt x = ab.histAt x) ∧
      (∀ x, out.histAt x = abz.histAt x) ∧ (∀ x, out.histAt x = bza.histAt x) ∧
      ((∀ h : H, Histogram.Insert h 0 0 = h) → ∀ x, out.histAt x = ab.histAt x) := by
  obtain ⟨out, h, s⟩ := Combine_spec (built r A : HMSketch H) (built r B) ord
    (built_wf r A).1 (built_wf r B).1 hord
  have hall := Combine_histAt _ _ out ord (built_wf r A) (built_wf r B) hord h
  refine ⟨built r A, built r B, built r (A ++ B), built r (A ++ ([], 0, 0) :: B),
    built r (B ++ ([], 0, 0) :: A), out, build_eq_built r A, build_eq_built r B,
    build_eq_built r _, build_eq_built r _, build_eq_built r _, h, ?_, ?_, ?_, ?_, ?_⟩
  · intro x
    rw [GoMap.mem_keys_iff, GoMap.mem_keys_iff, s.keys, built_keys, built_keys, built_keys]
    constructor
    · rintro (e | (e | ⟨op, ho, q, hq, e⟩) | (e | ⟨op, ho, q, hq, e⟩))
      · exact Or.inl e
      · exact Or.inl e
      · exact Or.inr ⟨op, List.mem_append_left _ ho, q, hq, e⟩
      · exact Or.inl e
      · exact Or.inr ⟨op, List.mem_append_right _ ho, q, hq, e⟩
    · rintro (e | ⟨op, ho, q, hq, e⟩)
      · exact Or.inl e
      · rcases List.mem_append.1 ho with ho | ho
        · exact Or.inr (Or.inl (Or.inr ⟨op, ho, q, hq, e⟩))
        · exact Or.inr (Or.inr (Or.inr ⟨op, ho, q, hq, e⟩))
  · intro x hx
    rw [hall x, combineReg_replay r A B x hid hIC, built_histAt, replay_eq_of_ne r A B x hx]
  · intro x
    rw [hall x, combineReg_replay r A B x hid hIC, built_histAt]
  · intro x
    rw [hall x, combineReg_comm _ _ x hcomm, combineReg_replay r B A x hid hIC, built_histAt]
  · intro hz x
    rw [hall x, combineReg_replay r A B x hid hIC, built_histAt, replay_eq_of_zero r A B x hz]

/-- Witness of C12: resolution 2, `A` the call `Insert({"group": "a", "job": "c"}, 10.4, 1)` and
`B` the call `Insert({"group": "b", "job": "c"}, 12.4, 2)`, with the histogram `Tally`. -/
theorem Combine_eq_replay_witness :
    ∃ a b ab abz bza out : HMSketch Tally,
      build 2 [([("group", "a"), ("job", "c")], 10.4, 1)] = some a ∧
      build 2 [([("group", "b"), ("job", "c")], 12.4, 2)] = some b ∧
      build 2 ([([("group", "a"), ("job", "c")], 10.4, 1)] ++
        [([("group", "b"), ("job", "c")], 12.4, 2)]) = some ab ∧
      build 2 ([([("group", "a"), ("job", "c")], 10.4, 1)] ++
        ([], 0, 0) :: [([("group", "b"), ("job", "c")], 12.4, 2)]) = some abz ∧
      build 2 ([([("group", "b"), ("job", "c")], 12.4, 2)] ++
        ([], 0, 0) :: [([("group", "a"), ("job", "c")], 10.4, 1)]) = some bza ∧
      a.Combine b (GoMap.keys (allkvps
        (built 2 [([("group", "a"), ("job", "c")], 10.4, 1)] : HMSketch Tally)
        (built 2 [([("group", "b"), ("job", "c")], 12.4, 2)]))).reverse = some out ∧
      (∀ x, x ∈ GoMap.keys out.Index ↔ x ∈ GoMap.keys ab.Index) ∧
      (∀ x, x ≠ globalId → out.histAt x = ab.histAt x) ∧
      (∀ x, out.histAt x = abz.histAt x) ∧ (∀ x, out.histAt x = bza.histAt x) ∧
      ((∀ h : Tally, Histogram.Insert h 0 0 = h) → ∀ x, out.histAt x = ab.histAt x) :=
  Combine_eq_replay 2 [([("group", "a"), ("job", "c")], 10.4, 1)]
    [([("group", "b"), ("job", "c")], 12.4, 2)] _
    (fun a b => by
      show Tally.mk (a.mass + b.mass) (a.observations + b.observations) =
        Tally.mk (b.mass + a.mass) (b.observations + a.observations)
      rw [add_comm, Nat.add_comm])
    (fun a r => by
      show Tally.mk (a.mass + 0) (a.observations + 0) = a
      rw [add_zero, Nat.add_zero])
    (fun a b v c => by
      show Tally.mk (a.mass + b.mass + c) (a.observations + b.observations + 1) =
        Tally.mk (a.mass + (b.mass + c)) (a.observations + (b.observations + 1))
      rw [add_assoc, Nat.add_assoc])
    (List.reverse_perm _)

/-! ## Shared storage: the methods on the views -/

theorem read_view (σ : Mem H) (m : Obj) (i : Int) :
    σ.read m.Registers i = regAt (view σ m).Registers i := by
  unfold Mem.read regAt view
  by_cases h0 : 0 ≤ i
  · by_cases h1 : i.toNat < m.Registers.len
    · simp [h0, h1, List.getElem?_take]
    · simp only [h0, h1, and_false, if_false, if_true]
      symm
      apply List.getElem?_eq_none
      simp only [List.length_take]
      omega
  · simp [h0]

theorem Ext.refl (σ : Mem H) (ix ar : Nat) : Ext σ σ ix ar :=
  ⟨rfl, le_refl _, le_refl _, fun _ _ _ => rfl, fun _ _ _ => rfl⟩

theorem Ext.trans {σ σ1 σ2 : Mem H} {ix ar ar1 : Nat} (h1 : Ext σ σ1 ix ar)
    (h2 : Ext σ1 σ2 ix ar1) (har : ar1 = ar ∨ σ.nextArr ≤ ar1) : Ext σ σ2 ix ar := by
  obtain ⟨g1, m1, a1, hm1, ha1⟩ := h1
  obtain ⟨g2, m2, a2, hm2, ha2⟩ := h2
  refine ⟨g2.trans g1, le_trans m1 m2, le_trans a1 a2, ?_, ?_⟩
  · intro a ha hne
    rw [hm2 a (lt_of_lt_of_le ha m1) hne, hm1 a ha hne]
  · intro a ha hne
    have hne1 : a ≠ ar1 := by
      rcases har with e | e
      · rw [e]; exact hne
      · omega
    rw [ha2 a (lt_of_lt_of_le ha a1) hne1, ha1 a ha hne]

theorem write_view (σ : Mem H) (m : Obj) (i : Int) (x : H) (hv : Valid σ m) :
    view (σ.write m.Registers i x) m =
        { view σ m with Registers := (view σ m).Registers.set i.toNat x } ∧
      Valid (σ.write m.Registers i x) m ∧
      Ext σ (σ.write m.Registers i x) m.Index m.Registers.arr := by
  refine ⟨?_, ?_, ?_⟩
  · simp [view, Mem.write, List.set_take]
  · simpa [Valid, Mem.write] using hv
  · refine ⟨rfl, le_refl _, le_refl _, fun _ _ _ => rfl, ?_⟩
    intro a _ hne
    simp [Mem.write, Function.update_noteq hne]

theorem append_view (σ : Mem H) (m : Obj) (x : H) (hv : Valid σ m) :
    view (σ.append m.Registers x).1 { m with Registers := (σ.append m.Registers x).2 } =
        { view σ m with Registers := (view σ m).Registers ++ [x] } ∧
      Valid (σ.append m.Registers x).1 { m with Registers := (σ.append m.Registers x).2 } ∧
      Ext σ (σ.append m.Registers x).1 m.Index m.Registers.arr ∧
      ((σ.append m.Registers x).2.arr = m.Registers.arr ∨
        σ.nextArr ≤ (σ.append m.Registers x).2.arr) := by
  obtain ⟨hlen, hix, har⟩ := hv
  unfold Mem.append
  by_cases hc : m.Registers.len < σ.caps m.Registers.arr
  · simp only [hc, if_true]
    refine ⟨?_, ⟨?_, hix, har⟩, ?_, Or.inl trivial⟩
    · simp only [view, Function.update_same]
      congr 1
      rw [List.take_append_eq_append_take]
      simp [List.length_take, Nat.min_eq_left hlen]
    · simp only [Function.update_same, List.length_append, List.length_take, List.length_cons,
        List.length_drop]
      omega
    · refine ⟨rfl, le_refl _, le_refl _, fun _ _ _ => rfl, ?_⟩
      intro a _ hne
      simp [Function.update_noteq hne]
  · simp only [hc, if_false]
    refine ⟨?_, ⟨?_, hix, ?_⟩, ?_, Or.inr (le_refl _)⟩
    · simp only [view, Function.update_same]
      congr 1
      apply List.take_of_length_le
      simp [List.length_take, Nat.min_eq_left hlen]
    · simp [List.length_take, Nat.min_eq_left hlen]
    · simp
    · refine ⟨rfl, le_refl _, Nat.le_succ _, fun _ _ _ => rfl, ?_⟩
      intro a ha _
      have : a ≠ σ.nextArr := by omega
      simp [Function.update_noteq this]

theorem Sim.of_step {σ σ2 : Mem H} {m n : Obj} {r : Option (Mem H × Obj)}
    {p : Option (HMSketch H)} (hext : Ext σ σ2 m.Index m.Registers.arr)
    (hix : n.Index = m.Index)
    (har : n.Registers.arr = m.Registers.arr ∨ σ.nextArr ≤ n.Registers.arr)
    (h : Sim σ2 n r p) : Sim σ m r p := by
  cases r with
  | none => exact h
  | some st =>
    obtain ⟨hp, hv, he, hi, ha⟩ := h
    refine ⟨hp, hv, ?_, hi.trans hix, ?_⟩
    · rw [hix] at he
      exact Ext.trans hext he har
    · rcases ha with e | e
      · rw [e]; exact har
      · exact Or.inr (le_trans hext.2.2.1 e)

theorem update_view (v c : ℚ) (σ : Mem H) (m : Obj) (i : Int) (hv : Valid σ m) :
    Sim σ m
      (match σ.read m.Registers i with
        | none => none
        | some h => some (σ.write m.Registers i (Histogram.Insert h v c), m))
      (match regAt (view σ m).Registers i with
        | none => none
        | some h =>
          some { view σ m with
            Registers := (view σ m).Registers.set i.toNat (Histogram.Insert h v c) }) := by
  rw [read_view]
  cases regAt (view σ m).Registers i with
  | none => rfl
  | some h =>
    obtain ⟨e, hv', hext⟩ := write_view σ m i (Histogram.Insert h v c) hv
    exact ⟨by rw [e], hv', hext, rfl, Or.inl rfl⟩

theorem insertStep_view (v c : ℚ) (σ : Mem H) (m : Obj) (kv : String × String)
    (hv : Valid σ m) :
    Sim σ m (Obj.insertStep v c (σ, m) kv) (HMSketch.insertStep v c (view σ m) kv) := by
  cases hg : GoMap.get (σ.maps m.Index) (hash kv.1 kv.2) with
  | some i =>
    have hgv : GoMap.get (view σ m).Index (hash kv.1 kv.2) = some i := hg
    have e1 : Obj.insertStep v c (σ, m) kv =
        (match σ.read m.Registers i with
          | none => none
          | some h => some (σ.write m.Registers i (Histogram.Insert h v c), m)) := by
      simp only [Obj.insertStep, hg, Option.isSome_some, if_true, Option.getD_some]
    have e2 : HMSketch.insertStep v c (view σ m) kv =
        (match regAt (view σ m).Registers i with
          | none => none
          | some h =>
            some { view σ m with
              Registers := (view σ m).Registers.set i.toNat (Histogram.Insert h v c) }) := by
      simp only [HMSketch.insertStep, hgv, Option.isSome_some, if_true, Option.getD_some]
    rw [e1, e2]
    exact update_view v c σ m i hv
  | none =>
    have hgv : GoMap.get (view σ m).Index (hash kv.1 kv.2) = none := hg
    let σ1 : Mem H := σ.setMap m.Index (hash kv.1 kv.2) m.Max
    let mp : Obj := { m with Max := m.Max + 1 }
    let σ2 : Mem H := (σ1.append mp.Registers (Histogram.New m.Resolution)).1
    let m2 : Obj := { mp with Registers := (σ1.append mp.Registers (Histogram.New m.Resolution)).2 }
    have hv1 : Valid σ1 mp := hv
    obtain ⟨ev, hv2, hext2, har2⟩ := append_view σ1 mp (Histogram.New m.Resolution) hv1
    have hext1 : Ext σ σ1 m.Index m.Registers.arr := by
      refine ⟨rfl, le_refl _, le_refl _, ?_, fun _ _ _ => rfl⟩
      intro a _ hne
      simp [σ1, Mem.setMap, Function.update_noteq hne]
    have hget : GoMap.get (σ2.maps m2.Index) (hash kv.1 kv.2) = some m.Max := by
      have : σ2.maps m2.Index = (view σ2 m2).Index := rfl
      rw [this, ev]
      simp [view, σ1, mp, Mem.setMap, GoMap.get_set_self]
    have e1 : Obj.insertStep v c (σ, m) kv =
        (match σ2.read m2.Registers m.Max with
          | none => none
          | some h => some (σ2.write m2.Registers m.Max (Histogram.Insert h v c), m2)) := by
      simp only [Obj.insertStep, hg, Option.isSome_none, Bool.false_eq_true, if_false]
      simp only [σ2, m2, mp, σ1] at hget ⊢
      simp only [hget, Option.getD_some]
    have e2 : HMSketch.insertStep v c (view σ m) kv =
        (match regAt (view σ2 m2).Registers m.Max with
          | none => none
          | some h =>
            some { view σ2 m2 with
              Registers := (view σ2 m2).Registers.set m.Max.toNat (Histogram.Insert h v c) }) := by
      rw [ev]
      simp only [HMSketch.insertStep, hgv, Option.isSome_none, Bool.false_eq_true, if_false]
      simp [view, σ1, mp, Mem.setMap, GoMap.get_set_self]
    rw [e1, e2]
    have hsim := update_view v c σ2 m2 m.Max hv2
    exact Sim.of_step (m := m) (n := m2) (Ext.trans hext1 hext2 (Or.inl rfl)) rfl har2 hsim

theorem Obj.insert_step (σ : Mem H) (m : Obj) (kv : String × String) (rest : Labels)
    (v c : ℚ) :
    Obj.insert σ m (kv :: rest) v c =
      (Obj.insertStep v c (σ, m) kv).bind fun st => Obj.insert st.1 st.2 rest v c := by
  simp [Obj.insert, List.foldlM_cons]

theorem insert_view (v c : ℚ) (kvs : Labels) :
    ∀ (σ : Mem H) (m : Obj), Valid σ m →
      Sim σ m (Obj.insert σ m kvs v c) ((view σ m).insert kvs v c) := by
  induction kvs with
  | nil =>
    intro σ m hv
    exact ⟨rfl, hv, Ext.refl _ _ _, rfl, Or.inl rfl⟩
  | cons kv rest ih =>
    intro σ m hv
    have hs := insertStep_view v c σ m kv hv
    rw [Obj.insert_step, hmsketch.insert_cons]
    cases h1 : Obj.insertStep v c (σ, m) kv with
    | none =>
      rw [h1] at hs
      have hp : HMSketch.insertStep v c (view σ m) kv = none := hs
      simp [hp, Sim]
    | some st =>
      rw [h1] at hs
      obtain ⟨hp, hv1, hext, hi, ha⟩ := hs
      rw [hp]
      exact Sim.of_step hext hi ha (ih st.1 st.2 hv1)

theorem view_of_ext {σ σ' : Mem H} {ix ar : Nat} (m : Obj) (hext : Ext σ σ' ix ar)
    (hv : Valid σ m) (hix : m.Index ≠ ix) (har : m.Registers.arr ≠ ar) :
    view σ' m = view σ m ∧ Valid σ' m := by
  obtain ⟨-, hm, ha, hmaps, harrs⟩ := hext
  obtain ⟨hlen, hi, hr⟩ := hv
  have e1 := hmaps m.Index hi hix
  have e2 := harrs m.Registers.arr hr har
  refine ⟨by simp [view, e1, e2], ?_, lt_of_lt_of_le hi hm, lt_of_lt_of_le hr ha⟩
  rw [e2]; exact hlen

theorem Insert_view (σ : Mem H) (m : Obj) (kvs : Labels) (v c : ℚ) (hv : Valid σ m) :
    Sim σ m (Obj.Insert σ m kvs v c) ((view σ m).Insert kvs v c) := by
  have h1 := insert_view v c globalLabels σ m hv
  unfold Obj.Insert HMSketch.Insert
  cases hg : Obj.insert σ m globalLabels v c with
  | none =>
    rw [hg] at h1
    have hp : (view σ m).insert globalLabels v c = none := h1
    simp [hp, Sim]
  | some st =>
    rw [hg] at h1
    obtain ⟨hp, hv1, hext, hi, ha⟩ := h1
    rw [hp]
    exact Sim.of_step hext hi ha (insert_view v c kvs st.1 st.2 hv1)

theorem New_view (σ : Mem H) (r : Int) : SimNew σ (Obj.New σ r) (New r) := by
  let x : Obj :=
    { Resolution := r, Max := 0, Index := σ.nextMap, Registers := { arr := σ.nextArr, len := 0 } }
  let σ1 : Mem H :=
    { σ with
      maps := Function.update σ.maps σ.nextMap []
      nextMap := σ.nextMap + 1
      arrs := Function.update σ.arrs σ.nextArr []
      caps := Function.update σ.caps σ.nextArr 0
      nextArr := σ.nextArr + 1 }
  have hv : Valid σ1 x := ⟨Nat.zero_le _, Nat.lt_succ_self _, Nat.lt_succ_self _⟩
  have hview : view σ1 x = { Resolution := r, Max := 0, Index := [], Registers := [] } := by
    simp [view, σ1, x]
  have h := insert_view 0 0 globalLabels σ1 x hv
  rw [hview] at h
  have hext0 : Ext σ σ1 σ.nextMap σ.nextArr := by
    refine ⟨rfl, Nat.le_succ _, Nat.le_succ _, ?_, ?_⟩
    · intro a _ hne
      simp [σ1, Function.update_noteq hne]
    · intro a _ hne
      simp [σ1, Function.update_noteq hne]
  show SimNew σ (Obj.insert σ1 x globalLabels 0 0)
    (HMSketch.insert { Resolution := r, Max := 0, Index := [], Registers := [] }
      globalLabels 0 0)
  cases hr : Obj.insert σ1 x globalLabels 0 0 with
  | none =>
    rw [hr] at h
    exact h
  | some st =>
    rw [hr] at h
    obtain ⟨hp, hv1, hext, hi, ha⟩ := h
    refine ⟨hp, hv1, ?_, ?_, ?_⟩
    · exact Ext.trans hext0 hext (Or.inl rfl)
    · rw [hi]
    · rcases ha with e | e
      · rw [e]
      · exact le_trans (Nat.le_succ _) e

theorem global_view (σ : Mem H) (m : Obj) : Obj.global σ m = (view σ m).global := by
  unfold Obj.global HMSketch.global
  exact read_view σ m _

theorem TotalCount_view (σ : Mem H) (m : Obj) : Obj.TotalCount σ m = (view σ m).TotalCount := by
  unfold Obj.TotalCount HMSketch.TotalCount
  rw [global_view]

theorem sketchLoop_view (σ : Mem H) (m : Obj) (kvs : Labels) :
    ∀ output : H, Obj.sketchLoop σ m kvs output = (view σ m).sketchLoop kvs output := by
  induction kvs with
  | nil => intro output; rfl
  | cons kv rest ih =>
    intro output
    unfold Obj.sketchLoop HMSketch.sketchLoop
    have e : (view σ m).Index = σ.maps m.Index := rfl
    simp only [read_view, e, ih]
    rfl

theorem Sketch_view (σ : Mem H) (m : Obj) (kvs : Labels) :
    Obj.Sketch σ m kvs = (view σ m).Sketch kvs := by
  unfold Obj.Sketch HMSketch.Sketch
  rw [global_view]
  congr 1
  funext output
  exact sketchLoop_view σ m kvs output

theorem Count_view (σ : Mem H) (m : Obj) (kvs : Labels) :
    Obj.Count σ m kvs = (view σ m).Count kvs := by
  unfold Obj.Count HMSketch.Count
  rw [Sketch_view]

theorem Obj.combineStep_push (m o : Obj) (st : Mem H × Obj) (x : Int) :
    Obj.combineStep m o st x =
      (combinePick (GoMap.get (st.1.maps m.Index) x) (GoMap.get (st.1.maps o.Index) x)
        (st.1.read m.Registers) (st.1.read o.Registers)).map (Obj.push st x) := by
  have hr : ∀ (s : Slice) (i : Int),
      (st.1.setMap st.2.Index x st.2.Max).read s i = st.1.read s i := fun _ _ => rfl
  unfold Obj.combineStep combinePick Obj.push
  simp only [hr]
  cases GoMap.get (st.1.maps m.Index) x <;> cases GoMap.get (st.1.maps o.Index) x <;>
    simp only [Option.isSome_none, Option.isSome_some, Bool.not_false, Bool.not_true, if_true,
      Bool.false_eq_true, if_false, Option.getD_none, Option.getD_some]
  · cases st.1.read o.Registers 0 <;> rfl
  · rename_i j
    cases st.1.read o.Registers j <;> rfl
  · rename_i i
    cases st.1.read m.Registers i <;> rfl
  · rename_i i j
    cases st.1.read m.Registers i <;> cases st.1.read o.Registers j <;> rfl

theorem HMSketch.combineStep_pick (m o out : HMSketch H) (x : Int) :
    HMSketch.combineStep m o out x =
      (combinePick (GoMap.get m.Index x) (GoMap.get o.Index x)
        (regAt m.Registers) (regAt o.Registers)).map (out.push x) := by
  unfold HMSketch.combineStep combinePick HMSketch.push
  cases GoMap.get m.Index x <;> cases GoMap.get o.Index x <;>
    simp only [Option.isSome_none, Option.isSome_some, Bool.not_false, Bool.not_true, if_true,
      Bool.false_eq_true, if_false, Option.getD_none, Option.getD_some]
  · cases regAt o.Registers 0 <;> rfl
  · rename_i j
    cases regAt o.Registers j <;> rfl
  · rename_i i
    cases regAt m.Registers i <;> rfl
  · rename_i i j
    cases regAt m.Registers i <;> cases regAt o.Registers j <;> rfl

theorem Obj.cancelStep_push (m o : Obj) (st : Mem H × Obj) (x : Int) :
    Obj.cancelStep m o st x =
      (cancelPick (Histogram.New m.Resolution) (GoMap.get (st.1.maps m.Index) x)
        (GoMap.get (st.1.maps o.Index) x)
        (st.1.read m.Registers) (st.1.read o.Registers)).map (Obj.push st x) := by
  have hr : ∀ (s : Slice) (i : Int),
      (st.1.setMap st.2.Index x st.2.Max).read s i = st.1.read s i := fun _ _ => rfl
  unfold Obj.cancelStep cancelPick Obj.push
  simp only [hr]
  cases GoMap.get (st.1.maps m.Index) x <;> cases GoMap.get (st.1.maps o.Index) x <;>
    simp only [Option.isSome_none, Option.isSome_some, Bool.not_false, Bool.not_true, if_true,
      Bool.false_eq_true, if_false, Option.getD_none, Option.getD_some]
  · cases st.1.read o.Registers 0 <;> rfl
  · rename_i j
    cases st.1.read o.Registers j <;> rfl
  · rename_i i
    cases st.1.read m.Registers i <;> rfl
  · rename_i i j
    cases st.1.read m.Registers i <;> cases st.1.read o.Registers j <;> rfl

theorem HMSketch.cancelStep_pick (m o out : HMSketch H) (x : Int) :
    HMSketch.cancelStep m o out x =
      (cancelPick (Histogram.New m.Resolution) (GoMap.get m.Index x) (GoMap.get o.Index x)
        (regAt m.Registers) (regAt o.Registers)).map (out.push x) := by
  unfold HMSketch.cancelStep cancelPick HMSketch.push
  cases GoMap.get m.Index x <;> cases GoMap.get o.Index x <;>
    simp only [Option.isSome_none, Option.isSome_some, Bool.not_false, Bool.not_true, if_true,
      Bool.false_eq_true, if_false, Option.getD_none, Option.getD_some]
  · cases regAt o.Registers 0 <;> rfl
  · rename_i j
    cases regAt o.Registers j <;> rfl
  · rename_i i
    cases regAt m.Registers i <;> rfl
  · rename_i i j
    cases regAt m.Registers i <;> cases regAt o.Registers j <;> rfl

theorem push_view (σ : Mem H) (out : Obj) (x : Int) (h : H) (hv : Valid σ out) :
    Sim σ out (some (Obj.push (σ, out) x h)) (some ((view σ out).push x h)) := by
  let σ1 : Mem H := σ.setMap out.Index x out.Max
  let op : Obj := { out with Max := out.Max + 1 }
  have hv1 : Valid σ1 op := hv
  obtain ⟨ev, hv2, hext2, har2⟩ := append_view σ1 op h hv1
  have hext1 : Ext σ σ1 out.Index out.Registers.arr := by
    refine ⟨rfl, le_refl _, le_refl _, ?_, fun _ _ _ => rfl⟩
    intro a _ hne
    simp [σ1, Mem.setMap, Function.update_noteq hne]
  refine ⟨?_, hv2, Ext.trans hext1 hext2 (Or.inl rfl), rfl, har2⟩
  show some ((view σ out).push x h) = some (view _ _)
  rw [show Obj.push (σ, out) x h =
    ((σ1.append op.Registers h).1, { op with Registers := (σ1.append op.Registers h).2 })
    from rfl, ev]
  simp [view, HMSketch.push, σ1, op, Mem.setMap]

theorem Ext.trans_fresh {σ σ1 σ2 : Mem H} {ix ar : Nat}
    (h1 : Ext σ σ1 σ.nextMap σ.nextArr) (h2 : Ext σ1 σ2 ix ar)
    (hix : σ.nextMap ≤ ix) (har : σ.nextArr ≤ ar) : Ext σ σ2 σ.nextMap σ.nextArr := by
  obtain ⟨g1, m1, a1, hm1, ha1⟩ := h1
  obtain ⟨g2, m2, a2, hm2, ha2⟩ := h2
  refine ⟨g2.trans g1, le_trans m1 m2, le_trans a1 a2, ?_, ?_⟩
  · intro a ha hne
    rw [hm2 a (lt_of_lt_of_le ha m1) (by omega), hm1 a ha hne]
  · intro a ha hne
    rw [ha2 a (lt_of_lt_of_le ha a1) (by omega), ha1 a ha hne]

theorem mergeFold_view
    (P : Option Int → Option Int → (Int → Option H) → (Int → Option H) → Option H)
    (m o : Obj) (hs : Mem H × Obj → Int → Option (Mem H × Obj))
    (ps : HMSketch H → HMSketch H → HMSketch H → Int → Option (HMSketch H))
    (hhs : ∀ st x, hs st x =
      (P (GoMap.get (st.1.maps m.Index) x) (GoMap.get (st.1.maps o.Index) x)
        (st.1.read m.Registers) (st.1.read o.Registers)).map (Obj.push st x))
    (hps : ∀ (vm vo out : HMSketch H) (x : Int), ps vm vo out x =
      (P (GoMap.get vm.Index x) (GoMap.get vo.Index x)
        (regAt vm.Registers) (regAt vo.Registers)).map (out.push x))
    (ord : List Int) :
    ∀ (σ : Mem H) (out : Obj), Valid σ out → Valid σ m → Valid σ o →
      out.Index ≠ m.Index → out.Index ≠ o.Index →
      out.Registers.arr ≠ m.Registers.arr → out.Registers.arr ≠ o.Registers.arr →
      Sim σ out (ord.foldlM hs (σ, out))
        (ord.foldlM (ps (view σ m) (view σ o)) (view σ out)) := by
  induction ord with
  | nil =>
    intro σ out hv _ _ _ _ _ _
    exact ⟨rfl, hv, Ext.refl _ _ _, rfl, Or.inl rfl⟩
  | cons x rest ih =>
    intro σ out hv hvm hvo him hio ham hao
    have hrm : σ.read m.Registers = regAt (view σ m).Registers := funext (read_view σ m)
    have hro : σ.read o.Registers = regAt (view σ o).Registers := funext (read_view σ o)
    rw [List.foldlM_cons, List.foldlM_cons, hhs, hps]
    simp only [hrm, hro]
    have em : (view σ m).Index = σ.maps m.Index := rfl
    have eo : (view σ o).Index = σ.maps o.Index := rfl
    rw [em, eo]
    cases P (GoMap.get (σ.maps m.Index) x) (GoMap.get (σ.maps o.Index) x)
        (regAt (view σ m).Registers) (regAt (view σ o).Registers) with
    | none => rfl
    | some h =>
      obtain ⟨hp, hv1, hext, hi, ha⟩ := push_view σ out x h hv
      have hp' : (view σ out).push x h = view (Obj.push (σ, out) x h).1 (Obj.push (σ, out) x h).2 :=
        Option.some.inj hp
      obtain ⟨evm, hvm1⟩ := view_of_ext m hext hvm (Ne.symm him) (Ne.symm ham)
      obtain ⟨evo, hvo1⟩ := view_of_ext o hext hvo (Ne.symm hio) (Ne.symm hao)
      have ham1 : (Obj.push (σ, out) x h).2.Registers.arr ≠ m.Registers.arr := by
        rcases ha with e | e
        · rw [e]; exact ham
        · have := hvm.2.2; omega
      have hao1 : (Obj.push (σ, out) x h).2.Registers.arr ≠ o.Registers.arr := by
        rcases ha with e | e
        · rw [e]; exact hao
        · have := hvo.2.2; omega
      have hrec := ih (Obj.push (σ, out) x h).1 (Obj.push (σ, out) x h).2 hv1 hvm1 hvo1
        (by rw [hi]; exact him) (by rw [hi]; exact hio) ham1 hao1
      rw [evm, evo, ← hp'] at hrec
      exact Sim.of_step hext hi ha hrec

theorem merge_view
    (P : Option Int → Option Int → (Int → Option H) → (Int → Option H) → Option H)
    (m o : Obj) (hs : Mem H × Obj → Int → Option (Mem H × Obj))
    (ps : HMSketch H → HMSketch H → HMSketch H → Int → Option (HMSketch H))
    (hhs : ∀ st x, hs st x =
      (P (GoMap.get (st.1.maps m.Index) x) (GoMap.get (st.1.maps o.Index) x)
        (st.1.read m.Registers) (st.1.read o.Registers)).map (Obj.push st x))
    (hps : ∀ (vm vo out : HMSketch H) (x : Int), ps vm vo out x =
      (P (GoMap.get vm.Index x) (GoMap.get vo.Index x)
        (regAt vm.Registers) (regAt vo.Registers)).map (out.push x))
    (σ : Mem H) (ord : List Int) (hvm : Valid σ m) (hvo : Valid σ o) :
    SimNew σ ((Obj.New σ m.Resolution).bind fun st => ord.foldlM hs st)
      ((New m.Resolution).bind fun out =>
        ord.foldlM (ps (view σ m) (view σ o)) out) := by
  have hn := New_view σ m.Resolution
  cases h0 : Obj.New σ m.Resolution with
  | none =>
    rw [h0] at hn
    have hp : (New m.Resolution : Option (HMSketch H)) = none := hn
    simp [hp, SimNew]
  | some st0 =>
    rw [h0] at hn
    obtain ⟨hp, hv0, hext0, hi0, ha0⟩ := hn
    rw [hp]
    obtain ⟨evm, hvm0⟩ := view_of_ext m hext0 hvm (by have := hvm.2.1; omega)
      (by have := hvm.2.2; omega)
    obtain ⟨evo, hvo0⟩ := view_of_ext o hext0 hvo (by have := hvo.2.1; omega)
      (by have := hvo.2.2; omega)
    have hrec := mergeFold_view P m o hs ps hhs hps ord st0.1 st0.2 hv0 hvm0 hvo0
      (by have := hvm.2.1; omega) (by have := hvo.2.1; omega)
      (by have := hvm.2.2; omega) (by have := hvo.2.2; omega)
    rw [evm, evo] at hrec
    show SimNew σ (ord.foldlM hs st0) _
    simp only [Option.some_bind]
    cases hr : ord.foldlM hs st0 with
    | none =>
      rw [show (st0.1, st0.2) = st0 from rfl, hr] at hrec
      exact hrec
    | some st =>
      rw [show (st0.1, st0.2) = st0 from rfl, hr] at hrec
      obtain ⟨hq, hv1, hext1, hi1, ha1⟩ := hrec
      refine ⟨hq, hv1, Ext.trans_fresh hext0 hext1 hi0 ha0, ?_, ?_⟩
      · rw [hi1]; exact hi0
      · rcases ha1 with e | e
        · rw [e]; exact ha0
        · exact le_trans hext0.2.2.1 e

theorem Combine_view (σ : Mem H) (m o : Obj) (ord : List Int) (hvm : Valid σ m)
    (hvo : Valid σ o) :
    SimNew σ (Obj.Combine σ m o ord) ((view σ m).Combine (view σ o) ord) :=
  merge_view combinePick m o (Obj.combineStep m o) HMSketch.combineStep
    (Obj.combineStep_push m o) HMSketch.combineStep_pick σ ord hvm hvo

theorem Cancel_view (σ : Mem H) (m o : Obj) (ord : List Int) (hvm : Valid σ m)
    (hvo : Valid σ o) :
    SimNew σ (Obj.Cancel σ m o ord) ((view σ m).Cancel (view σ o) ord) := by
  have h := merge_view (cancelPick (Histogram.New m.Resolution)) m o (Obj.cancelStep m o)
    (fun vm vo out x => (cancelPick (Histogram.New m.Resolution) (GoMap.get vm.Index x)
      (GoMap.get vo.Index x) (regAt vm.Registers) (regAt vo.Registers)).map (out.push x))
    (Obj.cancelStep_push m o) (fun _ _ _ _ => rfl) σ ord hvm hvo
  have e : HMSketch.cancelStep (view σ m) (view σ o) =
      fun out x => (cancelPick (Histogram.New m.Resolution) (GoMap.get (view σ m).Index x)
        (GoMap.get (view σ o).Index x) (regAt (view σ m).Registers)
        (regAt (view σ o).Registers)).map (out.push x) := by
    funext out x
    exact HMSketch.cancelStep_pick (view σ m) (view σ o) out x
  unfold Obj.Cancel HMSketch.Cancel
  rw [e]
  exact h

/-! ## Shared storage: programs that use every value once -/

theorem Apart.symm {a b : Obj} (h : Apart a b) : Apart b a := ⟨Ne.symm h.1, Ne.symm h.2⟩

theorem Owned.apart {σ : Mem H} {hs : List Obj} (h : Owned σ hs) {a b : Obj} (ha : a ∈ hs)
    (hb : b ∈ hs) (hne : a ≠ b) : Apart a b :=
  List.Pairwise.forall (fun _ _ => Apart.symm) h.2 ha hb hne

theorem Owned.nodup {σ : Mem H} {hs : List Obj} (h : Owned σ hs) : hs.Nodup :=
  List.Pairwise.imp (fun {a b} (hab : Apart a b) (e : a = b) => hab.1 (e ▸ rfl)) h.2

theorem owned_cons_fresh {σ : Mem H} {hs : List Obj} {st : Mem H × Obj} (ho : Owned σ hs)
    (hv : Valid st.1 st.2) (hext : Ext σ st.1 σ.nextMap σ.nextArr)
    (hi : σ.nextMap ≤ st.2.Index) (ha : σ.nextArr ≤ st.2.Registers.arr) :
    Owned st.1 (st.2 :: hs) ∧ ∀ h ∈ hs, view st.1 h = view σ h := by
  have hkeep : ∀ h ∈ hs, view st.1 h = view σ h ∧ Valid st.1 h := fun h hh =>
    view_of_ext h hext (ho.1 h hh) (by have := (ho.1 h hh).2.1; omega)
      (by have := (ho.1 h hh).2.2; omega)
  refine ⟨⟨?_, ?_⟩, fun h hh => (hkeep h hh).1⟩
  · intro h hh
    rcases List.mem_cons.1 hh with rfl | hh
    · exact hv
    · exact (hkeep h hh).2
  · refine List.pairwise_cons.2 ⟨?_, ho.2⟩
    intro h hh
    have := ho.1 h hh
    exact ⟨by have := this.2.1; omega, by have := this.2.2; omega⟩

theorem Run.owned_reachable {σ : Mem H} {hs : List Obj} (h : Run true σ hs) :
    Owned σ hs ∧ ∀ m ∈ hs, Reachable (view σ m) := by
  induction h with
  | init grow =>
    refine ⟨?_, fun _ h => absurd h (List.not_mem_nil _)⟩
    show _ ∧ _
    exact ⟨fun _ h => absurd h (List.not_mem_nil _), List.Pairwise.nil⟩
  | new σ hs r st _ hnew ih =>
    have hs' := New_view σ r
    rw [hnew] at hs'
    obtain ⟨hp, hv, hext, hi, ha⟩ := hs'
    obtain ⟨ho, hk⟩ := owned_cons_fresh ih.1 hv hext hi ha
    refine ⟨ho, ?_⟩
    intro m hm
    rcases List.mem_cons.1 hm with rfl | hm
    · exact Reachable.new r _ hp
    · rw [hk m hm]; exact ih.2 m hm
  | insert σ hs m kvs v c st _ hm hL hins ih =>
    have hs' := Insert_view σ m kvs v c (ih.1.1 m hm)
    rw [hins] at hs'
    obtain ⟨hp, hv, hext, hi, ha⟩ := hs'
    simp only [if_true]
    have hmem : ∀ h ∈ hs.erase m, h ∈ hs ∧ h ≠ m := fun h hh =>
      ⟨List.mem_of_mem_erase hh, fun e => by
        rw [e] at hh
        exact (List.Nodup.not_mem_erase ih.1.nodup) hh⟩
    have hkeep : ∀ h ∈ hs.erase m, view st.1 h = view σ h ∧ Valid st.1 h ∧ Apart st.2 h := by
      intro h hh
      obtain ⟨hin, hne⟩ := hmem h hh
      have hap := ih.1.apart hin hm hne
      obtain ⟨e, hv'⟩ := view_of_ext h hext (ih.1.1 h hin) hap.1 hap.2
      refine ⟨e, hv', ?_⟩
      show _ ∧ _
      refine ⟨?_, ?_⟩
      · rw [hi]; exact Ne.symm hap.1
      · rcases ha with e' | e'
        · rw [e']; exact Ne.symm hap.2
        · have := (ih.1.1 h hin).2.2; omega
    refine ⟨(?_ : _ ∧ _), ?_⟩
    refine ⟨?_, ?_⟩
    · intro h hh
      rcases List.mem_cons.1 hh with rfl | hh
      · exact hv
      · exact (hkeep h hh).2.1
    · exact List.pairwise_cons.2
        ⟨fun h hh => (hkeep h hh).2.2, List.Pairwise.sublist (List.erase_sublist _ _) ih.1.2⟩
    · intro h hh
      rcases List.mem_cons.1 hh with rfl | hh
      · exact Reachable.insert _ _ kvs v c (ih.2 m hm) hL hp
      · rw [(hkeep h hh).1]; exact ih.2 h (hmem h hh).1
  | combine σ hs a b ord st _ ha hb hord hc ih =>
    have hs' := Combine_view σ a b ord (ih.1.1 a ha) (ih.1.1 b hb)
    rw [hc] at hs'
    obtain ⟨hp, hv, hext, hi, har⟩ := hs'
    obtain ⟨ho, hk⟩ := owned_cons_fresh ih.1 hv hext hi har
    refine ⟨ho, ?_⟩
    intro m hm
    rcases List.mem_cons.1 hm with rfl | hm
    · exact Reachable.combine _ _ _ ord (ih.2 a ha) (ih.2 b hb) hord hp
    · rw [hk m hm]; exact ih.2 m hm
  | cancel σ hs a b ord st _ ha hb hord hc ih =>
    have hs' := Cancel_view σ a b ord (ih.1.1 a ha) (ih.1.1 b hb)
    rw [hc] at hs'
    obtain ⟨hp, hv, hext, hi, har⟩ := hs'
    obtain ⟨ho, hk⟩ := owned_cons_fresh ih.1 hv hext hi har
    refine ⟨ho, ?_⟩
    intro m hm
    rcases List.mem_cons.1 hm with rfl | hm
    · exact Reachable.cancel _ _ _ ord (ih.2 a ha) (ih.2 b hb) hord hp
    · rw [hk m hm]; exact ih.2 m hm

/-! ## Shared storage: the sample programs -/

theorem SimNew.of_some {σ : Mem H} {r : Option (Mem H × Obj)} {out : HMSketch H}
    (h : SimNew σ r (some out)) :
    ∃ st, r = some st ∧ view st.1 st.2 = out ∧ Valid st.1 st.2 ∧
      Ext σ st.1 σ.nextMap σ.nextArr ∧ σ.nextMap ≤ st.2.Index ∧
      σ.nextArr ≤ st.2.Registers.arr := by
  cases r with
  | none => exact absurd h (by simp [SimNew])
  | some st =>
    obtain ⟨hp, hv, hext, hi, ha⟩ := h
    exact ⟨st, rfl, (Option.some.inj hp).symm, hv, hext, hi, ha⟩

theorem kept_run : Run false kept2.1 [kept2.2, kept1.2] :=
  Run.insert _ _ kept1.2 [("x", "y")] 1 1 kept2
    (Run.new _ _ 2 kept1 (Run.init goGrow) (Option.some_get _).symm)
    (List.mem_singleton.2 rfl) (by decide) (Option.some_get _).symm

theorem twice_run : Run false twice3.1 [twice3.2, twice2.2, twice1.2, twice0.2] :=
  Run.insert _ _ twice1.2 [("u", "w")] 1 100 twice3
    (Run.insert _ _ twice1.2 [("x", "y")] 1 10 twice2
      (Run.insert _ _ twice0.2 [("p", "q")] 1 1 twice1
        (Run.new _ _ 2 twice0 (Run.init goGrow) (Option.some_get _).symm)
        (List.mem_singleton.2 rfl) (by decide) (Option.some_get _).symm)
      (List.mem_cons_self _ _) (by decide) (Option.some_get _).symm)
    (List.mem_cons_of_mem _ (List.mem_cons_self _ _)) (by decide) (Option.some_get _).symm

theorem lin_run : Run true lin4.1 [lin4.2, lin2.2] := by
  have h1 : Run true lin1.1 [lin1.2] :=
    Run.new _ _ 2 lin1 (Run.init goGrow) (Option.some_get _).symm
  have h2 := Run.insert _ _ lin1.2 [("group", "a"), ("job", "c")] 10.4 1 lin2 h1
    (List.mem_singleton.2 rfl) (by decide) (Option.some_get _).symm
  rw [if_pos rfl, List.erase_cons_head] at h2
  have h3 : Run true lin3.1 [lin3.2, lin2.2] :=
    Run.new _ _ 3 lin3 h2 (Option.some_get _).symm
  have h4 := Run.insert _ _ lin3.2 [("group", "b"), ("job", "c")] 12.4 2 lin4 h3
    (List.mem_cons_self _ _) (by decide) (Option.some_get _).symm
  rw [if_pos rfl, List.erase_cons_head] at h4
  exact h4

theorem Run.valid {σ : Mem H} {hs : List Obj} (h : Run true σ hs) {m : Obj} (hm : m ∈ hs) :
    Valid σ m :=
  h.owned_reachable.1.1 m hm

theorem Run.reachable {σ : Mem H} {hs : List Obj} (h : Run true σ hs) {m : Obj} (hm : m ∈ hs) :
    Reachable (view σ m) :=
  h.owned_reachable.2 m hm

theorem kept_Combine_panics (ord : List Int)
    (h : IterOrder ord (allkvps (view kept2.1 kept1.2) (view kept2.1 kept2.2))) :
    Obj.Combine kept2.1 kept1.2 kept2.2 ord = none :=
  Option.isNone_iff_eq_none.1
    ((by decide! : ∀ o ∈ (GoMap.keys
        (allkvps (view kept2.1 kept1.2) (view kept2.1 kept2.2))).permutations,
      (Obj.Combine kept2.1 kept1.2 kept2.2 o).isNone = true) ord (List.mem_permutations.2 h))

/-! ## Claims: totals of Combine and Cancel -/

/-- C3, as stated, fails: after `a := New(2); b := a.Insert({"x": "y"}, 1, 1)` both `a` and `b`
are obtained from `New` by `Insert` and both have a `TotalCount()`, but `a.Combine(b)` panics,
in whichever order it visits the two identifiers: the `Insert` wrote the identifier of `x=y`
into the index `a` shares with `b`, at slot 1, and `a.Registers` still has length 1. -/
theorem Combine_kept_receiver_panics :
    Run false kept2.1 [kept2.2, kept1.2] ∧
      Obj.TotalCount kept2.1 kept1.2 = some 1 ∧ Obj.TotalCount kept2.1 kept2.2 = some 1 ∧
      ∀ ord, IterOrder ord (allkvps (view kept2.1 kept1.2) (view kept2.1 kept2.2)) →
        Obj.Combine kept2.1 kept1.2 kept2.2 ord = none :=
  ⟨kept_run, by decide!, by decide!, kept_Combine_panics⟩

/-- C3, amended: in a program that builds its registries from `New` by `Insert`, `Combine` and
`Cancel` and never uses a registry again after it has been the receiver of an `Insert`, for
all registries `a` and `b` the program holds and every order of visit of the identifiers,
`a.Combine(b)` returns a registry whose `TotalCount()` is `a.TotalCount() + b.TotalCount()`,
and `a.Combine(a)` one whose `TotalCount()` is `2 * a.TotalCount()`, given that the
histogram's `Total` is additive under `Combine`. -/
theorem Combine_TotalCount_linear (σ : Mem H) (hs : List Obj) (a b : Obj)
    (ord ord' : List Int)
    (hComb : ∀ x y : H,
      Histogram.Total (Histogram.Combine x y) = Histogram.Total x + Histogram.Total y)
    (hrun : Run true σ hs) (ha : a ∈ hs) (hb : b ∈ hs)
    (hord : IterOrder ord (allkvps (view σ a) (view σ b)))
    (hord' : IterOrder ord' (allkvps (view σ a) (view σ a))) :
    ∃ (st st' : Mem H × Obj) (ta tb : ℚ),
      Obj.TotalCount σ a = some ta ∧ Obj.TotalCount σ b = some tb ∧
      Obj.Combine σ a b ord = some st ∧ Obj.TotalCount st.1 st.2 = some (ta + tb) ∧
      Obj.Combine σ a a ord' = some st' ∧ Obj.TotalCount st'.1 st'.2 = some (2 * ta) := by
  obtain ⟨out, out', ta, tb, h1, h2, h3, h4, h5, h6⟩ :=
    Reachable.Combine_TotalCount (view σ a) (view σ b) ord ord' hComb (hrun.reachable ha)
      (hrun.reachable hb) hord hord'
  have s := Combine_view σ a b ord (hrun.valid ha) (hrun.valid hb)
  have s' := Combine_view σ a a ord' (hrun.valid ha) (hrun.valid ha)
  rw [h3] at s
  rw [h5] at s'
  obtain ⟨st, e, ev, -⟩ := s.of_some
  obtain ⟨st', e', ev', -⟩ := s'.of_some
  refine ⟨st, st', ta, tb, ?_, ?_, e, ?_, e', ?_⟩
  · rw [TotalCount_view]; exact h1
  · rw [TotalCount_view]; exact h2
  · rw [TotalCount_view, ev]; exact h4
  · rw [TotalCount_view, ev']; exact h6

/-- Witness of C3: the program `a := New(2).Insert({"group": "a", "job": "c"}, 10.4, 1);
b := New(3).Insert({"group": "b", "job": "c"}, 12.4, 2)`, the identifiers visited in the
reverse of the stored order. -/
theorem Combine_TotalCount_linear_witness :
    ∃ (st st' : Mem OneBucket × Obj) (ta tb : ℚ),
      Obj.TotalCount lin4.1 lin2.2 = some ta ∧ Obj.TotalCount lin4.1 lin4.2 = some tb ∧
      Obj.Combine lin4.1 lin2.2 lin4.2
        (GoMap.keys (allkvps (view lin4.1 lin2.2) (view lin4.1 lin4.2))).reverse = some st ∧
      Obj.TotalCount st.1 st.2 = some (ta + tb) ∧
      Obj.Combine lin4.1 lin2.2 lin2.2
        (GoMap.keys (allkvps (view lin4.1 lin2.2) (view lin4.1 lin2.2))).reverse = some st' ∧
      Obj.TotalCount st'.1 st'.2 = some (2 * ta) :=
  Combine_TotalCount_linear lin4.1 [lin4.2, lin2.2] lin2.2 lin4.2 _ _ (fun _ _ => rfl) lin_run
    (List.mem_cons_of_mem _ (List.mem_singleton.2 rfl)) (List.mem_cons_self _ _)
    (List.reverse_perm _) (List.reverse_perm _)

/-- C4, as stated, fails: after `a := New(2); b := a.Insert({"x": "y"}, 1, 1)` the registry
`a` is obtained from `New` and has a `TotalCount()`, but `a.Cancel(a)` panics, in whichever
order it visits the two identifiers of the index `a` shares with `b`. -/
theorem Cancel_kept_receiver_panics :
    Run false kept2.1 [kept2.2, kept1.2] ∧ Obj.TotalCount kept2.1 kept1.2 = some 1 ∧
      ∀ ord, IterOrder ord (allkvps (view kept2.1 kept1.2) (view kept2.1 kept1.2)) →
        Obj.Cancel kept2.1 kept1.2 kept1.2 ord = none :=
  ⟨kept_run, by decide!, fun ord h => Option.isNone_iff_eq_none.1
    ((by decide! : ∀ o ∈ (GoMap.keys
        (allkvps (view kept2.1 kept1.2) (view kept2.1 kept1.2))).permutations,
      (Obj.Cancel kept2.1 kept1.2 kept1.2 o).isNone = true) ord (List.mem_permutations.2 h))⟩

/-- C4, amended: in a program that builds its registries from `New` by `Insert`, `Combine` and
`Cancel` and never uses a registry again after it has been the receiver of an `Insert`, for
every registry `R` the program holds and every order of visit of the identifiers,
`R.Cancel(R)` returns a registry whose global histogram is the global histogram of `R`
cancelled against itself, and whose `TotalCount()` is 0, given that the histogram's `Total` of
a histogram cancelled against itself is 0. -/
theorem Cancel_self_linear (σ : Mem H) (hs : List Obj) (R : Obj) (ord : List Int)
    (hCan : ∀ x : H, Histogram.Total (Histogram.Cancel x x) = 0)
    (hrun : Run true σ hs) (hR : R ∈ hs)
    (hord : IterOrder ord (allkvps (view σ R) (view σ R))) :
    ∃ (st : Mem H × Obj) (g : H), Obj.global σ R = some g ∧
      Obj.Cancel σ R R ord = some st ∧
      Obj.global st.1 st.2 = some (Histogram.Cancel g g) ∧
      Obj.TotalCount st.1 st.2 = some 0 := by
  obtain ⟨out, g, h1, h2, h3⟩ :=
    Reachable.Cancel_self_global (view σ R) ord (hrun.reachable hR) hord
  have s := Cancel_view σ R R ord (hrun.valid hR) (hrun.valid hR)
  rw [h2] at s
  obtain ⟨st, e, ev, -⟩ := s.of_some
  refine ⟨st, g, ?_, e, ?_, ?_⟩
  · rw [global_view]; exact h1
  · rw [global_view, ev]; exact h3
  · rw [TotalCount_view, ev]
    unfold HMSketch.TotalCount
    rw [h3]
    exact congrArg some (hCan g)

/-- Witness of C4: the registry `a` of the program
`a := New(2).Insert({"group": "a", "job": "c"}, 10.4, 1); b := New(3).Insert(...)`, cancelled
against itself. -/
theorem Cancel_self_linear_witness :
    ∃ (st : Mem OneBucket × Obj) (g : OneBucket), Obj.global lin4.1 lin2.2 = some g ∧
      Obj.Cancel lin4.1 lin2.2 lin2.2
        (GoMap.keys (allkvps (view lin4.1 lin2.2) (view lin4.1 lin2.2))).reverse = some st ∧
      Obj.global st.1 st.2 = some (Histogram.Cancel g g) ∧
      Obj.TotalCount st.1 st.2 = some 0 :=
  Cancel_self_linear lin4.1 [lin4.2, lin2.2] lin2.2 _ (fun x => sub_self x.mass) lin_run
    (List.mem_cons_of_mem _ (List.mem_singleton.2 rfl)) (List.reverse_perm _)

/-- C13, as stated, fails: after `a := New(2); b := a.Insert({"x": "y"}, 1, 1)` both `a` and
`b` are obtained from `New` by `Insert` and `a` has a `TotalCount()`, but `a.Combine(b)`
panics in whichever order it visits the two identifiers, so `a.Combine(b).Cancel(b)` has no
`TotalCount()`. -/
theorem Combine_Cancel_kept_receiver_panics :
    Run false kept2.1 [kept2.2, kept1.2] ∧ Obj.TotalCount kept2.1 kept1.2 = some 1 ∧
      ∀ ord ord', IterOrder ord (allkvps (view kept2.1 kept1.2) (view kept2.1 kept2.2)) →
        ((Obj.Combine kept2.1 kept1.2 kept2.2 ord).bind fun st =>
          (Obj.Cancel st.1 st.2 kept2.2 ord').bind fun st' =>
            Obj.TotalCount st'.1 st'.2) = none :=
  ⟨kept_run, by decide!, fun ord _ h => by rw [kept_Combine_panics ord h]; rfl⟩

/-- C13, amended: in a program that builds its registries from `New` by `Insert`, `Combine`
and `Cancel` and never uses a registry again after it has been the receiver of an `Insert`,
for all registries `a` and `b` the program holds, with global histograms `ga` and `gb`, and
every order of visit in the two calls, `a.Combine(b)` and then `.Cancel(b)` return, and the
global histogram of the result is `ga` combined with `gb` and then cancelled against `gb`; its
`TotalCount()` is the `Total` of that histogram, which is `a.TotalCount()` whenever the `Total`
of that histogram is the `Total` of `ga`. -/
theorem Combine_Cancel_linear (σ : Mem H) (hs : List Obj) (a b : Obj) (ord ord' : List Int)
    (hrun : Run true σ hs) (ha : a ∈ hs) (hb : b ∈ hs)
    (hord : IterOrder ord (allkvps (view σ a) (view σ b)))
    (hord' : ∀ st, Obj.Combine σ a b ord = some st →
      IterOrder ord' (allkvps (view st.1 st.2) (view st.1 b))) :
    ∃ (st st' : Mem H × Obj) (ga gb : H),
      Obj.global σ a = some ga ∧ Obj.global σ b = some gb ∧
      Obj.Combine σ a b ord = some st ∧ Obj.Cancel st.1 st.2 b ord' = some st' ∧
      Obj.global st'.1 st'.2 = some (Histogram.Cancel (Histogram.Combine ga gb) gb) ∧
      Obj.TotalCount st'.1 st'.2 =
        some (Histogram.Total (Histogram.Cancel (Histogram.Combine ga gb) gb)) ∧
      (Histogram.Total (Histogram.Cancel (Histogram.Combine ga gb) gb) = Histogram.Total ga →
        Obj.TotalCount st'.1 st'.2 = Obj.TotalCount σ a) := by
  have hva := hrun.valid ha
  have hvb := hrun.valid hb
  obtain ⟨ab0, hab0, -⟩ := Combine_spec (view σ a) (view σ b) ord (hrun.reachable ha).wf.1
    (hrun.reachable hb).wf.1 hord
  have s := Combine_view σ a b ord hva hvb
  rw [hab0] at s
  obtain ⟨st, e, ev, hv, hext, -⟩ := s.of_some
  obtain ⟨evb, hvb'⟩ := view_of_ext b hext hvb (Nat.ne_of_lt hvb.2.1) (Nat.ne_of_lt hvb.2.2)
  have hord0 : IterOrder ord' (allkvps ab0 (view σ b)) := by
    have h := hord' st e
    rw [ev, evb] at h
    exact h
  obtain ⟨ab, out, ga, gb, h1, h2, h3, h4, h5⟩ :=
    Reachable.Combine_Cancel_global (view σ a) (view σ b) ord ord' (hrun.reachable ha)
      (hrun.reachable hb) hord (fun ab hab => by
        rw [hab0] at hab
        rw [← Option.some.inj hab]
        exact hord0)
  have hab : ab = ab0 := by
    rw [hab0] at h3
    exact (Option.some.inj h3).symm
  have s2 := Cancel_view st.1 st.2 b ord' hv hvb'
  rw [evb, ev, ← hab, h4] at s2
  obtain ⟨st', e2, ev2, -⟩ := s2.of_some
  have ht : Obj.TotalCount st'.1 st'.2 =
      some (Histogram.Total (Histogram.Cancel (Histogram.Combine ga gb) gb)) := by
    rw [TotalCount_view, ev2]
    unfold HMSketch.TotalCount
    rw [h5]
    rfl
  refine ⟨st, st', ga, gb, ?_, ?_, e, e2, ?_, ht, ?_⟩
  · rw [global_view]; exact h1
  · rw [global_view]; exact h2
  · rw [global_view, ev2]; exact h5
  · intro hx
    rw [ht, TotalCount_view]
    unfold HMSketch.TotalCount
    rw [h1, hx]
    rfl

/-- Witness of C13: the registries `a` and `b` of the program
`a := New(2).Insert({"group": "a", "job": "c"}, 10.4, 1);
b := New(3).Insert({"group": "b", "job": "c"}, 12.4, 2)`, the identifiers visited in the stored
order in both calls. -/
theorem Combine_Cancel_linear_witness :
    ∃ (st st' : Mem OneBucket × Obj) (ga gb : OneBucket),
      Obj.global lin4.1 lin2.2 = some ga ∧ Obj.global lin4.1 lin4.2 = some gb ∧
      Obj.Combine lin4.1 lin2.2 lin4.2
        (GoMap.keys (allkvps (view lin4.1 lin2.2) (view lin4.1 lin4.2))) = some st ∧
      Obj.Cancel st.1 st.2 lin4.2
        (GoMap.keys (allkvps (view lin5.1 lin5.2) (view lin5.1 lin4.2))) = some st' ∧
      Obj.global st'.1 st'.2 = some (Histogram.Cancel (Histogram.Combine ga gb) gb) ∧
      Obj.TotalCount st'.1 st'.2 =
        some (Histogram.Total (Histogram.Cancel (Histogram.Combine ga gb) gb)) ∧
      (Histogram.Total (Histogram.Cancel (Histogram.Combine ga gb) gb) = Histogram.Total ga →
        Obj.TotalCount st'.1 st'.2 = Obj.TotalCount lin4.1 lin2.2) :=
  Combine_Cancel_linear lin4.1 [lin4.2, lin2.2] lin2.2 lin4.2 _ _ lin_run
    (List.mem_cons_of_mem _ (List.mem_singleton.2 rfl)) (List.mem_cons_self _ _)
    (List.Perm.refl _) (fun st hst => by
      have e : st = lin5 := Option.some.inj (hst.symm.trans (Option.some_get _).symm)
      rw [e]
      exact List.Perm.refl _)

/-! ## Claims: per-identifier content of Combine and Cancel -/

/-- C7, as stated, fails: after `a := New(2); b := a.Insert({"x": "y"}, 1, 1)` both `a` and `b`
are obtained from `New` by `Insert`, and the identifier of `x=y` is in the index of both, at
slot 1, while `a.Registers` has length 1; `b.Combine(a)` panics on the read of
`a.Registers[1]`, in whichever order it visits the two identifiers, and returns no registry. -/
theorem Combine_with_kept_receiver_panics :
    Run false kept2.1 [kept2.2, kept1.2] ∧
      GoMap.get (kept2.1.maps kept1.2.Index) (pairId ("x", "y")) = some 1 ∧
      GoMap.get (kept2.1.maps kept2.2.Index) (pairId ("x", "y")) = some 1 ∧
      kept1.2.Registers.len = 1 ∧
      ∀ ord, IterOrder ord (allkvps (view kept2.1 kept2.2) (view kept2.1 kept1.2)) →
        Obj.Combine kept2.1 kept2.2 kept1.2 ord = none :=
  ⟨kept_run, by decide!, by decide!, by decide!, fun ord h => Option.isNone_iff_eq_none.1
    ((by decide! : ∀ o ∈ (GoMap.keys
        (allkvps (view kept2.1 kept2.2) (view kept2.1 kept1.2))).permutations,
      (Obj.Combine kept2.1 kept2.2 kept1.2 o).isNone = true) ord (List.mem_permutations.2 h))⟩

/-- C7, amended: in a program that builds its registries from `New` by `Insert`, `Combine` and
`Cancel` and never uses a registry again after it has been the receiver of an `Insert`, for
all registries `m` and `o` the program holds and every order of visit, `m.Combine(o)` returns a
registry whose index holds exactly the identifiers of `m.Index` and of `o.Index`, and the
histogram it holds for an identifier `x` is `m`'s when `x` is only in `m`, `o`'s when `x` is
only in `o`, and `m`'s combined with `o`'s when `x` is in both. -/
theorem Combine_per_identifier_linear (σ : Mem H) (hs : List Obj) (m o : Obj)
    (ord : List Int) (hrun : Run true σ hs) (hm : m ∈ hs) (ho : o ∈ hs)
    (hord : IterOrder ord (allkvps (view σ m) (view σ o))) :
    ∃ st : Mem H × Obj, Obj.Combine σ m o ord = some st ∧
      (∀ x, x ∈ GoMap.keys (view st.1 st.2).Index ↔
        (x ∈ GoMap.keys (view σ m).Index ∨ x ∈ GoMap.keys (view σ o).Index)) ∧
      (∀ x, x ∈ GoMap.keys (view σ m).Index → x ∉ GoMap.keys (view σ o).Index →
        ∃ a, (view σ m).histAt x = some a ∧ (view st.1 st.2).histAt x = some a) ∧
      (∀ x, x ∉ GoMap.keys (view σ m).Index → x ∈ GoMap.keys (view σ o).Index →
        ∃ b, (view σ o).histAt x = some b ∧ (view st.1 st.2).histAt x = some b) ∧
      (∀ x, x ∈ GoMap.keys (view σ m).Index → x ∈ GoMap.keys (view σ o).Index →
        ∃ a b, (view σ m).histAt x = some a ∧ (view σ o).histAt x = some b ∧
          (view st.1 st.2).histAt x = some (Histogram.Combine a b)) := by
  obtain ⟨out, h, p⟩ := Reachable.Combine_per_identifier (view σ m) (view σ o) ord
    (hrun.reachable hm) (hrun.reachable ho) hord
  have s := Combine_view σ m o ord (hrun.valid hm) (hrun.valid ho)
  rw [h] at s
  obtain ⟨st, e, ev, -⟩ := s.of_some
  subst ev
  exact ⟨st, e, p⟩

/-- Witness of C7: the registries `a` and `b` of the program
`a := New(2).Insert({"group": "a", "job": "c"}, 10.4, 1);
b := New(3).Insert({"group": "b", "job": "c"}, 12.4, 2)`, which share the identifiers of the
global pair and of `job=c`, the identifiers visited in the reverse of the stored order. -/
theorem Combine_per_identifier_linear_witness :
    ∃ st : Mem OneBucket × Obj,
      Obj.Combine lin4.1 lin2.2 lin4.2
        (GoMap.keys (allkvps (view lin4.1 lin2.2) (view lin4.1 lin4.2))).reverse = some st ∧
      (∀ x, x ∈ GoMap.keys (view st.1 st.2).Index ↔
        (x ∈ GoMap.keys (view lin4.1 lin2.2).Index ∨
          x ∈ GoMap.keys (view lin4.1 lin4.2).Index)) ∧
      (∀ x, x ∈ GoMap.keys (view lin4.1 lin2.2).Index →
        x ∉ GoMap.keys (view lin4.1 lin4.2).Index →
        ∃ a, (view lin4.1 lin2.2).histAt x = some a ∧ (view st.1 st.2).histAt x = some a) ∧
      (∀ x, x ∉ GoMap.keys (view lin4.1 lin2.2).Index →
        x ∈ GoMap.keys (view lin4.1 lin4.2).Index →
        ∃ b, (view lin4.1 lin4.2).histAt x = some b ∧ (view st.1 st.2).histAt x = some b) ∧
      (∀ x, x ∈ GoMap.keys (view lin4.1 lin2.2).Index →
        x ∈ GoMap.keys (view lin4.1 lin4.2).Index →
        ∃ a b, (view lin4.1 lin2.2).histAt x = some a ∧
          (view lin4.1 lin4.2).histAt x = some b ∧
          (view st.1 st.2).histAt x = some (Histogram.Combine a b)) :=
  Combine_per_identifier_linear lin4.1 [lin4.2, lin2.2] lin2.2 lin4.2 _ lin_run
    (List.mem_cons_of_mem _ (List.mem_singleton.2 rfl)) (List.mem_cons_self _ _)
    (List.reverse_perm _)

/-- C8, as stated, fails: after `a := New(2); b := a.Insert({"x": "y"}, 1, 1)` both `a` and `b`
are obtained from `New` by `Insert`, and the identifier of `x=y` is in the index of both, at
slot 1, while `a.Registers` has length 1; `a.Cancel(b)` panics on the read of
`a.Registers[1]`, in whichever order it visits the two identifiers, and returns no registry. -/
theorem Cancel_with_kept_receiver_panics :
    Run false kept2.1 [kept2.2, kept1.2] ∧
      GoMap.get (kept2.1.maps kept1.2.Index) (pairId ("x", "y")) = some 1 ∧
      GoMap.get (kept2.1.maps kept2.2.Index) (pairId ("x", "y")) = some 1 ∧
      kept1.2.Registers.len = 1 ∧
      ∀ ord, IterOrder ord (allkvps (view kept2.1 kept1.2) (view kept2.1 kept2.2)) →
        Obj.Cancel kept2.1 kept1.2 kept2.2 ord = none :=
  ⟨kept_run, by decide!, by decide!, by decide!, fun ord h => Option.isNone_iff_eq_none.1
    ((by decide! : ∀ o ∈ (GoMap.keys
        (allkvps (view kept2.1 kept1.2) (view kept2.1 kept2.2))).permutations,
      (Obj.Cancel kept2.1 kept1.2 kept2.2 o).isNone = true) ord (List.mem_permutations.2 h))⟩

/-- C8, amended: in a program that builds its registries from `New` by `Insert`, `Combine` and
`Cancel` and never uses a registry again after it has been the receiver of an `Insert`, for
all registries `m` and `o` the program holds and every order of visit, `m.Cancel(o)` returns a
registry whose index holds exactly the identifiers of `m.Index` and of `o.Index`, and the
histogram it holds for an identifier `x` is `m`'s, unchanged, when `x` is only in `m`, a fresh
histogram of `m`'s resolution cancelled against `o`'s when `x` is only in `o`, and `m`'s
cancelled against `o`'s when `x` is in both. -/
theorem Cancel_per_identifier_linear (σ : Mem H) (hs : List Obj) (m o : Obj)
    (ord : List Int) (hrun : Run true σ hs) (hm : m ∈ hs) (ho : o ∈ hs)
    (hord : IterOrder ord (allkvps (view σ m) (view σ o))) :
    ∃ st : Mem H × Obj, Obj.Cancel σ m o ord = some st ∧
      (∀ x, x ∈ GoMap.keys (view st.1 st.2).Index ↔
        (x ∈ GoMap.keys (view σ m).Index ∨ x ∈ GoMap.keys (view σ o).Index)) ∧
      (∀ x, x ∈ GoMap.keys (view σ m).Index → x ∉ GoMap.keys (view σ o).Index →
        ∃ a, (view σ m).histAt x = some a ∧ (view st.1 st.2).histAt x = some a) ∧
      (∀ x, x ∉ GoMap.keys (view σ m).Index → x ∈ GoMap.keys (view σ o).Index →
        ∃ b, (view σ o).histAt x = some b ∧
          (view st.1 st.2).histAt x =
            some (Histogram.Cancel (Histogram.New m.Resolution) b)) ∧
      (∀ x, x ∈ GoMap.keys (view σ m).Index → x ∈ GoMap.keys (view σ o).Index →
        ∃ a b, (view σ m).histAt x = some a ∧ (view σ o).histAt x = some b ∧
          (view st.1 st.2).histAt x = some (Histogram.Cancel a b)) := by
  obtain ⟨out, h, p⟩ := Reachable.Cancel_per_identifier (view σ m) (view σ o) ord
    (hrun.reachable hm) (hrun.reachable ho) hord
  have s := Cancel_view σ m o ord (hrun.valid hm) (hrun.valid ho)
  rw [h] at s
  obtain ⟨st, e, ev, -⟩ := s.of_some
  subst ev
  exact ⟨st, e, p⟩

/-- Witness of C8: the registries `a` and `b` of the program
`a := New(2).Insert({"group": "a", "job": "c"}, 10.4, 1);
b := New(3).Insert({"group": "b", "job": "c"}, 12.4, 2)`, the identifiers visited in the
reverse of the stored order. -/
theorem Cancel_per_identifier_linear_witness :
    ∃ st : Mem OneBucket × Obj,
      Obj.Cancel lin4.1 lin2.2 lin4.2
        (GoMap.keys (allkvps (view lin4.1 lin2.2) (view lin4.1 lin4.2))).reverse = some st ∧
      (∀ x, x ∈ GoMap.keys (view st.1 st.2).Index ↔
        (x ∈ GoMap.keys (view lin4.1 lin2.2).Index ∨
          x ∈ GoMap.keys (view lin4.1 lin4.2).Index)) ∧
      (∀ x, x ∈ GoMap.keys (view lin4.1 lin2.2).Index →
        x ∉ GoMap.keys (view lin4.1 lin4.2).Index →
        ∃ a, (view lin4.1 lin2.2).histAt x = some a ∧ (view st.1 st.2).histAt x = some a) ∧
      (∀ x, x ∉ GoMap.keys (view lin4.1 lin2.2).Index →
        x ∈ GoMap.keys (view lin4.1 lin4.2).Index →
        ∃ b, (view lin4.1 lin4.2).histAt x = some b ∧
          (view st.1 st.2).histAt x =
            some (Histogram.Cancel (Histogram.New lin2.2.Resolution) b)) ∧
      (∀ x, x ∈ GoMap.keys (view lin4.1 lin2.2).Index →
        x ∈ GoMap.keys (view lin4.1 lin4.2).Index →
        ∃ a b, (view lin4.1 lin2.2).histAt x = some a ∧
          (view lin4.1 lin4.2).histAt x = some b ∧
          (view st.1 st.2).histAt x = some (Histogram.Cancel a b)) :=
  Cancel_per_identifier_linear lin4.1 [lin4.2, lin2.2] lin2.2 lin4.2 _ lin_run
    (List.mem_cons_of_mem _ (List.mem_singleton.2 rfl)) (List.mem_cons_self _ _)
    (List.reverse_perm _)

/-! ## Claims: the index of the registries a program holds -/

theorem view_length (σ : Mem H) (m : Obj) (hv : Valid σ m) :
    (view σ m).Registers.length = m.Registers.len := by
  show ((σ.arrs m.Registers.arr).take m.Registers.len).length = m.Registers.len
  rw [List.length_take]
  exact min_eq_left hv.1

/-- C16, as stated, fails: after `a := New(2); b := a.Insert({"x": "y"}, 1, 1)` the registry
`a` is obtained from `New`, its index, shared with `b`, gives the identifier of `x=y` the slot
position 1, `a.Registers` has length 1, and `a.Sketch({"x": "y"})` panics on the read of
`a.Registers[1]`. -/
theorem Index_of_kept_receiver_out_of_range :
    Run false kept2.1 [kept2.2, kept1.2] ∧
      GoMap.get (kept2.1.maps kept1.2.Index) (pairId ("x", "y")) = some 1 ∧
      kept1.2.Registers.len = 1 ∧
      Obj.Sketch kept2.1 kept1.2 [("x", "y")] = none :=
  ⟨kept_run, by decide!, by decide!, by decide!⟩

/-- C16, amended: in a program that builds its registries from `New` by `Insert`, `Combine`
and `Cancel` and never uses a registry again after it has been the receiver of an `Insert`,
for every registry `R` the program holds, the global identifier is a key of `Index` and every
slot position `i` the index gives satisfies `0 <= i < len(Registers)`; hence `global` and
`TotalCount` return, `Sketch` returns for every label map, and `Combine` and `Cancel` with
every registry the program holds return, none of them reading a register out of range. -/
theorem Index_in_range_linear (σ : Mem H) (hs : List Obj) (R : Obj) (hrun : Run true σ hs)
    (hR : R ∈ hs) :
    (GoMap.get (σ.maps R.Index) globalId).isSome = true ∧
      (∀ k i, GoMap.get (σ.maps R.Index) k = some i → 0 ≤ i ∧ i < (R.Registers.len : Int)) ∧
      (∃ g, Obj.global σ R = some g) ∧ (∃ t, Obj.TotalCount σ R = some t) ∧
      (∀ L : Labels, ∃ h, Obj.Sketch σ R L = some h) ∧
      (∀ (o : Obj) (ord : List Int), o ∈ hs →
        IterOrder ord (allkvps (view σ R) (view σ o)) →
        (∃ st, Obj.Combine σ R o ord = some st) ∧ ∃ st, Obj.Cancel σ R o ord = some st) := by
  obtain ⟨h1, h2, h3, h4, h5, h6⟩ := Reachable.Index_in_range (view σ R) (hrun.reachable hR)
  refine ⟨h1, ?_, ?_, ?_, ?_, ?_⟩
  · intro k i hk
    have := h2 k i hk
    rw [view_length σ R (hrun.valid hR)] at this
    exact this
  · rw [global_view]; exact h3
  · rw [TotalCount_view]; exact h4
  · intro L
    rw [Sketch_view]; exact h5 L
  · intro o ord ho hord
    obtain ⟨⟨out, e⟩, ⟨out', e'⟩⟩ := h6 (view σ o) ord (hrun.reachable ho) hord
    have s := Combine_view σ R o ord (hrun.valid hR) (hrun.valid ho)
    have s' := Cancel_view σ R o ord (hrun.valid hR) (hrun.valid ho)
    rw [e] at s
    rw [e'] at s'
    obtain ⟨st, hst, -⟩ := s.of_some
    obtain ⟨st', hst', -⟩ := s'.of_some
    exact ⟨⟨st, hst⟩, ⟨st', hst'⟩⟩

/-- Witness of C16: the registry `a` of the program
`a := New(2).Insert({"group": "a", "job": "c"}, 10.4, 1);
b := New(3).Insert({"group": "b", "job": "c"}, 12.4, 2)`. -/
theorem Index_in_range_linear_witness :
    (GoMap.get (lin4.1.maps lin2.2.Index) globalId).isSome = true ∧
      (∀ k i, GoMap.get (lin4.1.maps lin2.2.Index) k = some i →
        0 ≤ i ∧ i < (lin2.2.Registers.len : Int)) ∧
      (∃ g, Obj.global lin4.1 lin2.2 = some g) ∧ (∃ t, Obj.TotalCount lin4.1 lin2.2 = some t) ∧
      (∀ L : Labels, ∃ h, Obj.Sketch lin4.1 lin2.2 L = some h) ∧
      (∀ (o : Obj) (ord : List Int), o ∈ [lin4.2, lin2.2] →
        IterOrder ord (allkvps (view lin4.1 lin2.2) (view lin4.1 o)) →
        (∃ st, Obj.Combine lin4.1 lin2.2 o ord = some st) ∧
          ∃ st, Obj.Cancel lin4.1 lin2.2 o ord = some st) :=
  Index_in_range_linear lin4.1 [lin4.2, lin2.2] lin2.2 lin_run
    (List.mem_cons_of_mem _ (List.mem_singleton.2 rfl))

/-- C20, as stated, fails: after `a := New(2).Insert({"p": "q"}, 1, 1)`, the call
`a.Insert({"x": "y"}, 1, 10)` whose result is dropped, and `c := a.Insert({"u": "w"}, 1, 100)`,
the registry `c` is obtained from `New` by `Insert` calls and its index gives the two distinct
identifiers of `x=y` and of `u=w` the same slot position 2; the histogram read for `x=y` is
the one written for `u=w`, and `c.Count({"x": "y"})` is 100. -/
theorem Index_after_dropped_Insert_not_injective :
    Run false twice3.1 [twice3.2, twice2.2, twice1.2, twice0.2] ∧
      GoMap.get (twice3.1.maps twice3.2.Index) (pairId ("x", "y")) = some 2 ∧
      GoMap.get (twice3.1.maps twice3.2.Index) (pairId ("u", "w")) = some 2 ∧
      pairId ("x", "y") ≠ pairId ("u", "w") ∧
      Obj.Count twice3.1 twice3.2 [("x", "y")] = some 100 :=
  ⟨twice_run, by decide!, by decide!, by decide!, by decide!⟩

/-- C20, amended: in a program that builds its registries from `New` by `Insert`, `Combine`
and `Cancel` and never uses a registry again after it has been the receiver of an `Insert`,
for every registry `R` the program holds, no two distinct identifiers of `Index` have the same
slot position, so writing a histogram to the slot of one identifier leaves the histogram read
for every other identifier unchanged. -/
theorem Index_injective_linear (σ : Mem H) (hs : List Obj) (R : Obj) (hrun : Run true σ hs)
    (hR : R ∈ hs) :
    (∀ k k' i, GoMap.get (σ.maps R.Index) k = some i →
        GoMap.get (σ.maps R.Index) k' = some i → k = k') ∧
      (∀ (k k' : Int) (i : Int) (h : H), GoMap.get (σ.maps R.Index) k = some i → k' ≠ k →
        (view (σ.write R.Registers i h) R).histAt k' = (view σ R).histAt k') := by
  obtain ⟨h1, h2⟩ := Reachable.Index_injective (view σ R) (hrun.reachable hR)
  refine ⟨h1, ?_⟩
  intro k k' i h hk hne
  rw [(write_view σ R i h (hrun.valid hR)).1]
  exact h2 k k' i h hk hne

/-- Witness of C20: the registry `a` of the program
`a := New(2).Insert({"group": "a", "job": "c"}, 10.4, 1);
b := New(3).Insert({"group": "b", "job": "c"}, 12.4, 2)`. -/
theorem Index_injective_linear_witness :
    (∀ k k' i, GoMap.get (lin4.1.maps lin2.2.Index) k = some i →
        GoMap.get (lin4.1.maps lin2.2.Index) k' = some i → k = k') ∧
      (∀ (k k' : Int) (i : Int) (h : OneBucket),
        GoMap.get (lin4.1.maps lin2.2.Index) k = some i → k' ≠ k →
        (view (lin4.1.write lin2.2.Registers i h) lin2.2).histAt k' =
          (view lin4.1 lin2.2).histAt k') :=
  Index_injective_linear lin4.1 [lin4.2, lin2.2] lin2.2 lin_run
    (List.mem_cons_of_mem _ (List.mem_singleton.2 rfl))

/-! ## Shared storage: sequences of Insert calls -/

theorem runInserts_view (ops : List (Labels × ℚ × ℚ)) :
    ∀ st : Mem H × Obj, Valid st.1 st.2 →
      (Obj.runInserts st ops).map (fun s => view s.1 s.2) =
        runInserts (view st.1 st.2) ops := by
  induction ops with
  | nil => intro st _; rfl
  | cons op rest ih =>
    intro st hv
    have s := Insert_view st.1 st.2 op.1 op.2.1 op.2.2 hv
    unfold Obj.runInserts runInserts
    cases h : Obj.Insert st.1 st.2 op.1 op.2.1 op.2.2 with
    | none =>
      rw [h] at s
      have hp : (view st.1 st.2).Insert op.1 op.2.1 op.2.2 = none := s
      simp [hp]
    | some st1 =>
      rw [h] at s
      obtain ⟨hp, hv1, -⟩ := s
      rw [hp]
      exact ih st1 hv1

theorem build_view (σ : Mem H) (r : Int) (ops : List (Labels × ℚ × ℚ)) :
    (Obj.build σ r ops).map (fun s => view s.1 s.2) = build r ops := by
  have s := New_view σ r
  unfold Obj.build build
  cases h : Obj.New σ r with
  | none =>
    rw [h] at s
    have hp : (New r : Option (HMSketch H)) = none := s
    simp [hp]
  | some st =>
    rw [h] at s
    obtain ⟨hp, hv, -⟩ := s
    rw [hp]
    exact runInserts_view ops st hv

theorem built_keys_image (r : Int) (ops : List (Labels × ℚ × ℚ)) :
    (GoMap.keys (built r ops : HMSketch H).Index).toFinset =
      (observed ops).toFinset.image pairId := by
  ext x
  rw [List.mem_toFinset, GoMap.mem_keys_iff, built_keys, Finset.mem_image]
  constructor
  · rintro (e | ⟨op, ho, q, hq, e⟩)
    · exact ⟨("__global__", "__global__"), by simp [observed], by rw [pairId_global, e]⟩
    · refine ⟨q, ?_, e⟩
      rw [List.mem_toFinset]
      exact List.mem_cons_of_mem _ (List.mem_flatMap.2 ⟨op, ho, hq⟩)
  · rintro ⟨q, hq, e⟩
    rw [List.mem_toFinset] at hq
    rcases List.mem_cons.1 hq with rfl | hq
    · exact Or.inl (by rw [← e, pairId_global])
    · obtain ⟨op, ho, hq⟩ := List.mem_flatMap.1 hq
      exact Or.inr ⟨op, ho, q, hq, e⟩

theorem card_image_lt_iff {α β : Type} [DecidableEq α] [DecidableEq β] (f : α → β)
    (S : Finset α) :
    (S.image f).card < S.card ↔ ∃ p ∈ S, ∃ q ∈ S, p ≠ q ∧ f p = f q := by
  rw [lt_iff_le_and_ne, and_iff_right Finset.card_image_le, Ne, Finset.card_image_iff]
  unfold Set.InjOn
  constructor
  · intro h
    by_contra hc
    apply h
    intro p hp q hq e
    by_contra hne
    exact hc ⟨p, hp, q, hq, hne, e⟩
  · rintro ⟨p, hp, q, hq, hne, e⟩ h
    exact hne (h hp hq e)

/-! ## Claims: the slot count -/

/-- C17, as stated, fails.  After `New(2)`, `Insert({"a:::b": "c"}, 1, 1)` and
`Insert({"a": "b:::c"}, 1, 1)` three distinct pairs have been observed, the global one
included, while `Max` and the number of identifiers are 2: the two label pairs have the same
identifier.  After `a := New(2).Insert({"p": "q"}, 1, 1)`, the call
`a.Insert({"x": "y"}, 1, 10)` whose result is dropped, and `c := a.Insert({"u": "w"}, 1, 100)`,
the registry `c` has `Max == 3` and 4 identifiers in its index.  And `New(2).Combine(New(2))`,
like `New(2).Cancel(New(2))`, returns a registry with `Max == 2` and `len(Registers) == 2`
whose index holds one identifier, at slot 1: slot 0, allocated by the `New` inside `Combine`,
belongs to no identifier. -/
theorem Max_differs_from_observed_pairs :
    ((build 2 [([("a:::b", "c")], 1, 1), ([("a", "b:::c")], 1, 1)] :
        Option (HMSketch OneBucket)).map fun R => (R.Max, idCount R)) = some (2, 2) ∧
      observedPairs [([("a:::b", "c")], 1, 1), ([("a", "b:::c")], 1, 1)] = 3 ∧
      Run false twice3.1 [twice3.2, twice2.2, twice1.2, twice0.2] ∧
      twice3.2.Max = 3 ∧ idCount (view twice3.1 twice3.2) = 4 ∧
      IterOrder [globalId] (allkvps (newReg 2 : HMSketch OneBucket) (newReg 2)) ∧
      ((New 2 : Option (HMSketch OneBucket)).bind fun R =>
        (R.Combine R [globalId]).map fun out =>
          (out.Max, out.Registers.length, idCount out, GoMap.get out.Index globalId)) =
        some (2, 2, 1, some 1) ∧
      ((New 2 : Option (HMSketch OneBucket)).bind fun R =>
        (R.Cancel R [globalId]).map fun out =>
          (out.Max, out.Registers.length, idCount out, GoMap.get out.Index globalId)) =
        some (2, 2, 1, some 1) := by
  refine ⟨?_, ?_, twice_run, ?_, ?_, ?_, ?_, ?_⟩
  · decide!
  · decide
  · decide!
  · decide!
  · simp [IterOrder, allkvps, newReg, GoMap.keys, GoMap.set]
  · decide!
  · decide!

/-- C17, amended: for every registry obtained from `New` by a finite sequence of `Insert`
calls, each applied to the registry returned by the previous call, the slot count `Max` equals
the number of distinct identifiers in `Index`; these are the global identifier and the
identifiers of the label pairs observed, and their number is at most the number of distinct
pairs observed, counting the reserved global pair, and smaller exactly when two distinct
observed pairs have the same identifier. -/
theorem Insert_chain_Max_eq_identifiers (σ : Mem H) (r : Int)
    (ops : List (Labels × ℚ × ℚ)) :
    ∃ st : Mem H × Obj, Obj.build σ r ops = some st ∧
      st.2.Max = (idCount (view st.1 st.2) : Int) ∧
      (∀ x, x ∈ GoMap.keys (st.1.maps st.2.Index) ↔
        (x = globalId ∨ ∃ op ∈ ops, ∃ q ∈ op.1, pairId q = x)) ∧
      idCount (view st.1 st.2) ≤ observedPairs ops ∧
      (idCount (view st.1 st.2) < observedPairs ops ↔
        ∃ p ∈ observed ops, ∃ q ∈ observed ops, p ≠ q ∧ pairId p = pairId q) := by
  have hb := build_view (H := H) σ r ops
  rw [build_eq_built] at hb
  cases h : Obj.build σ r ops with
  | none => rw [h] at hb; exact absurd hb (by simp)
  | some st =>
    rw [h] at hb
    have ev : view st.1 st.2 = built r ops := Option.some.inj hb
    have hcard : idCount (view st.1 st.2) = ((observed ops).toFinset.image pairId).card := by
      rw [ev]
      unfold idCount
      rw [built_keys_image]
    refine ⟨st, rfl, ?_, ?_, ?_, ?_⟩
    · have := build_Max_eq_idCount (H := H) r ops
      rw [← ev] at this
      exact this
    · intro x
      have := built_keys (H := H) r ops x
      rw [← ev, ← GoMap.mem_keys_iff] at this
      exact this
    · rw [hcard]
      exact Finset.card_image_le
    · rw [hcard]
      show _ < (observed ops).toFinset.card ↔ _
      rw [card_image_lt_iff]
      simp only [List.mem_toFinset]
